import Mathlib

namespace Minauto

/-- Functional update of a one-dimensional array. -/
def upd {α : Type} (f : Nat → α) (i : Nat) (v : α) : Nat → α :=
  fun j => if j = i then v else f j

/-- Functional update of a two-dimensional array. -/

def upd2 {α : Type} (f : Nat → Nat → α) (i j : Nat) (v : α) : Nat → Nat → α :=
  fun a b => if a = i ∧ b = j then v else f a b

/-- Ascending `for (i = 1; i <= n; i++)` loop over a threaded state. -/
def loop1 {σ : Type} (f : Nat → σ → σ) : Nat → σ → σ
  | 0, s => s
  | n + 1, s => f (n + 1) (loop1 f n s)

/-- Ascending `for (i = 0; i < k; i++)` loop over a threaded state. -/

def loop0 {σ : Type} (f : Nat → σ → σ) : Nat → σ → σ
  | 0, s => s
  | k + 1, s => f k (loop0 f k s)

/-! ## The union-find store (module ufind.c)

A partition vector `rep` maps each element of `[1, n]` to an `Int` cell:
`0` marks a singleton, a positive value is a parent pointer, and a
negative value `-w` marks a root whose tree has `w` descendants. -/

/-- Phase (a) of `find`: chase parent pointers to the root.
Mirrors `for (i = elem; rep[i] > 0; i = rep[i]);`. -/

def find_loop : Nat → (Nat → Int) → Nat → Nat
  | 0, _, i => i
  | fuel + 1, rep, i => if rep i > 0 then find_loop fuel rep (rep i).toNat else i

/-- Phase (b) of `find`: path compression, re-parenting every node on the
chase path directly to the root `i`.
Mirrors `while (rep[elem] > 0) { temp = elem; elem = rep[elem]; rep[temp] = i; }`. -/

def compress_path : Nat → (Nat → Int) → Nat → Nat → (Nat → Int)
  | 0, rep, _, _ => rep
  | fuel + 1, rep, elem, i =>
    if rep elem > 0 then
      compress_path fuel (upd rep elem ((i : Int))) (rep elem).toNat i
    else rep

/-- The embedded `find (elem, rep)` from ufind.c: returns the class
representative of `elem` together with the mutated vector. -/

def find (elem : Nat) (rep : Nat → Int) (fuel : Nat) : Nat × (Nat → Int) :=
  let i := find_loop fuel rep elem
  (i, compress_path fuel rep elem i)

/-- The embedded `Union (elem1, elem2, rep)` from ufind.c: weight-balancing
union of the classes of the two elements. -/

def Union (elem1 elem2 : Nat) (rep : Nat → Int) (fuel : Nat) : Nat → Int :=
  let p1 := find elem1 rep fuel
  let i := p1.1
  let p2 := find elem2 p1.2 fuel
  let j := p2.1
  let rep2 := p2.2
  if i ≠ j then
    if rep2 j > rep2 i then
      upd (upd rep2 i (rep2 i + (rep2 j - 1))) j ((i : Int))
    else
      upd (upd rep2 j (rep2 j + (rep2 i - 1))) i ((j : Int))
  else rep2

/-! ## Flat partition vectors

The program only ever builds trees of depth at most one: every `Union`
call in partit.c has a singleton second class, so the attached node hangs
directly under the surviving root.  `Flat` captures the resulting shape:
every cell of `[1, n]` is a root cell (`≤ 0`) or points to an in-range
cell that is a strictly negative root cell. -/

def Flat (n : Nat) (g : Nat → Int) : Prop :=
  ∀ e, e ≤ n → 1 ≤ e →
    g e ≤ 0 ∨ (1 ≤ g e ∧ g e ≤ (n : Int) ∧ g (g e).toNat < 0)

/-- The root of an element of a flat vector: its parent if it has one,
itself otherwise. -/

def root (g : Nat → Int) (e : Nat) : Nat :=
  if g e > 0 then (g e).toNat else e

/-- General well-formedness of a partition vector (spec section 3.2):
parent pointers are in range and every parent chain reaches a root cell,
necessarily within `n` steps. -/
def WFN (n : Nat) (g : Nat → Int) : Prop :=
  ∀ e, e ≤ n → 1 ≤ e →
    (0 < g e → 1 ≤ g e ∧ g e ≤ (n : Int)) ∧ g (find_loop n g e) ≤ 0

instance (n : Nat) (g : Nat → Int) : Decidable (WFN n g) := by
  unfold WFN
  exact inferInstance

/-- The parent chain of `x` reaches the root `r`. -/
def RootsTo (g : Nat → Int) (x r : Nat) : Prop :=
  (∃ f, find_loop f g x = r) ∧ g r ≤ 0

/-- The DFA data model of auto.h.  States are numbered `1..nstates`
internally, with `0` the sink ("no transition").  `mat s j` is the
transition of state `s` on alphabet symbol `j`.  `state_attrib` holds the
attribute characters used by the C code; `accept` is the
sentinel-terminated list of accepting state ids. -/
structure Automaton where
  nstates : Nat
  nab : Nat
  mat : Nat → Nat → Nat
  init_state : Nat
  accept : Nat → Nat
  state_attrib : Nat → Char

/-- The null attribute character written by the parser for plain states. -/

def attrNull : Char := Char.ofNat 0

/-- The all-zero automaton: the initial contents of the static
`out_dfa` variable of main.c. -/

def zeroAutomaton : Automaton :=
  { nstates := 0, nab := 0, mat := fun _ _ => 0, init_state := 0,
    accept := fun _ => 0, state_attrib := fun _ => attrNull }

/-- Validity of the sentinel-terminated accept list: some index `k ≤ m`
holds the sentinel `0`, and every entry before the first sentinel is an
in-range state carrying attribute 'A'. -/

def acceptChainOk (d : Automaton) : Nat → Nat → Bool
  | _, 0 => false
  | k, m + 1 =>
    if d.accept k = 0 then true
    else
      decide (1 ≤ d.accept k) && decide (d.accept k ≤ d.nstates) &&
      decide (d.state_attrib (d.accept k) = 'A') && acceptChainOk d (k + 1) m

/-- Invariants established by `input_dfa` of inout.c for the automaton it
builds (together with the zero initialization of the static `in_dfa`):
positive dimensions, in-range transition entries, an absorbing sink row,
initial state 1, attributes drawn from binary 'A' or null, and a valid
sentinel-terminated accept list. -/

def ValidDFA (d : Automaton) : Prop :=
  1 ≤ d.nstates ∧ 1 ≤ d.nab ∧
  d.init_state = 1 ∧
  (∀ s, s ≤ d.nstates → 1 ≤ s → ∀ j, j ≤ d.nab → 1 ≤ j → d.mat s j ≤ d.nstates) ∧
  (∀ j, j ≤ d.nab → 1 ≤ j → d.mat 0 j = 0) ∧
  d.state_attrib 0 ≠ 'A' ∧
  acceptChainOk d 0 (d.nstates + 1) = true

instance (d : Automaton) : Decidable (ValidDFA d) := by
  unfold ValidDFA
  exact inferInstance

/-! ## The partition refiner (module partit.c) -/

/-- Loop body result state for `same_transitions`: the flag still true
means all symbols checked so far had equivalent transitions. -/

def st_loop (s1 s2 : Nat) (mat : Nat → Nat → Nat) (fuel : Nat) :
    Nat → Nat → (Nat → Int) → Bool × (Nat → Int)
  | _, 0, g => (true, g)
  | i, k + 1, g =>
    let t1 := mat s1 i
    let p1 := if t1 > 0 then find t1 g fuel else (t1, g)
    let t2 := mat s2 i
    let p2 := if t2 > 0 then find t2 p1.2 fuel else (t2, p1.2)
    if p1.1 ≠ p2.1 then (false, p2.2)
    else st_loop s1 s2 mat fuel (i + 1) k p2.2

/-- The embedded `same_transitions (s1, s2, mat, nab, groups)`: do the two
states go to the same equivalence class on every alphabet symbol? -/

def same_transitions (s1 s2 : Nat) (mat : Nat → Nat → Nat) (nab : Nat)
    (g : Nat → Int) (fuel : Nat) : Bool × (Nat → Int) :=
  st_loop s1 s2 mat fuel 1 nab g

/-- The embedded `update_partitions (group_size, member, old_groups,
new_groups)`: detect whether the two vectors partition the group members
differently and, if so, copy the new cells over the old ones.  Returns
(updated, old_groups, new_groups). -/

def update_partitions (group_size : Nat) (member : Nat → Nat)
    (oldg newg : Nat → Int) (fuel : Nat) :
    Bool × (Nat → Int) × (Nat → Int) :=
  let scan := loop0 (fun i st =>
    if st.1 then st
    else
      let p1 := find (member i) st.2.1 fuel
      let p2 := find (member i) st.2.2 fuel
      (decide (p1.1 ≠ p2.1), p1.2, p2.2)) group_size (false, oldg, newg)
  if scan.1 then
    let og := loop0 (fun i og => upd og (member i) (scan.2.2 (member i)))
      group_size scan.2.1
    (true, og, scan.2.2)
  else
    (false, scan.2.1, scan.2.2)

/-- The embedded `init_partitions (nstates, attribs, groups)`: clear the
vector and build (at most) two classes, the accept states and the rest. -/

def init_partitions (nstates : Nat) (attribs : Nat → Char) (g0 : Nat → Int)
    (fuel : Nat) : Nat → Int :=
  let cleared := loop1 (fun i g => upd g i 0) nstates g0
  let res := loop1 (fun i st =>
    let accept_rep := st.1
    let others_rep := st.2.1
    let g := st.2.2
    if attribs i = 'A' then
      if accept_rep = 0 then (i, others_rep, g)
      else (accept_rep, others_rep, Union accept_rep i g fuel)
    else
      if others_rep = 0 then (accept_rep, i, g)
      else (accept_rep, others_rep, Union others_rep i g fuel))
    nstates ((0 : Nat), (0 : Nat), cleared)
  res.2.2

/-- State threaded through one `rep`-iteration of `partition`:
the `member` array, the scratch vector `new_groups`, the `unified`
flags, the main vector `old_groups`, and the `updated` flag. -/

structure PartState where
  member : Nat → Nat
  newg : Nat → Int
  unified : Nat → Bool
  oldg : Nat → Int
  updated : Bool

/-- Membership scan of `partition`: collect the members of the class of
`rep0` into `member[0..group_size)`, making each a scratch singleton.
Returns the group size with the threaded state. -/

def member_scan (rep0 nstates fuel : Nat) (st : PartState) : Nat × PartState :=
  loop1 (fun i acc =>
    let size := acc.1
    let s := acc.2
    let p := find i s.oldg fuel
    if p.1 = rep0 then
      (size + 1,
       { s with member := upd s.member size i,
                newg := upd s.newg i 0,
                unified := upd s.unified i false,
                oldg := p.2 })
    else (size, { s with oldg := p.2 })) nstates (0, st)

/-- Inner pair loop of `partition` for the leader `member[i]`:
try `member[j]` for `j = i+1 .. group_size-1`. -/

def pair_loop (dfa : Automaton) (group_size i fuel : Nat) (st : PartState) :
    PartState :=
  loop0 (fun t s =>
    let j := i + 1 + t
    if s.unified (s.member j) then s
    else
      let p := same_transitions (s.member i) (s.member j) dfa.mat dfa.nab s.oldg fuel
      if p.1 then
        { s with newg := Union (s.member i) (s.member j) s.newg fuel,
                 unified := upd s.unified (s.member j) true,
                 oldg := p.2 }
      else { s with oldg := p.2 }) (group_size - 1 - i) st

/-- Outer pair loop of `partition`: for every not-yet-unified leader
`member[i]`, unify with it all later members with the same transitions. -/

def unify_loop (dfa : Automaton) (group_size fuel : Nat) (st : PartState) :
    PartState :=
  loop0 (fun i s =>
    if s.unified (s.member i) then s
    else
      pair_loop dfa group_size i fuel
        { s with unified := upd s.unified (s.member i) true })
    (group_size - 1) st

/-- Body of `partition` for one candidate representative `rep0`. -/

def partition_step (dfa : Automaton) (fuel rep0 : Nat) (st : PartState) :
    PartState :=
  if st.oldg rep0 ≥ 0 then st
  else
    let ms := member_scan rep0 dfa.nstates fuel st
    let group_size := ms.1
    let st1 := unify_loop dfa group_size fuel ms.2
    let up := update_partitions group_size st1.member st1.oldg st1.newg fuel
    { st1 with oldg := up.2.1, newg := up.2.2,
               updated := st1.updated || up.1 }

/-- The embedded `partition (dfa, old_groups)` of partit.c: one sweep over
all current classes, splitting each by the same-transition criterion.
Returns the `updated` flag and the refined vector.  The local arrays
`member`, `new_groups` and `unified` are uninitialized in C; only cells
written earlier in the same sweep are ever read, so a zero default is
used for them here. -/

def partition (dfa : Automaton) (oldg : Nat → Int) (fuel : Nat) :
    Bool × (Nat → Int) :=
  let res := loop1 (partition_step dfa fuel) dfa.nstates
    { member := fun _ => 0, newg := fun _ => 0, unified := fun _ => false,
      oldg := oldg, updated := false }
  (res.updated, res.oldg)

/-- The refinement loop of `minimize_dfa`:
`while (partition(old_dfa, groups) == TRUE);`.
The fuel bounds the number of `partition` calls; the development shows
`nstates` calls always reach the fixpoint. -/

def refine_loop (dfa : Automaton) (fuel : Nat) (g : Nat → Int) : Nat → Int :=
  match fuel with
  | 0 => g
  | f + 1 =>
    let p := partition dfa g (dfa.nstates + 1)
    if p.1 then refine_loop dfa f p.2 else p.2

/-! ## The compressor (main.c, compress_dfa) -/

/-- First scan of `compress_dfa` (lines filling `rep`, `map`, `pam` and
`rep_count`): ascending over old states, record each state that is its
own find root, assigning new ids `1, 2, ...` in scan order.
Returns (map, pam, rep, rep_count, groups). -/

def compress_maps (nstates : Nat) (g : Nat → Int) (fuel : Nat) :
    (Nat → Nat) × (Nat → Nat) × (Nat → Nat) × Nat × (Nat → Int) :=
  loop1 (fun i st =>
    let mp := st.1
    let pm := st.2.1
    let rp := st.2.2.1
    let cnt := st.2.2.2.1
    let p := find i st.2.2.2.2 fuel
    let rp' := upd rp i p.1
    if i = p.1 then
      (upd mp i (cnt + 1), upd pm (cnt + 1) i, rp', cnt + 1, p.2)
    else (mp, pm, rp', cnt, p.2))
    nstates (fun _ => 0, fun _ => 0, fun _ => 0, 0, g)

/-- The embedded `compress_dfa (old_dfa, new_dfa, groups)`: rebuild the
automaton over the class representatives.  `out0` holds the previous
contents of the static `out_dfa`; cells the code does not write keep
their stale values.  Returns the new automaton and the threaded groups
vector. -/

def compress_dfa (old_dfa out0 : Automaton) (g : Nat → Int) (fuel : Nat) :
    Automaton × (Nat → Int) :=
  let cm := compress_maps old_dfa.nstates g fuel
  let mp := cm.1
  let pm := cm.2.1
  let rp := cm.2.2.1
  let rep_count := cm.2.2.2.1
  let g' := cm.2.2.2.2
  let filled := loop1 (fun i st =>
    let mt := st.1
    let at_ := st.2.1
    let ac := st.2.2.1
    let a_count := st.2.2.2
    let mt' := loop1 (fun j m => upd2 m i j (mp (rp (old_dfa.mat (pm i) j))))
      old_dfa.nab mt
    let at' := upd at_ i (old_dfa.state_attrib (pm i))
    if old_dfa.state_attrib (pm i) = 'A' then
      (mt', at', upd ac a_count i, a_count + 1)
    else (mt', at', ac, a_count))
    rep_count (out0.mat, out0.state_attrib, out0.accept, 0)
  ({ nstates := rep_count, nab := old_dfa.nab,
     mat := filled.1, init_state := mp (rp old_dfa.init_state),
     accept := filled.2.2.1, state_attrib := filled.2.1 }, g')

/-! ## Dead-state elimination (module dead.c) -/

/-- The embedded `init_connections (transitions_mat, nstates, nab)`:
clear the in-range part of the connectivity matrix, set the diagonal and
the direct transitions.  `c0` holds the previous contents of the static
`connected` matrix. -/

def init_connections (mat : Nat → Nat → Nat) (nstates nab : Nat)
    (c0 : Nat → Nat → Bool) : Nat → Nat → Bool :=
  loop1 (fun src c =>
    let c1 := loop1 (fun dest cc => upd2 cc src dest false) nstates c
    let c2 := upd2 c1 src src true
    loop1 (fun i cc =>
      if mat src i > 0 then upd2 cc src (mat src i) true else cc) nab c2)
    nstates c0

/-- The embedded `t_closure (nstates)`: Warshall transitive closure with
the pivot loop outermost (loop variables named as in the source:
`i` pivot, `j` row, `k` column). -/

def t_closure (nstates : Nat) (c0 : Nat → Nat → Bool) : Nat → Nat → Bool :=
  loop1 (fun i c =>
    loop1 (fun j cj =>
      if cj j i then
        loop1 (fun k ck => if ck i k then upd2 ck j k true else ck) nstates cj
      else cj) nstates c)
    nstates c0

/-- Accept-list scan of `find_dead_states`: does state `i` reach some
state on the sentinel-terminated accept list?  The fuel covers the list
length; a missing sentinel inside the fuel window reads as "no accepting
state reached", which matches 0 being found in the zero-filled tail of
the static array. -/

def accept_scan (acc : Nat → Nat) (conn : Nat → Nat → Bool) (i : Nat) :
    Nat → Nat → Bool
  | _, 0 => false
  | j, f + 1 =>
    if acc j = 0 then false
    else if conn i (acc j) then true
    else accept_scan acc conn i (j + 1) f

/-- The embedded `find_dead_states (dfa)`: mark states unreachable from
the initial state, then states that reach no accepting state, as dead.
`c0` holds the previous contents of the static `connected` matrix. -/

def find_dead_states (dfa : Automaton) (c0 : Nat → Nat → Bool) : Automaton :=
  let conn := t_closure dfa.nstates
    (init_connections dfa.mat dfa.nstates dfa.nab c0)
  let at1 := loop1 (fun i a =>
    if conn dfa.init_state i = false then upd a i 'D' else a)
    dfa.nstates dfa.state_attrib
  let at2 := loop1 (fun i a =>
    let attrib := a i
    if attrib = 'D' ∨ attrib = 'A' then a
    else if accept_scan dfa.accept conn i 0 (dfa.nstates + 1) then a
    else upd a i 'D')
    dfa.nstates at1
  { dfa with state_attrib := at2 }

/-! ## The orchestrator (main.c, minimize_dfa) -/

/-- The embedded `minimize_dfa (old_dfa, new_dfa, groups)`: initialize the
partition, refine to fixpoint, compress, then mark dead states.  `out0`
and `c0` are the previous contents of the static output automaton and
connectivity matrix. -/

def minimize_dfa (old_dfa out0 : Automaton) (g0 : Nat → Int)
    (c0 : Nat → Nat → Bool) : Automaton :=
  let fuel := old_dfa.nstates + 1
  let g1 := init_partitions old_dfa.nstates old_dfa.state_attrib g0 fuel
  let g2 := refine_loop old_dfa old_dfa.nstates g1
  let pair := compress_dfa old_dfa out0 g2 fuel
  find_dead_states pair.1 c0

/-! ## Acceptance semantics

The program has no `accepts` function; this is the standard DFA
acceptance of the README and spec: run the word from the initial state
through the transition matrix and accept iff the final state carries
attribute 'A'.  The sink 0 is absorbing, matching the zero-initialized
row 0 of the C matrices. -/

/-- Flatness relative to a set `M` of elements: cells of `M` are roots or
point to in-range strictly negative root cells that again lie in `M`.
The scratch vector `new_groups` of `partition` satisfies this only on the
member set of the class being split; its other cells hold stale values
from earlier classes of the same sweep. -/
def FlatOn (n : Nat) (M : Nat → Prop) (g : Nat → Int) : Prop :=
  ∀ e, e ≤ n → 1 ≤ e → M e →
    g e ≤ 0 ∨
    (1 ≤ g e ∧ g e ≤ (n : Int) ∧ M ((g e).toNat) ∧ g ((g e).toNat) < 0)

/-- The class value of a transition entry as used by `same_transitions`:
the sink 0 stands for itself, a state is represented by its root. -/
def clsv (g : Nat → Int) (t : Nat) : Nat := if t > 0 then root g t else t

/-- Two states have equivalent transitions under the partition `g`:
their class values agree on every alphabet symbol. -/
def sigEq (d : Automaton) (g : Nat → Int) (s1 s2 : Nat) : Prop :=
  ∀ a, 1 ≤ a → a ≤ d.nab → clsv g (d.mat s1 a) = clsv g (d.mat s2 a)

/-- Number of equivalence classes induced by a flat partition vector:
the number of root cells. -/
def classCount (n : Nat) (g : Nat → Int) : Nat :=
  ((Finset.Icc 1 n).filter (fun e => g e ≤ 0)).card

/-- Every multi-member class is rooted at its second-smallest member:
exactly one member is smaller than the root.  This holds for every vector
the program builds because `Union` is always called with a leader first
and a so-far-singleton element second, and ties root at the second
argument. -/
def RootSecond (n : Nat) (g : Nat → Int) : Prop :=
  ∀ r, r ≤ n → 1 ≤ r → g r < 0 →
    ((Finset.Icc 1 n).filter (fun e => root g e = r ∧ e < r)).card = 1

/-- The partition-vector invariant maintained by the whole pipeline. -/
def PartInv (n : Nat) (g : Nat → Int) : Prop := Flat n g ∧ RootSecond n g

/-- Same class implies same accept attribute. -/
def AttrCompat (n : Nat) (attr : Nat → Char) (g : Nat → Int) : Prop :=
  ∀ x y, x ≤ n → 1 ≤ x → y ≤ n → 1 ≤ y →
    root g x = root g y → (attr x = 'A' ↔ attr y = 'A')

/-- Same class implies equivalent transitions: the fixpoint property of
the refinement loop. -/
def SigCompat (d : Automaton) (g : Nat → Int) : Prop :=
  ∀ x y, x ≤ d.nstates → 1 ≤ x → y ≤ d.nstates → 1 ≤ y →
    root g x = root g y → sigEq d g x y

/-- One pivot step of the functional Warshall closure, restricted to the
in-range square: or the pivot row into every in-range row that reaches
the pivot. -/
def wstep (n : Nat) (c : Nat → Nat → Bool) (p : Nat) : Nat → Nat → Bool :=
  fun a b =>
    if 1 ≤ a ∧ a ≤ n ∧ 1 ≤ b ∧ b ≤ n ∧ (c a p && c p b) = true then true
    else c a b

/-- The functional Warshall closure after pivots `1..p`. -/
def wfold (n : Nat) (c : Nat → Nat → Bool) : Nat → (Nat → Nat → Bool)
  | 0 => c
  | p + 1 => wstep n (wfold n c p) (p + 1)

/-- Paths through true cells of the matrix `c` whose intermediate nodes
all lie in `[1, p]`: a single edge, or an edge followed by a path. -/
inductive BPath (c : Nat → Nat → Bool) : Nat → Nat → Nat → Prop where
  | single {p j k : Nat} : c j k = true → BPath c p j k
  | step {p j m k : Nat} : c j m = true → 1 ≤ m → m ≤ p →
      BPath c p m k → BPath c p j k

/-- The direct-transition relation of a DFA: some alphabet symbol sends
`s` to the (non-sink) state `t`. -/
def stepRel (d : Automaton) (s t : Nat) : Prop :=
  ∃ j, 1 ≤ j ∧ j ≤ d.nab ∧ d.mat s j = t ∧ 0 < t

/-- The connectivity matrix as computed at the start of
`find_dead_states`: `init_connections` followed by `t_closure`. -/
def connAfter (d : Automaton) (c0 : Nat → Nat → Bool) : Nat → Nat → Bool :=
  t_closure d.nstates (init_connections d.mat d.nstates d.nab c0)

/-- Iterated transition function. -/

def deltaStar (d : Automaton) : Nat → List Nat → Nat
  | s, [] => s
  | s, a :: w => deltaStar d (d.mat s a) w

/-- Word acceptance. -/

def accepts (d : Automaton) (w : List Nat) : Prop :=
  d.state_attrib (deltaStar d d.init_state w) = 'A'

instance (d : Automaton) (w : List Nat) : Decidable (accepts d w) := by
  unfold accepts
  exact inferInstance

/-! ## Concrete inputs used by counterexamples and witnesses -/

/-- Two states with self loops, no accepting state (the input format
allows an empty accept list). -/
def dfaTwoLoop : Automaton :=
  { nstates := 2, nab := 1,
    mat := fun s j => if j = 1 then (if s = 1 then 1 else if s = 2 then 2 else 0) else 0,
    init_state := 1, accept := fun _ => 0,
    state_attrib := fun _ => attrNull }

/-- Three states, one symbol, every state mapping to state 2, state 2
accepting.  States 1 and 3 are equivalent and their class is rooted at 3. -/

def dfaThree : Automaton :=
  { nstates := 3, nab := 1,
    mat := fun s j => if j = 1 ∧ 1 ≤ s ∧ s ≤ 3 then 2 else 0,
    init_state := 1,
    accept := fun k => if k = 0 then 2 else 0,
    state_attrib := fun s => if s = 2 then 'A' else attrNull }

/-- Two states with self loops, state 2 accepting but unreachable from the
initial state. -/

def dfaUnreach : Automaton :=
  { nstates := 2, nab := 1,
    mat := fun s j => if j = 1 then (if s = 1 then 1 else if s = 2 then 2 else 0) else 0,
    init_state := 1,
    accept := fun k => if k = 0 then 2 else 0,
    state_attrib := fun s => if s = 2 then 'A' else attrNull }

/-- First input of the two-file run exhibiting the stale accept cell: two
inequivalent accepting states. -/

def dfaTwoAcc : Automaton :=
  { nstates := 2, nab := 1,
    mat := fun s j => if s = 2 ∧ j = 1 then 2 else 0,
    init_state := 1,
    accept := fun k => if k = 0 then 1 else if k = 1 then 2 else 0,
    state_attrib := fun s => if s = 1 ∨ s = 2 then 'A' else attrNull }

/-- Second input of the two-file run: a single accepting state. -/

def dfaOneAcc : Automaton :=
  { nstates := 1, nab := 1,
    mat := fun s j => if s = 1 ∧ j = 1 then 1 else 0,
    init_state := 1,
    accept := fun k => if k = 0 then 1 else 0,
    state_attrib := fun s => if s = 1 then 'A' else attrNull }

/-- All-zero partition vector (initial contents of the static `groups`). -/

def zeroGroups : Nat → Int := fun _ => 0

/-- All-false connectivity matrix (initial contents of the static
`connected`). -/

def zeroConn : Nat → Nat → Bool := fun _ _ => false

/-- A well-formed chain vector for the C9 witness: 1 → 2 → 3 with root 3
of stored weight -2. -/
def wfChain : Nat → Int :=
  fun e => if e = 1 then 2 else if e = 2 then 3 else if e = 3 then -2 else 0

/-- The set of values stored in `member[0..size)` by the membership scan
of `partition`: the class being split, as a predicate on state ids. -/
def memSet (m : Nat → Nat) (size : Nat) : Nat → Prop :=
  fun x => ∃ t, t < size ∧ m t = x

instance (d : Automaton) (g : Nat → Int) (s1 s2 : Nat) :
    Decidable (sigEq d g s1 s2) :=
  if h : (∀ a, a ≤ d.nab → 1 ≤ a → clsv g (d.mat s1 a) = clsv g (d.mat s2 a))
  then isTrue (by
    intro a h1 h2
    exact h a h2 h1)
  else isFalse (by
    intro hc
    exact h (fun a h2 h1 => hc a h1 h2))

instance (m : Nat → Nat) (size x : Nat) : Decidable (memSet m size x) := by
  unfold memSet
  exact inferInstance

/-- Specification of the membership scan of `partition` after `k` loop
iterations: the vectors outside the collected members are untouched, the
members enumerate the class of `rep0` among `1..k` in ascending order,
and their scratch cells are reset. -/
def ScanOK (rep0 : Nat) (st : PartState) (k : Nat) (r : Nat × PartState) : Prop :=
  r.2.oldg = st.oldg ∧
  r.2.updated = st.updated ∧
  r.1 ≤ k ∧
  (∀ t, t < r.1 → 1 ≤ r.2.member t ∧ r.2.member t ≤ k ∧
    root st.oldg (r.2.member t) = rep0) ∧
  (∀ t1 t2, t1 < t2 → t2 < r.1 → r.2.member t1 < r.2.member t2) ∧
  (∀ i, 1 ≤ i → i ≤ k → root st.oldg i = rep0 → memSet r.2.member r.1 i) ∧
  (∀ u, r.1 ≤ u → r.2.member u = st.member u) ∧
  (∀ x, r.2.newg x = if memSet r.2.member r.1 x then 0 else st.newg x) ∧
  (∀ x, r.2.unified x = if memSet r.2.member r.1 x then false else st.unified x) ∧
  r.1 = ((Finset.Icc 1 k).filter (fun e => root st.oldg e = rep0)).card

/-- Invariant of the inner pair loop of `partition` for leader index `i`,
after the window `i+1 .. J-1` of follower indices has been scanned:
state frames, the unified marks added so far, the scratch-cell frame, and
the merged class rooted at the first follower found. -/
def PLInv (d : Automaton) (s : PartState) (i size J : Nat) (sc : PartState) : Prop :=
  sc.oldg = s.oldg ∧
  sc.member = s.member ∧
  sc.updated = s.updated ∧
  (∀ j, i < j → j < J → sigEq d s.oldg (s.member i) (s.member j) →
    sc.unified (s.member j) = true) ∧
  (∀ y, (¬ ∃ j, i < j ∧ j < J ∧ sigEq d s.oldg (s.member i) (s.member j) ∧
      y = s.member j) → sc.unified y = s.unified y) ∧
  (∀ y, (¬ (y = s.member i ∨ ∃ j, i < j ∧ j < J ∧
      sigEq d s.oldg (s.member i) (s.member j) ∧ y = s.member j)) →
    sc.newg y = s.newg y) ∧
  FlatOn d.nstates (memSet s.member size) sc.newg ∧
  ((∃ j, i < j ∧ j < J ∧ sigEq d s.oldg (s.member i) (s.member j)) →
    ∃ v, i < v ∧ v < J ∧ sigEq d s.oldg (s.member i) (s.member v) ∧
      (∀ u, i < u → u < v → ¬ sigEq d s.oldg (s.member i) (s.member u)) ∧
      (∀ y, (y = s.member i ∨ ∃ j, i < j ∧ j < J ∧
          sigEq d s.oldg (s.member i) (s.member j) ∧ y = s.member j) →
        root sc.newg y = s.member v) ∧
      sc.newg (s.member v) < 0) ∧
  ((¬ ∃ j, i < j ∧ j < J ∧ sigEq d s.oldg (s.member i) (s.member j)) →
    sc.newg = s.newg)

/-- Invariant of the outer unify loop of `partition` after the leader
indices `0 .. i-1` have been considered: classes whose least index is
below `i` are fully merged in the scratch vector and rooted at their
second-least member; all other member cells are still fresh. -/
def UInv (d : Automaton) (s : PartState) (size i : Nat) (sc : PartState) : Prop :=
  sc.oldg = s.oldg ∧
  sc.member = s.member ∧
  sc.updated = s.updated ∧
  (∀ t, t < size → (sc.unified (s.member t) = true ↔
    ∃ l, l < i ∧ sigEq d s.oldg (s.member l) (s.member t))) ∧
  FlatOn d.nstates (memSet s.member size) sc.newg ∧
  (∀ t, t < size → (¬ ∃ l, l < i ∧ sigEq d s.oldg (s.member l) (s.member t)) →
    sc.newg (s.member t) = 0) ∧
  (∀ t, t < size →
    (∀ u, u < size → sigEq d s.oldg (s.member u) (s.member t) → u = t) →
    sc.newg (s.member t) = 0) ∧
  (∀ t, t < size → (∃ l, l < i ∧ sigEq d s.oldg (s.member l) (s.member t)) →
    (∃ u, u < size ∧ u ≠ t ∧ sigEq d s.oldg (s.member u) (s.member t)) →
    ∃ v, v < size ∧ sigEq d s.oldg (s.member v) (s.member t) ∧
      root sc.newg (s.member t) = s.member v ∧ sc.newg (s.member v) < 0 ∧
      ∃ l, l < v ∧ sigEq d s.oldg (s.member l) (s.member t) ∧
        (∀ u, u < v → sigEq d s.oldg (s.member u) (s.member t) → u = l))

/-- Specification of one `rep0`-iteration of `partition`: the partition
invariants are preserved, the `updated` flag is monotone and reports real
refinement, the class count never drops and strictly rises on a real
split, a skipped or unsplit class leaves the vector unchanged and, when
nothing changed, the class of `rep0` is transition-uniform; finally the
new partition refines the old one. -/
def PStepOK (d : Automaton) (rep0 : Nat) (st sp : PartState) : Prop :=
  Flat d.nstates sp.oldg ∧
  RootSecond d.nstates sp.oldg ∧
  (st.updated = true → sp.updated = true) ∧
  (sp.updated = false → sp.oldg = st.oldg) ∧
  classCount d.nstates st.oldg ≤ classCount d.nstates sp.oldg ∧
  (st.updated = false → sp.updated = true →
    classCount d.nstates st.oldg < classCount d.nstates sp.oldg) ∧
  (sp.updated = false → st.oldg rep0 < 0 →
    ∀ x y, x ≤ d.nstates → 1 ≤ x → y ≤ d.nstates → 1 ≤ y →
      root st.oldg x = rep0 → root st.oldg y = rep0 → sigEq d st.oldg x y) ∧
  (∀ x, 1 ≤ x → x ≤ d.nstates →
    root st.oldg (root sp.oldg x) = root st.oldg x)

instance (n : Nat) (g : Nat → Int) : Decidable (Flat n g) := by
  unfold Flat
  exact inferInstance

instance (n : Nat) (g : Nat → Int) : Decidable (RootSecond n g) := by
  unfold RootSecond
  exact inferInstance

instance (n : Nat) (g : Nat → Int) : Decidable (PartInv n g) := by
  unfold PartInv
  exact inferInstance

/-- The partition vector reached by `init_partitions` on the three-state
automaton `dfaThree`: the accept class is the singleton 2 with weight 0,
the class of the other states 1 and 3 is rooted at 3. -/
def gThreeInit : Nat → Int :=
  fun e => if e = 1 then 3 else if e = 3 then -1 else 0

/-- Invariant of the building fold of `init_partitions` after states
`1..k` have been inserted: the vector is flat with second-smallest roots,
cells beyond `k` are still clear, roots stay within the processed prefix,
and the accept/non-accept leaders describe the (at most) two classes. -/
def InitInv (nstates : Nat) (attribs : Nat → Char) (k : Nat)
    (st : Nat × Nat × (Nat → Int)) : Prop :=
  Flat nstates st.2.2 ∧
  RootSecond nstates st.2.2 ∧
  (∀ x, k < x → x ≤ nstates → st.2.2 x = 0) ∧
  (∀ x, 1 ≤ x → x ≤ k → root st.2.2 x ≤ k) ∧
  (st.1 = 0 → ∀ x, 1 ≤ x → x ≤ k → ¬ attribs x = 'A') ∧
  (st.1 ≠ 0 → 1 ≤ st.1 ∧ st.1 ≤ k ∧ attribs st.1 = 'A' ∧
    attribs (root st.2.2 st.1) = 'A') ∧
  (∀ x, 1 ≤ x → x ≤ k → attribs x = 'A' →
    root st.2.2 x = root st.2.2 st.1) ∧
  (st.2.1 = 0 → ∀ x, 1 ≤ x → x ≤ k → attribs x = 'A') ∧
  (st.2.1 ≠ 0 → 1 ≤ st.2.1 ∧ st.2.1 ≤ k ∧ ¬ attribs st.2.1 = 'A' ∧
    ¬ attribs (root st.2.2 st.2.1) = 'A') ∧
  (∀ x, 1 ≤ x → x ≤ k → ¬ attribs x = 'A' →
    root st.2.2 x = root st.2.2 st.2.1)

/-- Invariant of the first `compress_dfa` scan (`compress_maps`) after
processing states `1..k` of a flat vector `g`: the groups vector is
untouched, `rep_count` counts the roots seen so far, `rep` holds the
find root of every scanned state, `map` gives each scanned root its new
id `1..rep_count` in scan order, and `pam` inverts `map` on the roots.
Unwritten cells of all three arrays keep their zero initial values. -/
def CMInv (n : Nat) (g : Nat → Int) (k : Nat)
    (st : (Nat → Nat) × (Nat → Nat) × (Nat → Nat) × Nat × (Nat → Int)) :
    Prop :=
  st.2.2.2.2 = g ∧
  st.2.2.2.1 = ((Finset.Icc 1 k).filter (fun e => root g e = e)).card ∧
  (∀ x, 1 ≤ x → x ≤ k → st.2.2.1 x = root g x) ∧
  (∀ x, ¬ (1 ≤ x ∧ x ≤ k) → st.2.2.1 x = 0) ∧
  (∀ x, 1 ≤ x → x ≤ k → root g x = x →
    1 ≤ st.1 x ∧ st.1 x ≤ st.2.2.2.1 ∧ st.2.1 (st.1 x) = x) ∧
  (∀ x, ¬ (1 ≤ x ∧ x ≤ k ∧ root g x = x) → st.1 x = 0) ∧
  (∀ c, 1 ≤ c → c ≤ st.2.2.2.1 →
    1 ≤ st.2.1 c ∧ st.2.1 c ≤ k ∧ root g (st.2.1 c) = st.2.1 c ∧
    st.1 (st.2.1 c) = c) ∧
  (∀ c, ¬ (1 ≤ c ∧ c ≤ st.2.2.2.1) → st.2.1 c = 0)

/-- Invariant of the rebuild scan of `compress_dfa` after processing new
ids `1..k`: scanned rows of the transition matrix hold the remapped old
transitions of the representative, scanned attribute cells copy the
representative's attribute, the accept list holds exactly the accepting
new ids seen so far, and unwritten cells keep the previous contents of
the static output automaton. -/
def CDInv (old out0 : Automaton) (mp pm rp : Nat → Nat) (k : Nat)
    (st : (Nat → Nat → Nat) × (Nat → Char) × (Nat → Nat) × Nat) : Prop :=
  (∀ i j, 1 ≤ i → i ≤ k → 1 ≤ j → j ≤ old.nab →
    st.1 i j = mp (rp (old.mat (pm i) j))) ∧
  (∀ i j, ¬ (1 ≤ i ∧ i ≤ k ∧ 1 ≤ j ∧ j ≤ old.nab) →
    st.1 i j = out0.mat i j) ∧
  (∀ i, 1 ≤ i → i ≤ k → st.2.1 i = old.state_attrib (pm i)) ∧
  (∀ i, ¬ (1 ≤ i ∧ i ≤ k) → st.2.1 i = out0.state_attrib i) ∧
  (∀ t, t < st.2.2.2 →
    1 ≤ st.2.2.1 t ∧ st.2.2.1 t ≤ k ∧
    old.state_attrib (pm (st.2.2.1 t)) = 'A') ∧
  (∀ t, st.2.2.2 ≤ t → st.2.2.1 t = out0.accept t) ∧
  st.2.2.2 = ((Finset.Icc 1 k).filter
    (fun i => old.state_attrib (pm i) = 'A')).card

/-- The partition vector of `dfaTwoLoop` after `init_partitions` and the
refinement loop: both states fall into one class rooted at 2. -/
def gTwoFinal : Nat → Int :=
  refine_loop dfaTwoLoop 2
    (init_partitions 2 dfaTwoLoop.state_attrib zeroGroups 3)

/-- The partition vector of `dfaThree` after `init_partitions` and the
refinement loop: classes are the singleton accepting state 2 (root 2)
and the pair of equivalent states 1 and 3, rooted at 3. -/
def gThreeFinal : Nat → Int :=
  refine_loop dfaThree 3
    (init_partitions 3 dfaThree.state_attrib zeroGroups 4)

/-! ## Theorems -/

@[simp] theorem upd_same {α : Type} (f : Nat → α) (i : Nat) (v : α) : upd f i v i = v := by
  simp [upd]

theorem upd_other {α : Type} (f : Nat → α) (i j : Nat) (v : α) (h : j ≠ i) :
    upd f i v j = f j := by
  simp [upd, h]

theorem upd_self {α : Type} (f : Nat → α) (i : Nat) : upd f i (f i) = f := by
  funext j
  by_cases h : j = i <;> simp [upd, h]

theorem root_of_nonpos {g : Nat → Int} {e : Nat} (h : g e ≤ 0) : root g e = e := by
  simp [root, Int.not_lt.mpr h]

theorem root_of_pos {g : Nat → Int} {e : Nat} (h : 0 < g e) : root g e = (g e).toNat := by
  simp [root, h]

theorem Flat.root_le {n : Nat} {g : Nat → Int} (hf : Flat n g) {e : Nat}
    (he1 : 1 ≤ e) (hen : e ≤ n) : 1 ≤ root g e ∧ root g e ≤ n := by
  rcases hf e hen he1 with h | ⟨h1, h2, _⟩
  · rw [root_of_nonpos h]; exact ⟨he1, hen⟩
  · rw [root_of_pos (by omega)]
    omega

theorem Flat.root_cell_nonpos {n : Nat} {g : Nat → Int} (hf : Flat n g) {e : Nat}
    (he1 : 1 ≤ e) (hen : e ≤ n) : g (root g e) ≤ 0 := by
  rcases hf e hen he1 with h | ⟨h1, _, h3⟩
  · rwa [root_of_nonpos h]
  · rw [root_of_pos (by omega)]; omega

theorem Flat.root_idem {n : Nat} {g : Nat → Int} (hf : Flat n g) {e : Nat}
    (he1 : 1 ≤ e) (hen : e ≤ n) : root g (root g e) = root g e :=
  root_of_nonpos (hf.root_cell_nonpos he1 hen)

/-- On a flat vector the parent chase stops after at most one hop. -/

theorem find_loop_flat {n : Nat} {g : Nat → Int} (hf : Flat n g) {e : Nat}
    (he1 : 1 ≤ e) (hen : e ≤ n) {fuel : Nat} (hfuel : 2 ≤ fuel) :
    find_loop fuel g e = root g e := by
  match fuel, hfuel with
  | f + 2, _ =>
    rcases hf e hen he1 with h | ⟨h1, h2, h3⟩
    · simp [find_loop, Int.not_lt.mpr h, root_of_nonpos h]
    · have hpos : 0 < g e := by omega
      have hstop : ¬ 0 < g ((g e).toNat) := by omega
      cases f with
      | zero => simp [find_loop, hpos, hstop, root_of_pos hpos]
      | succ f' => simp [find_loop, hpos, hstop, root_of_pos hpos]

/-- On a flat vector path compression writes back only values that are
already there, so the vector is unchanged. -/

theorem compress_path_flat {n : Nat} {g : Nat → Int} (hf : Flat n g) {e : Nat}
    (he1 : 1 ≤ e) (hen : e ≤ n) {fuel : Nat} (hfuel : 2 ≤ fuel) :
    compress_path fuel g e (root g e) = g := by
  match fuel, hfuel with
  | f + 2, _ =>
    rcases hf e hen he1 with h | ⟨h1, h2, h3⟩
    · simp [compress_path, Int.not_lt.mpr h]
    · have hpos : 0 < g e := by omega
      have hroot : root g e = (g e).toNat := root_of_pos hpos
      have hwrite : upd g e ((root g e : Int)) = g := by
        rw [hroot]
        have hup : (((g e).toNat : Int)) = g e :=
          Int.toNat_of_nonneg (by omega : (0:Int) ≤ g e)
        rw [hup]; exact upd_self g e
      have hstop : ¬ 0 < g ((g e).toNat) := by omega
      cases f with
      | zero =>
        simp only [compress_path, hpos, if_pos]
        rw [hwrite]
        simp [compress_path, hstop]
      | succ f' =>
        simp only [compress_path, hpos, if_pos]
        rw [hwrite]
        simp [compress_path, hstop]

/-- On a flat vector `find` is pure: it returns the root and leaves the
vector unchanged. -/

theorem find_flat {n : Nat} {g : Nat → Int} (hf : Flat n g) {e : Nat}
    (he1 : 1 ≤ e) (hen : e ≤ n) {fuel : Nat} (hfuel : 2 ≤ fuel) :
    find e g fuel = (root g e, g) := by
  have h1 := find_loop_flat hf he1 hen hfuel
  have h2 := compress_path_flat hf he1 hen hfuel
  simp [find, h1, h2]

/-! ## General well-formed partition vectors

Unlike `Flat`, which captures the depth-one shape the program actually
maintains, `WFN` is the general well-formedness of §3.2: parent pointers
are in range and every parent chain reaches a root cell, necessarily
within `n` steps. -/

theorem find_loop_succ (f : Nat) (g : Nat → Int) (e : Nat) :
    find_loop (f + 1) g e = if g e > 0 then find_loop f g (g e).toNat else e := rfl

theorem find_loop_stop {g : Nat → Int} {e : Nat} (h : g e ≤ 0) :
    ∀ f, find_loop f g e = e := by
  intro f
  cases f with
  | zero => rfl
  | succ f' => simp [find_loop, Int.not_lt.mpr h]

theorem find_loop_add (f1 f2 : Nat) (g : Nat → Int) (e : Nat) :
    find_loop (f1 + f2) g e = find_loop f2 g (find_loop f1 g e) := by
  induction f1 generalizing e with
  | zero => simp [find_loop]
  | succ f ih =>
    by_cases h : 0 < g e
    · have : f + 1 + f2 = (f + f2) + 1 := by omega
      rw [this]
      simp only [find_loop, h, if_pos]
      exact ih _
    · rw [find_loop_stop (by omega) (f + 1 + f2), find_loop_stop (by omega) (f + 1)]
      rw [find_loop_stop (by omega) f2]

theorem find_loop_stable {g : Nat → Int} {e f : Nat}
    (h : g (find_loop f g e) ≤ 0) {f' : Nat} (hf : f ≤ f') :
    find_loop f' g e = find_loop f g e := by
  obtain ⟨k, rfl⟩ := Nat.exists_eq_add_of_le hf
  rw [find_loop_add, find_loop_stop h]

theorem RootsTo.unique {g : Nat → Int} {x r1 r2 : Nat}
    (h1 : RootsTo g x r1) (h2 : RootsTo g x r2) : r1 = r2 := by
  obtain ⟨⟨f1, hf1⟩, hc1⟩ := h1
  obtain ⟨⟨f2, hf2⟩, hc2⟩ := h2
  rcases Nat.le_total f1 f2 with h | h
  · rw [← hf1] at hc1
    rw [← hf2, find_loop_stable hc1 h, hf1]
  · rw [← hf2] at hc2
    rw [← hf1, find_loop_stable hc2 h, hf2]

theorem RootsTo.self {g : Nat → Int} {x : Nat} (h : g x ≤ 0) : RootsTo g x x :=
  ⟨⟨0, rfl⟩, h⟩

theorem RootsTo.of_parent {g : Nat → Int} {x r : Nat} (hx : 0 < g x)
    (h : RootsTo g ((g x).toNat) r) : RootsTo g x r := by
  obtain ⟨⟨f, hf⟩, hc⟩ := h
  exact ⟨⟨f + 1, by simpa [find_loop, hx] using hf⟩, hc⟩

theorem RootsTo.parent {g : Nat → Int} {x r : Nat} (hx : 0 < g x)
    (h : RootsTo g x r) : RootsTo g ((g x).toNat) r := by
  obtain ⟨⟨f, hf⟩, hc⟩ := h
  cases f with
  | zero =>
    simp only [find_loop] at hf
    subst hf
    omega
  | succ f' =>
    simp only [find_loop, hx, if_pos] at hf
    exact ⟨⟨f', hf⟩, hc⟩

theorem find_loop_range {n : Nat} {g : Nat → Int} (hwf : WFN n g) :
    ∀ f e, e ≤ n → 1 ≤ e → 1 ≤ find_loop f g e ∧ find_loop f g e ≤ n := by
  intro f
  induction f with
  | zero => intro e he h1; exact ⟨h1, he⟩
  | succ f' ih =>
    intro e he h1
    by_cases hg : 0 < g e
    · simp only [find_loop, hg, if_pos]
      have := (hwf e he h1).1 hg
      exact ih _ (by omega) (by omega)
    · rw [find_loop_stop (by omega) (f' + 1)]
      exact ⟨h1, he⟩

theorem WFN.rootsTo (hwf : WFN n g) {e : Nat} (he : e ≤ n) (h1 : 1 ≤ e) :
    RootsTo g e (find_loop n g e) :=
  ⟨⟨n, rfl⟩, (hwf e he h1).2⟩

/-- Single path-compression write: re-parenting `e` directly to its root
preserves the roots of all parent chains. -/

theorem reroot_rootsTo {g : Nat → Int} {e r : Nat} (hge : 0 < g e)
    (her : RootsTo g e r) (hr1 : 1 ≤ r) :
    ∀ x s, RootsTo g x s → RootsTo (upd g e ((r : Int))) x s := by
  have hne : r ≠ e := by
    intro h
    have := her.2
    rw [h] at this
    omega
  intro x s hs
  obtain ⟨⟨f, hf⟩, hc⟩ := hs
  induction f generalizing x with
  | zero =>
    simp only [find_loop] at hf
    subst hf
    by_cases hx : x = e
    · rw [hx] at hc; omega
    · exact RootsTo.self (by rwa [upd_other g e x _ hx])
  | succ f' ih =>
    by_cases hgx : 0 < g x
    · simp only [find_loop, hgx, if_pos] at hf
      by_cases hx : x = e
      · have hsr : s = r := by
          refine RootsTo.unique ⟨⟨f' + 1, ?_⟩, hc⟩ (hx ▸ her)
          simp [find_loop, hgx, hf]
        rw [hx, hsr]
        refine RootsTo.of_parent ?_ ?_
        · rw [upd_same]; omega
        · rw [upd_same]
          have htn : ((r : Int)).toNat = r := rfl
          rw [htn]
          exact RootsTo.self (by rw [upd_other g e r _ hne]; exact her.2)
      · have hpar : upd g e ((r : Int)) x = g x := upd_other g e x _ hx
        refine RootsTo.of_parent (by rw [hpar]; exact hgx) ?_
        rw [hpar]
        exact ih _ hf
    · rw [find_loop_stop (by omega) (f' + 1)] at hf
      subst hf
      by_cases hx : x = e
      · rw [hx] at hgx; omega
      · exact RootsTo.self (by rwa [upd_other g e x _ hx])

/-- Single path-compression write: fuel that reaches the root before the
write still reaches the root after it. -/

theorem reroot_fuel {g : Nat → Int} {e r : Nat} (hge : 0 < g e)
    (her : RootsTo g e r) (hr1 : 1 ≤ r) :
    ∀ f x, g (find_loop f g x) ≤ 0 →
      (upd g e ((r : Int))) (find_loop f (upd g e ((r : Int))) x) ≤ 0 := by
  have hne : r ≠ e := by
    intro h
    have := her.2
    rw [h] at this
    omega
  intro f
  induction f with
  | zero =>
    intro x hx
    simp only [find_loop] at hx ⊢
    by_cases hxe : x = e
    · rw [hxe] at hx; omega
    · rwa [upd_other g e x _ hxe]
  | succ f' ih =>
    intro x hx
    by_cases hgx : 0 < g x
    · by_cases hxe : x = e
      · have hcell : upd g e ((r : Int)) x = (r : Int) := by
          rw [hxe]; exact upd_same g e _
        have hcpos : upd g e ((r : Int)) x > 0 := by rw [hcell]; omega
        have hstep : find_loop (f' + 1) (upd g e ((r : Int))) x = r := by
          rw [find_loop_succ, if_pos hcpos, hcell]
          have htn : ((r : Int)).toNat = r := rfl
          rw [htn]
          exact find_loop_stop (by rw [upd_other g e r _ hne]; exact her.2) f'
        rw [hstep, upd_other g e r _ hne]
        exact her.2
      · have hpar : upd g e ((r : Int)) x = g x := upd_other g e x _ hxe
        have hcpos : upd g e ((r : Int)) x > 0 := by rw [hpar]; exact hgx
        rw [find_loop_succ, if_pos hgx] at hx
        rw [find_loop_succ, if_pos hcpos, hpar]
        exact ih _ hx
    · have hroot := find_loop_stop (show g x ≤ 0 by omega) (f' + 1)
      rw [hroot] at hx
      by_cases hxe : x = e
      · rw [hxe] at hgx; omega
      · have hpar : upd g e ((r : Int)) x = g x := upd_other g e x _ hxe
        rw [find_loop_stop (by rw [hpar]; omega) (f' + 1), hpar]
        exact hx

/-- Path compression preserves all roots, preserves root-reaching fuel `n`,
leaves every nonpositive cell unchanged, and keeps parent cells in range. -/

theorem compress_path_preserves {r : Nat} (hr1 : 1 ≤ r) :
    ∀ (fuel : Nat) (e0 : Nat) (g : Nat → Int), RootsTo g e0 r →
      (∀ x s, RootsTo g x s → RootsTo (compress_path fuel g e0 r) x s) ∧
      (∀ f x, g (find_loop f g x) ≤ 0 →
        (compress_path fuel g e0 r) (find_loop f (compress_path fuel g e0 r) x) ≤ 0) ∧
      (∀ x, g x ≤ 0 → (compress_path fuel g e0 r) x = g x) ∧
      (∀ x v, (compress_path fuel g e0 r) x = v → v = g x ∨ v = (r : Int)) := by
  intro fuel
  induction fuel with
  | zero =>
    intro e0 g hroot
    exact ⟨fun x s h => h, fun f x h => h, fun x h => rfl, fun x v hv => Or.inl hv.symm⟩
  | succ f ih =>
    intro e0 g hroot
    by_cases hge : 0 < g e0
    · simp only [compress_path, hge, if_pos]
      have hner : r ≠ e0 := by
        intro h
        have := hroot.2
        rw [h] at this
        omega
      have hpar : RootsTo g ((g e0).toNat) r := RootsTo.parent hge hroot
      have hpar1 : RootsTo (upd g e0 ((r : Int))) ((g e0).toNat) r :=
        reroot_rootsTo hge hroot hr1 _ _ hpar
      obtain ⟨ihA, ihB, ihC, ihD⟩ := ih ((g e0).toNat) (upd g e0 ((r : Int))) hpar1
      refine ⟨?_, ?_, ?_, ?_⟩
      · intro x s h
        exact ihA x s (reroot_rootsTo hge hroot hr1 x s h)
      · intro f' x h
        exact ihB f' x (reroot_fuel hge hroot hr1 f' x h)
      · intro x h
        have hxe : x ≠ e0 := by intro hc; rw [hc] at h; omega
        rw [ihC x (by rw [upd_other g e0 x _ hxe]; exact h)]
        exact upd_other g e0 x _ hxe
      · intro x v hv
        rcases ihD x v hv with h | h
        · by_cases hxe : x = e0
          · rw [hxe, upd_same] at h
            exact Or.inr h
          · rw [upd_other g e0 x _ hxe] at h
            exact Or.inl h
        · exact Or.inr h
    · simp only [compress_path, hge, if_neg (by omega : ¬ g e0 > 0)]
      exact ⟨fun x s h => h, fun f' x h => h, fun x h => rfl, fun x v hv => Or.inl hv.symm⟩

/-- `find` with sufficient fuel on a well-formed vector: the first
component is the root of the chain of `e`, and the returned vector has the
same roots, the same nonpositive cells, and is still well-formed. -/

theorem find_spec {n : Nat} {g : Nat → Int} (hwf : WFN n g) {e : Nat}
    (he : e ≤ n) (h1 : 1 ≤ e) {fuel : Nat} (hfuel : n ≤ fuel) :
    RootsTo g e ((find e g fuel).1) ∧
    (∀ x s, RootsTo g x s → RootsTo ((find e g fuel).2) x s) ∧
    (∀ x, g x ≤ 0 → (find e g fuel).2 x = g x) ∧
    WFN n ((find e g fuel).2) ∧
    1 ≤ (find e g fuel).1 ∧ (find e g fuel).1 ≤ n := by
  have hstab : find_loop fuel g e = find_loop n g e :=
    find_loop_stable (hwf e he h1).2 hfuel
  have hrange : 1 ≤ (find e g fuel).1 ∧ (find e g fuel).1 ≤ n := by
    show 1 ≤ find_loop fuel g e ∧ find_loop fuel g e ≤ n
    exact find_loop_range hwf fuel e he h1
  have hr : RootsTo g e ((find e g fuel).1) := by
    show RootsTo g e (find_loop fuel g e)
    rw [hstab]
    exact hwf.rootsTo he h1
  obtain ⟨hA, hB, hC, hD⟩ := compress_path_preserves hrange.1 fuel e g hr
  have hsnd : (find e g fuel).2 = compress_path fuel g e ((find e g fuel).1) := rfl
  rw [hsnd]
  refine ⟨hr, hA, hC, ?_, hrange⟩
  intro x hx hx1
  constructor
  · intro hpos
    rcases hD x _ rfl with h | h
    · rw [h] at hpos ⊢
      exact ((hwf x hx hx1).1 hpos)
    · rw [h] at hpos ⊢
      have h1r := hrange.1
      have h2r := hrange.2
      omega
  · exact hB n x (hwf x hx hx1).2

/-! ## Cell-local loops

Several loops of the program visit `i = 1..m` and only write cell `i`,
with the written value depending only on the previous contents of cell
`i`.  Such a loop acts pointwise. -/

theorem loop1_cellwise {α : Type} (body : Nat → (Nat → α) → (Nat → α))
    (G : Nat → α → α)
    (hw : ∀ i a x, x ≠ i → body i a x = a x)
    (hl : ∀ i a, body i a i = G i (a i)) :
    ∀ m a x, loop1 body m a x = if 1 ≤ x ∧ x ≤ m then G x (a x) else a x := by
  intro m
  induction m with
  | zero =>
    intro a x
    rw [if_neg (by omega)]
    rfl
  | succ m ih =>
    intro a x
    show body (m + 1) (loop1 body m a) x = _
    by_cases hx : x = m + 1
    · subst hx
      rw [hl, ih]
      rw [if_neg (by omega), if_pos (by omega)]
    · rw [hw _ _ _ hx, ih]
      by_cases hin : 1 ≤ x ∧ x ≤ m
      · rw [if_pos hin, if_pos (by omega)]
      · rw [if_neg hin, if_neg (by omega)]

/-! ## Sanity checks of the embedding on the concrete inputs -/

example : ValidDFA dfaTwoLoop := by decide

example : ValidDFA dfaThree := by decide

example : ValidDFA dfaUnreach := by decide

example : ValidDFA dfaTwoAcc := by decide

example : ValidDFA dfaOneAcc := by decide

-- Sanity traces of the embedding on the concrete automata.

example : (Union 1 2 (fun _ => 0) 5) 1 = 2 := by decide

example : (Union 1 2 (fun _ => 0) 5) 2 = -1 := by decide

example :
    (init_partitions dfaTwoLoop.nstates dfaTwoLoop.state_attrib zeroGroups 3) 1 = 2 := by
  decide

example :
    (partition dfaTwoLoop (init_partitions 2 dfaTwoLoop.state_attrib zeroGroups 3) 3).1
      = false := by decide

example :
    (compress_maps 2 (refine_loop dfaTwoLoop 2
      (init_partitions 2 dfaTwoLoop.state_attrib zeroGroups 3)) 3).2.1 1 = 2 := by decide

example :
    (compress_dfa dfaThree zeroAutomaton (refine_loop dfaThree 3
      (init_partitions 3 dfaThree.state_attrib zeroGroups 4)) 4).1.init_state = 2 := by
  decide

example :
    (minimize_dfa dfaOneAcc
      (minimize_dfa dfaTwoAcc zeroAutomaton zeroGroups zeroConn)
      zeroGroups zeroConn).accept 1 = 2 := by decide

example :
    (find_dead_states dfaUnreach zeroConn).state_attrib 2 = 'D' := by decide

/-! ## The Warshall closure

The in-place pivot passes of `t_closure` are first reduced to the
functional `wfold`, which is then relatd to bounded paths (`BPath`) and
finally to reflexive-transitive reachability. -/

theorem bool_eq_of_iff {x y : Bool} (h : x = true ↔ y = true) : x = y := by
  cases x <;> cases y <;> simp_all

theorem upd2_cell {α : Type} (f : Nat → Nat → α) (i j a b : Nat) (v : α) :
    upd2 f i j v a b = if a = i ∧ b = j then v else f a b := rfl

theorem t_inner_cell (i j : Nat) (c : Nat → Nat → Bool) :
    ∀ m a b,
      (loop1 (fun k ck => if ck i k then upd2 ck j k true else ck) m c) a b = true
        ↔ ((a = j ∧ 1 ≤ b ∧ b ≤ m ∧ c i b = true) ∨ c a b = true) := by
  intro m
  induction m with
  | zero =>
    intro a b
    show c a b = true ↔ _
    constructor
    · exact Or.inr
    · rintro (⟨_, h1, h0, _⟩ | h)
      · omega
      · exact h
  | succ m ih =>
    intro a b
    have hstep : (loop1 (fun k ck => if ck i k then upd2 ck j k true else ck) (m + 1) c) a b
        = (if (loop1 (fun k ck => if ck i k then upd2 ck j k true else ck) m c) i (m + 1)
           then upd2 (loop1 (fun k ck => if ck i k then upd2 ck j k true else ck) m c)
             j (m + 1) true
           else (loop1 (fun k ck => if ck i k then upd2 ck j k true else ck) m c)) a b := rfl
    rw [hstep]
    set P := loop1 (fun k ck => if ck i k then upd2 ck j k true else ck) m c with hP
    have hPi : P i (m + 1) = c i (m + 1) := by
      apply bool_eq_of_iff
      rw [ih]
      constructor
      · rintro (⟨_, _, hle, _⟩ | h)
        · omega
        · exact h
      · exact Or.inr
    by_cases hc : c i (m + 1) = true
    · rw [if_pos (show P i (m + 1) = true by rw [hPi]; exact hc)]
      rw [upd2_cell]
      by_cases hab : a = j ∧ b = m + 1
      · rw [if_pos hab]
        constructor
        · intro _
          exact Or.inl ⟨hab.1, by omega, by omega, by rw [hab.2]; exact hc⟩
        · intro _; rfl
      · rw [if_neg hab, ih]
        constructor
        · rintro (⟨h1, h2, h3, h4⟩ | h)
          · exact Or.inl ⟨h1, h2, by omega, h4⟩
          · exact Or.inr h
        · rintro (⟨h1, h2, h3, h4⟩ | h)
          · have hbm : b ≤ m := by
              rcases Nat.lt_or_ge b (m + 1) with hlt | hge
              · omega
              · exfalso; exact hab ⟨h1, by omega⟩
            exact Or.inl ⟨h1, h2, hbm, h4⟩
          · exact Or.inr h
    · rw [if_neg (show ¬ P i (m + 1) = true by rw [hPi]; simpa using hc)]
      rw [ih]
      constructor
      · rintro (⟨h1, h2, h3, h4⟩ | h)
        · exact Or.inl ⟨h1, h2, by omega, h4⟩
        · exact Or.inr h
      · rintro (⟨h1, h2, h3, h4⟩ | h)
        · have hbm : b ≤ m := by
            rcases Nat.lt_or_ge b (m + 1) with hlt | hge
            · omega
            · exfalso
              have : b = m + 1 := by omega
              rw [this] at h4
              exact hc h4
          exact Or.inl ⟨h1, h2, hbm, h4⟩
        · exact Or.inr h

theorem t_row_cell (i nst : Nat) (c : Nat → Nat → Bool) :
    ∀ m a b,
      (loop1 (fun jj cj =>
        if cj jj i then
          loop1 (fun k ck => if ck i k then upd2 ck jj k true else ck) nst cj
        else cj) m c) a b = true
        ↔ ((1 ≤ a ∧ a ≤ m ∧ 1 ≤ b ∧ b ≤ nst ∧ c a i = true ∧ c i b = true) ∨
           c a b = true) := by
  intro m
  induction m with
  | zero =>
    intro a b
    show c a b = true ↔ _
    constructor
    · exact Or.inr
    · rintro (⟨h1, h0, _⟩ | h)
      · omega
      · exact h
  | succ m ih =>
    intro a b
    have hstep : (loop1 (fun jj cj =>
          if cj jj i then
            loop1 (fun k ck => if ck i k then upd2 ck jj k true else ck) nst cj
          else cj) (m + 1) c) a b
        = (if (loop1 (fun jj cj =>
              if cj jj i then
                loop1 (fun k ck => if ck i k then upd2 ck jj k true else ck) nst cj
              else cj) m c) (m + 1) i then
             loop1 (fun k ck => if ck i k then upd2 ck (m + 1) k true else ck) nst
               (loop1 (fun jj cj =>
                 if cj jj i then
                   loop1 (fun k ck => if ck i k then upd2 ck jj k true else ck) nst cj
                 else cj) m c)
           else (loop1 (fun jj cj =>
             if cj jj i then
               loop1 (fun k ck => if ck i k then upd2 ck jj k true else ck) nst cj
             else cj) m c)) a b := rfl
    rw [hstep]
    set P := loop1 (fun jj cj =>
      if cj jj i then
        loop1 (fun k ck => if ck i k then upd2 ck jj k true else ck) nst cj
      else cj) m c with hP
    have hPm : P (m + 1) i = c (m + 1) i := by
      apply bool_eq_of_iff
      rw [ih]
      constructor
      · rintro (⟨_, hle, _⟩ | h)
        · omega
        · exact h
      · exact Or.inr
    have hPib : ∀ b', P i b' = true ↔ c i b' = true := by
      intro b'
      rw [ih]
      constructor
      · rintro (⟨_, _, _, _, _, h⟩ | h)
        · exact h
        · exact h
      · exact Or.inr
    by_cases hc : c (m + 1) i = true
    · rw [if_pos (show P (m + 1) i = true by rw [hPm]; exact hc)]
      rw [t_inner_cell]
      constructor
      · rintro (⟨ha, hb1, hbn, hib⟩ | h)
        · exact Or.inl ⟨by omega, by omega, hb1, hbn, by rw [ha]; exact hc,
            (hPib b).mp hib⟩
        · rcases (ih a b).mp h with ⟨h1, h2, h3, h4, h5, h6⟩ | h'
          · exact Or.inl ⟨h1, by omega, h3, h4, h5, h6⟩
          · exact Or.inr h'
      · rintro (⟨h1, h2, h3, h4, h5, h6⟩ | h)
        · by_cases ham : a = m + 1
          · exact Or.inl ⟨ham, h3, h4, (hPib b).mpr h6⟩
          · exact Or.inr ((ih a b).mpr (Or.inl ⟨h1, by omega, h3, h4, h5, h6⟩))
        · exact Or.inr ((ih a b).mpr (Or.inr h))
    · rw [if_neg (show ¬ P (m + 1) i = true by rw [hPm]; simpa using hc)]
      rw [ih]
      constructor
      · rintro (⟨h1, h2, h3, h4, h5, h6⟩ | h)
        · exact Or.inl ⟨h1, by omega, h3, h4, h5, h6⟩
        · exact Or.inr h
      · rintro (⟨h1, h2, h3, h4, h5, h6⟩ | h)
        · have ham : a ≤ m := by
            rcases Nat.lt_or_ge a (m + 1) with hlt | hge
            · omega
            · exfalso
              have : a = m + 1 := by omega
              rw [this] at h5
              exact hc h5
          exact Or.inl ⟨h1, ham, h3, h4, h5, h6⟩
        · exact Or.inr h

theorem wstep_cell (n : Nat) (c : Nat → Nat → Bool) (p a b : Nat) :
    wstep n c p a b = true ↔
      ((1 ≤ a ∧ a ≤ n ∧ 1 ≤ b ∧ b ≤ n ∧ c a p = true ∧ c p b = true) ∨
       c a b = true) := by
  unfold wstep
  by_cases h : 1 ≤ a ∧ a ≤ n ∧ 1 ≤ b ∧ b ≤ n ∧ (c a p && c p b) = true
  · rw [if_pos h]
    obtain ⟨h1, h2, h3, h4, h5⟩ := h
    rw [Bool.and_eq_true] at h5
    constructor
    · intro _
      exact Or.inl ⟨h1, h2, h3, h4, h5.1, h5.2⟩
    · intro _; rfl
  · rw [if_neg h]
    constructor
    · exact Or.inr
    · rintro (⟨h1, h2, h3, h4, h5, h6⟩ | hc)
      · exact absurd ⟨h1, h2, h3, h4, by rw [Bool.and_eq_true]; exact ⟨h5, h6⟩⟩ h
      · exact hc

theorem t_closure_pivots (nst : Nat) (c0 : Nat → Nat → Bool) :
    ∀ p a b,
      (loop1 (fun i c =>
        loop1 (fun j cj =>
          if cj j i then
            loop1 (fun k ck => if ck i k then upd2 ck j k true else ck) nst cj
          else cj) nst c) p c0) a b
      = wfold nst c0 p a b := by
  intro p
  induction p with
  | zero => intro a b; rfl
  | succ p ih =>
    intro a b
    have hstep : (loop1 (fun i c =>
          loop1 (fun j cj =>
            if cj j i then
              loop1 (fun k ck => if ck i k then upd2 ck j k true else ck) nst cj
            else cj) nst c) (p + 1) c0) a b
        = (loop1 (fun j cj =>
            if cj j (p + 1) then
              loop1 (fun k ck => if ck (p + 1) k then upd2 ck j k true else ck) nst cj
            else cj) nst
            (loop1 (fun i c =>
              loop1 (fun j cj =>
                if cj j i then
                  loop1 (fun k ck => if ck i k then upd2 ck j k true else ck) nst cj
                else cj) nst c) p c0)) a b := rfl
    rw [hstep]
    apply bool_eq_of_iff
    rw [t_row_cell]
    show _ ↔ wstep nst (wfold nst c0 p) (p + 1) a b = true
    rw [wstep_cell]
    constructor
    · rintro (⟨h1, h2, h3, h4, h5, h6⟩ | h)
      · exact Or.inl ⟨h1, h2, h3, h4, by rw [← ih]; exact h5, by rw [← ih]; exact h6⟩
      · exact Or.inr (by rw [← ih]; exact h)
    · rintro (⟨h1, h2, h3, h4, h5, h6⟩ | h)
      · exact Or.inl ⟨h1, h2, h3, h4, by rw [ih]; exact h5, by rw [ih]; exact h6⟩
      · exact Or.inr (by rw [ih]; exact h)

theorem t_closure_eq_wfold (nst : Nat) (c0 : Nat → Nat → Bool) (a b : Nat) :
    t_closure nst c0 a b = wfold nst c0 nst a b :=
  t_closure_pivots nst c0 nst a b

theorem BPath.mono {c : Nat → Nat → Bool} {p q j k : Nat} (hpq : p ≤ q)
    (h : BPath c p j k) : BPath c q j k := by
  induction h with
  | single h => exact BPath.single h
  | step he h1 h2 _ ih => exact BPath.step he h1 (by omega) ih

theorem BPath.trans {c : Nat → Nat → Bool} {p j m k : Nat}
    (h1 : BPath c p j m) (hm1 : 1 ≤ m) (hmp : m ≤ p) (h2 : BPath c p m k) :
    BPath c p j k := by
  induction h1 with
  | single h => exact BPath.step h hm1 hmp h2
  | step he hx1 hx2 _ ih => exact BPath.step he hx1 hx2 (ih hm1 hmp h2)

theorem bpath_succ_to {c : Nat → Nat → Bool} {p : Nat} :
    ∀ {j k q}, BPath c q j k → q = p + 1 →
      BPath c p j k ∨ (BPath c p j (p + 1) ∧ BPath c p (p + 1) k) := by
  intro j k q h
  induction h with
  | single h =>
    intro _
    exact Or.inl (BPath.single h)
  | step he h1 h2 hp ih =>
    rename_i j' m' k'
    intro hq
    subst hq
    rcases ih rfl with hmk | ⟨hm1, h1k⟩
    · by_cases hm : m' = p + 1
      · exact Or.inr ⟨BPath.single (hm ▸ he), hm ▸ hmk⟩
      · exact Or.inl (BPath.step he h1 (by omega) hmk)
    · by_cases hm : m' = p + 1
      · exact Or.inr ⟨BPath.single (hm ▸ he), h1k⟩
      · exact Or.inr ⟨BPath.step he h1 (by omega) hm1, h1k⟩

theorem bpath_succ_iff {c : Nat → Nat → Bool} {p j k : Nat} :
    BPath c (p + 1) j k ↔
      BPath c p j k ∨ (BPath c p j (p + 1) ∧ BPath c p (p + 1) k) := by
  constructor
  · intro h
    exact bpath_succ_to h rfl
  · rintro (h | ⟨h1, h2⟩)
    · exact h.mono (by omega)
    · exact BPath.trans (h1.mono (by omega)) (by omega) (by omega)
        (h2.mono (by omega))

theorem wfold_iff_bpath {n : Nat} (c : Nat → Nat → Bool) :
    ∀ p, p ≤ n → ∀ a b, 1 ≤ a → a ≤ n → 1 ≤ b → b ≤ n →
      (wfold n c p a b = true ↔ BPath c p a b) := by
  intro p
  induction p with
  | zero =>
    intro _ a b ha1 han hb1 hbn
    show c a b = true ↔ _
    constructor
    · exact BPath.single
    · intro h
      cases h with
      | single h => exact h
      | step he h1 h2 hp => omega
  | succ p ih =>
    intro hpn a b ha1 han hb1 hbn
    show wstep n (wfold n c p) (p + 1) a b = true ↔ _
    rw [wstep_cell, bpath_succ_iff]
    have hp1 : (1 : Nat) ≤ p + 1 := by omega
    constructor
    · rintro (⟨_, _, _, _, h5, h6⟩ | h)
      · exact Or.inr ⟨(ih (by omega) a (p + 1) ha1 han hp1 hpn).mp h5,
          (ih (by omega) (p + 1) b hp1 hpn hb1 hbn).mp h6⟩
      · exact Or.inl ((ih (by omega) a b ha1 han hb1 hbn).mp h)
    · rintro (h | ⟨h1, h2⟩)
      · exact Or.inr ((ih (by omega) a b ha1 han hb1 hbn).mpr h)
      · exact Or.inl ⟨ha1, han, hb1, hbn,
          (ih (by omega) a (p + 1) ha1 han hp1 hpn).mpr h1,
          (ih (by omega) (p + 1) b hp1 hpn hb1 hbn).mpr h2⟩

theorem clear_cell (src : Nat) (c : Nat → Nat → Bool) :
    ∀ m x y, (loop1 (fun dest cc => upd2 cc src dest false) m c) x y
      = if x = src ∧ 1 ≤ y ∧ y ≤ m then false else c x y := by
  intro m
  induction m with
  | zero =>
    intro x y
    rw [if_neg (by omega)]
    rfl
  | succ m ih =>
    intro x y
    have hstep : (loop1 (fun dest cc => upd2 cc src dest false) (m + 1) c) x y
        = upd2 (loop1 (fun dest cc => upd2 cc src dest false) m c) src (m + 1)
            false x y := rfl
    rw [hstep, upd2_cell]
    by_cases h : x = src ∧ y = m + 1
    · rw [if_pos h, if_pos (by omega)]
    · rw [if_neg h, ih]
      by_cases h2 : x = src ∧ 1 ≤ y ∧ y ≤ m
      · rw [if_pos h2, if_pos (by omega)]
      · rw [if_neg h2, if_neg (by
          rintro ⟨hs, hy1, hym⟩
          rcases Nat.lt_or_ge y (m + 1) with hlt | hge
          · exact h2 ⟨hs, hy1, by omega⟩
          · exact h ⟨hs, by omega⟩)]

theorem direct_preserve (src : Nat) (mat : Nat → Nat → Nat) (c : Nat → Nat → Bool) :
    ∀ m x y, x ≠ src →
      (loop1 (fun i cc => if mat src i > 0 then upd2 cc src (mat src i) true else cc)
        m c) x y = c x y := by
  intro m
  induction m with
  | zero => intro x y _; rfl
  | succ m ih =>
    intro x y hx
    have hstep : (loop1 (fun i cc =>
          if mat src i > 0 then upd2 cc src (mat src i) true else cc) (m + 1) c) x y
        = (if mat src (m + 1) > 0 then
            upd2 (loop1 (fun i cc =>
              if mat src i > 0 then upd2 cc src (mat src i) true else cc) m c)
              src (mat src (m + 1)) true
           else loop1 (fun i cc =>
             if mat src i > 0 then upd2 cc src (mat src i) true else cc) m c) x y := rfl
    rw [hstep]
    by_cases h : mat src (m + 1) > 0
    · rw [if_pos h, upd2_cell, if_neg (by rintro ⟨hs, _⟩; exact hx hs)]
      exact ih x y hx
    · rw [if_neg h]
      exact ih x y hx

theorem direct_cell (src : Nat) (mat : Nat → Nat → Nat) (c : Nat → Nat → Bool) :
    ∀ m x y,
      ((loop1 (fun i cc => if mat src i > 0 then upd2 cc src (mat src i) true else cc)
        m c) x y = true
      ↔ ((x = src ∧ ∃ jj, 1 ≤ jj ∧ jj ≤ m ∧ mat src jj = y ∧ 0 < mat src jj) ∨
         c x y = true)) := by
  intro m
  induction m with
  | zero =>
    intro x y
    show c x y = true ↔ _
    constructor
    · exact Or.inr
    · rintro (⟨_, jj, h1, h0, _⟩ | h)
      · omega
      · exact h
  | succ m ih =>
    intro x y
    have hstep : (loop1 (fun i cc =>
          if mat src i > 0 then upd2 cc src (mat src i) true else cc) (m + 1) c) x y
        = (if mat src (m + 1) > 0 then
            upd2 (loop1 (fun i cc =>
              if mat src i > 0 then upd2 cc src (mat src i) true else cc) m c)
              src (mat src (m + 1)) true
           else loop1 (fun i cc =>
             if mat src i > 0 then upd2 cc src (mat src i) true else cc) m c) x y := rfl
    rw [hstep]
    by_cases h : mat src (m + 1) > 0
    · rw [if_pos h, upd2_cell]
      by_cases hxy : x = src ∧ y = mat src (m + 1)
      · rw [if_pos hxy]
        constructor
        · intro _
          exact Or.inl ⟨hxy.1, m + 1, by omega, by omega, hxy.2.symm, h⟩
        · intro _; rfl
      · rw [if_neg hxy, ih]
        constructor
        · rintro (⟨hs, jj, h1, h2, h3, h4⟩ | hc)
          · exact Or.inl ⟨hs, jj, h1, by omega, h3, h4⟩
          · exact Or.inr hc
        · rintro (⟨hs, jj, h1, h2, h3, h4⟩ | hc)
          · by_cases hj : jj = m + 1
            · exfalso
              exact hxy ⟨hs, by rw [← h3, hj]⟩
            · exact Or.inl ⟨hs, jj, h1, by omega, h3, h4⟩
          · exact Or.inr hc
    · rw [if_neg h, ih]
      constructor
      · rintro (⟨hs, jj, h1, h2, h3, h4⟩ | hc)
        · exact Or.inl ⟨hs, jj, h1, by omega, h3, h4⟩
        · exact Or.inr hc
      · rintro (⟨hs, jj, h1, h2, h3, h4⟩ | hc)
        · by_cases hj : jj = m + 1
          · exfalso
            rw [hj] at h4
            omega
          · exact Or.inl ⟨hs, jj, h1, by omega, h3, h4⟩
        · exact Or.inr hc

theorem row_preserve (mat : Nat → Nat → Nat) (nstates nab src : Nat)
    (c : Nat → Nat → Bool) (x y : Nat) (hx : x ≠ src) :
    (loop1 (fun i cc => if mat src i > 0 then upd2 cc src (mat src i) true else cc)
      nab (upd2 (loop1 (fun dest cc => upd2 cc src dest false) nstates c)
        src src true)) x y = c x y := by
  rw [direct_preserve src mat _ nab x y hx, upd2_cell,
    if_neg (by rintro ⟨hs, _⟩; exact hx hs), clear_cell,
    if_neg (by rintro ⟨hs, _⟩; exact hx hs)]

theorem init_conn_cell (mat : Nat → Nat → Nat) (nstates nab : Nat)
    (c0 : Nat → Nat → Bool) :
    ∀ m a b, 1 ≤ a → a ≤ m → 1 ≤ b → b ≤ nstates →
      ((loop1 (fun src c =>
          loop1 (fun i cc => if mat src i > 0 then upd2 cc src (mat src i) true else cc)
            nab (upd2 (loop1 (fun dest cc => upd2 cc src dest false) nstates c)
              src src true)) m c0) a b = true
        ↔ (a = b ∨ ∃ jj, 1 ≤ jj ∧ jj ≤ nab ∧ mat a jj = b ∧ 0 < mat a jj)) := by
  intro m
  induction m with
  | zero =>
    intro a b ha1 ha0
    exact absurd ha0 (by omega)
  | succ m ih =>
    intro a b ha1 ham hb1 hbn
    have hstep : (loop1 (fun src c =>
          loop1 (fun i cc => if mat src i > 0 then upd2 cc src (mat src i) true else cc)
            nab (upd2 (loop1 (fun dest cc => upd2 cc src dest false) nstates c)
              src src true)) (m + 1) c0) a b
        = (loop1 (fun i cc =>
            if mat (m + 1) i > 0 then upd2 cc (m + 1) (mat (m + 1) i) true else cc)
            nab (upd2 (loop1 (fun dest cc => upd2 cc (m + 1) dest false) nstates
              (loop1 (fun src c =>
                loop1 (fun i cc =>
                  if mat src i > 0 then upd2 cc src (mat src i) true else cc)
                  nab (upd2 (loop1 (fun dest cc => upd2 cc src dest false) nstates c)
                    src src true)) m c0))
              (m + 1) (m + 1) true)) a b := rfl
    rw [hstep]
    by_cases ha : a = m + 1
    · subst ha
      rw [direct_cell]
      constructor
      · rintro (⟨_, jj, h1, h2, h3, h4⟩ | hc)
        · exact Or.inr ⟨jj, h1, h2, h3, h4⟩
        · rw [upd2_cell] at hc
          by_cases hd : m + 1 = m + 1 ∧ b = m + 1
          · exact Or.inl hd.2.symm
          · rw [if_neg hd, clear_cell, if_pos ⟨rfl, hb1, hbn⟩] at hc
            exact absurd hc (by simp)
      · rintro (hab | ⟨jj, h1, h2, h3, h4⟩)
        · refine Or.inr ?_
          rw [upd2_cell, if_pos ⟨rfl, hab.symm⟩]
        · exact Or.inl ⟨rfl, jj, h1, h2, h3, h4⟩
    · rw [row_preserve mat nstates nab (m + 1) _ a b ha]
      exact ih a b ha1 (by omega) hb1 hbn

theorem bpath_to_rtg (d : Automaton) (c0 : Nat → Nat → Bool) :
    ∀ a b, BPath (init_connections d.mat d.nstates d.nab c0) d.nstates a b →
      1 ≤ a → a ≤ d.nstates → 1 ≤ b → b ≤ d.nstates →
      Relation.ReflTransGen (stepRel d) a b := by
  intro a b h
  induction h with
  | single h =>
    rename_i j' k'
    intro ha1 han hb1 hbn
    rcases (init_conn_cell d.mat d.nstates d.nab c0 d.nstates j' k'
        ha1 han hb1 hbn).mp h with hab | ⟨jj, h1, h2, h3, h4⟩
    · rw [hab]
    · exact Relation.ReflTransGen.single
        ⟨jj, h1, h2, h3, by rw [← h3]; exact h4⟩
  | step he h1 h2 hp ih =>
    rename_i j' m' k'
    intro ha1 han hb1 hbn
    rcases (init_conn_cell d.mat d.nstates d.nab c0 d.nstates j' m'
        ha1 han h1 h2).mp he with hab | ⟨jj, hj1, hj2, hj3, hj4⟩
    · rw [hab]
      exact ih h1 h2 hb1 hbn
    · exact Relation.ReflTransGen.head
        ⟨jj, hj1, hj2, hj3, by rw [← hj3]; exact hj4⟩ (ih h1 h2 hb1 hbn)

theorem rtg_to_bpath (d : Automaton)
    (hmat : ∀ s, s ≤ d.nstates → 1 ≤ s → ∀ j, j ≤ d.nab → 1 ≤ j →
      d.mat s j ≤ d.nstates) (c0 : Nat → Nat → Bool) :
    ∀ a b, Relation.ReflTransGen (stepRel d) a b → 1 ≤ a → a ≤ d.nstates →
      BPath (init_connections d.mat d.nstates d.nab c0) d.nstates a b ∧
      1 ≤ b ∧ b ≤ d.nstates := by
  intro a b h
  induction h with
  | refl =>
    intro ha1 han
    refine ⟨BPath.single ?_, ha1, han⟩
    exact (init_conn_cell d.mat d.nstates d.nab c0 d.nstates a a
      ha1 han ha1 han).mpr (Or.inl rfl)
  | tail hab hbc ih =>
    rename_i b' c'
    intro ha1 han
    obtain ⟨hpath, hb1, hbn⟩ := ih ha1 han
    obtain ⟨jj, hj1, hj2, hj3, hj4⟩ := hbc
    have hc1 : 1 ≤ c' := by omega
    have hcn : c' ≤ d.nstates := by
      rw [← hj3]
      exact hmat b' hbn hb1 jj hj2 hj1
    refine ⟨BPath.trans hpath hb1 hbn (BPath.single ?_), hc1, hcn⟩
    exact (init_conn_cell d.mat d.nstates d.nab c0 d.nstates b' c'
      hb1 hbn hc1 hcn).mpr (Or.inr ⟨jj, hj1, hj2, hj3, by rw [hj3]; omega⟩)

/-! ## Union on flat vectors

Every `Union` call that partit.c makes has a so-far-untouched singleton
as its second argument.  The two closed forms below (tie of two
singletons, attach of a singleton under a negative root) describe the
resulting vector exactly. -/

theorem Union_flat_closed {n : Nat} {g : Nat → Int} (hf : Flat n g)
    {a x : Nat} (ha1 : 1 ≤ a) (han : a ≤ n) (hx1 : 1 ≤ x) (hxn : x ≤ n)
    {fuel : Nat} (hfuel : 2 ≤ fuel) (hne : root g a ≠ root g x) :
    Union a x g fuel =
      if g (root g x) > g (root g a) then
        upd (upd g (root g a) (g (root g a) + (g (root g x) - 1)))
          (root g x) ((root g a : Nat) : Int)
      else
        upd (upd g (root g x) (g (root g x) + (g (root g a) - 1)))
          (root g a) ((root g x : Nat) : Int) := by
  have h1 := find_flat hf ha1 han hfuel
  have h2 := find_flat hf hx1 hxn hfuel
  simp only [Union, h1, h2]
  rw [if_pos hne]

theorem merge_sgl_root {g : Nat → Int} {a x : Nat}
    (hx1 : 1 ≤ x) (hga : g a = 0) (hgx : g x = 0) (hax : a ≠ x) :
    ∀ y, root (upd (upd g x (-1)) a ((x : Nat) : Int)) y
      = if y = a ∨ y = x then x else root g y := by
  intro y
  have hca : (upd (upd g x (-1)) a ((x : Nat) : Int)) a = ((x : Nat) : Int) :=
    upd_same _ _ _
  have hcx : (upd (upd g x (-1)) a ((x : Nat) : Int)) x = -1 := by
    rw [upd_other _ _ _ _ (fun h => hax h.symm), upd_same]
  by_cases hy : y = a
  · rw [if_pos (Or.inl hy), hy, root_of_pos (by rw [hca]; exact_mod_cast hx1)]
    rw [hca]
    exact Int.toNat_natCast x
  · by_cases hyx : y = x
    · rw [if_pos (Or.inr hyx), hyx, root_of_nonpos (by rw [hcx]; omega)]
    · have hcy : (upd (upd g x (-1)) a ((x : Nat) : Int)) y = g y := by
        rw [upd_other _ _ _ _ hy, upd_other _ _ _ _ hyx]
      rw [if_neg (by tauto)]
      simp [root, hcy]

theorem merge_sgl_flat {n : Nat} {g : Nat → Int} (hf : Flat n g)
    {a x : Nat} (hx1 : 1 ≤ x) (hxn : x ≤ n)
    (hga : g a = 0) (hgx : g x = 0) (hax : a ≠ x) :
    Flat n (upd (upd g x (-1)) a ((x : Nat) : Int)) := by
  intro e hen he1
  have hcx : (upd (upd g x (-1)) a ((x : Nat) : Int)) x = -1 := by
    rw [upd_other _ _ _ _ (fun h => hax h.symm), upd_same]
  by_cases he : e = a
  · right
    rw [he, upd_same]
    refine ⟨by exact_mod_cast hx1, by exact_mod_cast hxn, ?_⟩
    rw [Int.toNat_natCast x, hcx]
    omega
  · by_cases hex : e = x
    · left
      rw [hex, hcx]
      omega
    · have hce : (upd (upd g x (-1)) a ((x : Nat) : Int)) e = g e := by
        rw [upd_other _ _ _ _ he, upd_other _ _ _ _ hex]
      rcases hf e hen he1 with h | ⟨h1, h2, h3⟩
      · left
        rw [hce]
        exact h
      · right
        rw [hce]
        refine ⟨h1, h2, ?_⟩
        have hta : (g e).toNat ≠ a := by
          intro hc
          rw [hc, hga] at h3
          omega
        have htx : (g e).toNat ≠ x := by
          intro hc
          rw [hc, hgx] at h3
          omega
        rw [upd_other _ _ _ _ hta, upd_other _ _ _ _ htx]
        exact h3

theorem merge_big_root {g : Nat → Int} {r x : Nat}
    (hr1 : 1 ≤ r) (hgr : g r < 0) (hgx : g x = 0) (hrx : r ≠ x) :
    ∀ y, root (upd (upd g r (g r - 1)) x ((r : Nat) : Int)) y
      = if y = x then r else root g y := by
  intro y
  have hcx : (upd (upd g r (g r - 1)) x ((r : Nat) : Int)) x = ((r : Nat) : Int) :=
    upd_same _ _ _
  by_cases hy : y = x
  · rw [if_pos hy, hy, root_of_pos (by rw [hcx]; exact_mod_cast hr1), hcx]
    exact Int.toNat_natCast r
  · have hcy : (upd (upd g r (g r - 1)) x ((r : Nat) : Int)) y
        = if y = r then g r - 1 else g y := by
      rw [upd_other _ _ _ _ hy, upd]
    rw [if_neg hy]
    by_cases hyr : y = r
    · rw [root_of_nonpos (by rw [hcy, if_pos hyr]; omega), hyr,
        root_of_nonpos (by omega)]
    · rw [hcy] at *
      have hcy' : (upd (upd g r (g r - 1)) x ((r : Nat) : Int)) y = g y := by
        rw [upd_other _ _ _ _ hy, upd_other _ _ _ _ hyr]
      simp [root, hcy']

theorem merge_big_flat {n : Nat} {g : Nat → Int} (hf : Flat n g)
    {r x : Nat} (hr1 : 1 ≤ r) (hrn : r ≤ n)
    (hgr : g r < 0) (hgx : g x = 0) (hrx : r ≠ x) :
    Flat n (upd (upd g r (g r - 1)) x ((r : Nat) : Int)) := by
  intro e hen he1
  have hcr : (upd (upd g r (g r - 1)) x ((r : Nat) : Int)) r = g r - 1 := by
    rw [upd_other _ _ _ _ hrx, upd_same]
  by_cases he : e = x
  · right
    rw [he, upd_same]
    refine ⟨by exact_mod_cast hr1, by exact_mod_cast hrn, ?_⟩
    rw [Int.toNat_natCast r, hcr]
    omega
  · by_cases her : e = r
    · left
      rw [her, hcr]
      omega
    · have hce : (upd (upd g r (g r - 1)) x ((r : Nat) : Int)) e = g e := by
        rw [upd_other _ _ _ _ he, upd_other _ _ _ _ her]
      rcases hf e hen he1 with h | ⟨h1, h2, h3⟩
      · left
        rw [hce]
        exact h
      · right
        rw [hce]
        refine ⟨h1, h2, ?_⟩
        have htx : (g e).toNat ≠ x := by
          intro hc
          rw [hc, hgx] at h3
          omega
        rw [upd_other _ _ _ _ htx, upd]
        by_cases ht : (g e).toNat = r
        · rw [if_pos ht]
          omega
        · rw [if_neg ht]
          exact h3

/-! ## The same-transition check on flat vectors -/

theorem sigEq_refl (d : Automaton) (g : Nat → Int) (s : Nat) : sigEq d g s s :=
  fun _ _ _ => rfl

theorem sigEq_symm {d : Automaton} {g : Nat → Int} {s1 s2 : Nat}
    (h : sigEq d g s1 s2) : sigEq d g s2 s1 :=
  fun a h1 h2 => (h a h1 h2).symm

theorem sigEq_trans {d : Automaton} {g : Nat → Int} {s1 s2 s3 : Nat}
    (h1 : sigEq d g s1 s2) (h2 : sigEq d g s2 s3) : sigEq d g s1 s3 :=
  fun a ha1 ha2 => (h1 a ha1 ha2).trans (h2 a ha1 ha2)

theorem st_loop_succ (s1 s2 : Nat) (mat : Nat → Nat → Nat) (fuel i k : Nat)
    (g : Nat → Int) :
    st_loop s1 s2 mat fuel i (k + 1) g =
      (let p1 := if mat s1 i > 0 then find (mat s1 i) g fuel else (mat s1 i, g)
       let p2 := if mat s2 i > 0 then find (mat s2 i) p1.2 fuel else (mat s2 i, p1.2)
       if p1.1 ≠ p2.1 then (false, p2.2)
       else st_loop s1 s2 mat fuel (i + 1) k p2.2) := rfl

theorem st_loop_spec {n : Nat} {g : Nat → Int} (hf : Flat n g)
    (s1 s2 : Nat) (mat : Nat → Nat → Nat) {fuel : Nat} (hfuel : 2 ≤ fuel) :
    ∀ k i, (∀ a, i ≤ a → a < i + k → mat s1 a ≤ n ∧ mat s2 a ≤ n) →
      (st_loop s1 s2 mat fuel i k g).2 = g ∧
      ((st_loop s1 s2 mat fuel i k g).1 = true ↔
        ∀ a, i ≤ a → a < i + k → clsv g (mat s1 a) = clsv g (mat s2 a)) := by
  intro k
  induction k with
  | zero =>
    intro i _
    refine ⟨rfl, ?_, fun _ => rfl⟩
    intro _ a ha1 ha2
    omega
  | succ k ih =>
    intro i hrange
    have hp1 : (if mat s1 i > 0 then find (mat s1 i) g fuel else (mat s1 i, g))
        = (clsv g (mat s1 i), g) := by
      by_cases h : mat s1 i > 0
      · rw [if_pos h,
          find_flat hf (by omega) (hrange i (le_refl i) (by omega)).1 hfuel]
        unfold clsv
        rw [if_pos h]
      · rw [if_neg h]
        unfold clsv
        rw [if_neg h]
    have hp2 : (if mat s2 i > 0 then find (mat s2 i) g fuel else (mat s2 i, g))
        = (clsv g (mat s2 i), g) := by
      by_cases h : mat s2 i > 0
      · rw [if_pos h,
          find_flat hf (by omega) (hrange i (le_refl i) (by omega)).2 hfuel]
        unfold clsv
        rw [if_pos h]
      · rw [if_neg h]
        unfold clsv
        rw [if_neg h]
    rw [st_loop_succ]
    simp only [hp1, hp2]
    by_cases hne : clsv g (mat s1 i) ≠ clsv g (mat s2 i)
    · rw [if_pos hne]
      refine ⟨rfl, ?_, ?_⟩
      · intro h
        exact absurd h (by simp)
      · intro hall
        exact absurd (hall i (le_refl i) (by omega)) hne
    · rw [if_neg hne]
      obtain ⟨hg, hiff⟩ := ih (i + 1) (fun a ha1 ha2 => hrange a (by omega) (by omega))
      refine ⟨hg, ?_⟩
      rw [hiff]
      constructor
      · intro hall a ha1 ha2
        by_cases hai : a = i
        · rw [hai]
          exact not_ne_iff.mp hne
        · exact hall a (by omega) (by omega)
      · intro hall a ha1 ha2
        exact hall a (by omega) (by omega)

theorem same_transitions_spec {n : Nat} {g : Nat → Int} (hf : Flat n g)
    (d : Automaton) (s1 s2 : Nat) {fuel : Nat} (hfuel : 2 ≤ fuel)
    (hrange : ∀ a, 1 ≤ a → a ≤ d.nab → d.mat s1 a ≤ n ∧ d.mat s2 a ≤ n) :
    (same_transitions s1 s2 d.mat d.nab g fuel).2 = g ∧
    ((same_transitions s1 s2 d.mat d.nab g fuel).1 = true ↔ sigEq d g s1 s2) := by
  obtain ⟨hg, hiff⟩ := st_loop_spec hf s1 s2 d.mat hfuel d.nab 1
    (fun a ha1 ha2 => hrange a ha1 (by omega))
  unfold same_transitions
  refine ⟨hg, ?_⟩
  rw [hiff]
  unfold sigEq
  constructor
  · intro hall a ha1 ha2
    exact hall a ha1 (by omega)
  · intro hall a ha1 ha2
    exact hall a ha1 (by omega)

/-! ## Flatness relative to a member set -/

theorem FlatOn.rootLe {n : Nat} {M : Nat → Prop} {g : Nat → Int}
    (hf : FlatOn n M g) {e : Nat} (he1 : 1 ≤ e) (hen : e ≤ n) (hM : M e) :
    1 ≤ root g e ∧ root g e ≤ n := by
  rcases hf e hen he1 hM with h | ⟨h1, h2, _, _⟩
  · rw [root_of_nonpos h]
    exact ⟨he1, hen⟩
  · rw [root_of_pos (by omega)]
    omega

theorem FlatOn.root_mem {n : Nat} {M : Nat → Prop} {g : Nat → Int}
    (hf : FlatOn n M g) {e : Nat} (he1 : 1 ≤ e) (hen : e ≤ n) (hM : M e) :
    M (root g e) := by
  rcases hf e hen he1 hM with h | ⟨h1, _, h3, _⟩
  · rwa [root_of_nonpos h]
  · rwa [root_of_pos (by omega)]

theorem FlatOn.rootCellNonpos {n : Nat} {M : Nat → Prop} {g : Nat → Int}
    (hf : FlatOn n M g) {e : Nat} (he1 : 1 ≤ e) (hen : e ≤ n) (hM : M e) :
    g (root g e) ≤ 0 := by
  rcases hf e hen he1 hM with h | ⟨h1, _, _, h4⟩
  · rwa [root_of_nonpos h]
  · rw [root_of_pos (by omega)]
    omega

theorem find_loop_flat_on {n : Nat} {M : Nat → Prop} {g : Nat → Int}
    (hf : FlatOn n M g) {e : Nat} (he1 : 1 ≤ e) (hen : e ≤ n) (hM : M e)
    {fuel : Nat} (hfuel : 2 ≤ fuel) :
    find_loop fuel g e = root g e := by
  match fuel, hfuel with
  | f + 2, _ =>
    rcases hf e hen he1 hM with h | ⟨h1, h2, _, h4⟩
    · simp [find_loop, Int.not_lt.mpr h, root_of_nonpos h]
    · have hpos : 0 < g e := by omega
      have hstop : ¬ 0 < g ((g e).toNat) := by omega
      cases f with
      | zero => simp [find_loop, hpos, hstop, root_of_pos hpos]
      | succ f' => simp [find_loop, hpos, hstop, root_of_pos hpos]

theorem compress_path_flat_on {n : Nat} {M : Nat → Prop} {g : Nat → Int}
    (hf : FlatOn n M g) {e : Nat} (he1 : 1 ≤ e) (hen : e ≤ n) (hM : M e)
    {fuel : Nat} (hfuel : 2 ≤ fuel) :
    compress_path fuel g e (root g e) = g := by
  match fuel, hfuel with
  | f + 2, _ =>
    rcases hf e hen he1 hM with h | ⟨h1, h2, _, h4⟩
    · simp [compress_path, Int.not_lt.mpr h]
    · have hpos : 0 < g e := by omega
      have hroot : root g e = (g e).toNat := root_of_pos hpos
      have hwrite : upd g e ((root g e : Nat) : Int) = g := by
        rw [hroot]
        have hup : (((g e).toNat : Nat) : Int) = g e :=
          Int.toNat_of_nonneg (by omega : (0 : Int) ≤ g e)
        rw [hup]
        exact upd_self g e
      have hstop : ¬ 0 < g ((g e).toNat) := by omega
      cases f with
      | zero =>
        simp only [compress_path, hpos, if_pos]
        rw [hwrite]
        simp [compress_path, hstop]
      | succ f' =>
        simp only [compress_path, hpos, if_pos]
        rw [hwrite]
        simp [compress_path, hstop]

theorem find_flat_on {n : Nat} {M : Nat → Prop} {g : Nat → Int}
    (hf : FlatOn n M g) {e : Nat} (he1 : 1 ≤ e) (hen : e ≤ n) (hM : M e)
    {fuel : Nat} (hfuel : 2 ≤ fuel) :
    find e g fuel = (root g e, g) := by
  have h1 := find_loop_flat_on hf he1 hen hM hfuel
  have h2 := compress_path_flat_on hf he1 hen hM hfuel
  simp [find, h1, h2]

theorem Union_flat_on_closed {n : Nat} {M : Nat → Prop} {g : Nat → Int}
    (hf : FlatOn n M g) {a x : Nat} (ha1 : 1 ≤ a) (han : a ≤ n)
    (hx1 : 1 ≤ x) (hxn : x ≤ n) (hMa : M a) (hMx : M x)
    {fuel : Nat} (hfuel : 2 ≤ fuel) (hne : root g a ≠ root g x) :
    Union a x g fuel =
      if g (root g x) > g (root g a) then
        upd (upd g (root g a) (g (root g a) + (g (root g x) - 1)))
          (root g x) ((root g a : Nat) : Int)
      else
        upd (upd g (root g x) (g (root g x) + (g (root g a) - 1)))
          (root g a) ((root g x : Nat) : Int) := by
  have h1 := find_flat_on hf ha1 han hMa hfuel
  have h2 := find_flat_on hf hx1 hxn hMx hfuel
  simp only [Union, h1, h2]
  rw [if_pos hne]

theorem merge_sgl_flat_on {n : Nat} {M : Nat → Prop} {g : Nat → Int}
    (hf : FlatOn n M g) {a x : Nat} (hx1 : 1 ≤ x) (hxn : x ≤ n)
    (hMx : M x) (hga : g a = 0) (hgx : g x = 0) (hax : a ≠ x) :
    FlatOn n M (upd (upd g x (-1)) a ((x : Nat) : Int)) := by
  intro e hen he1 hMe
  have hcx : (upd (upd g x (-1)) a ((x : Nat) : Int)) x = -1 := by
    rw [upd_other _ _ _ _ (fun h => hax h.symm), upd_same]
  by_cases he : e = a
  · right
    rw [he, upd_same]
    refine ⟨by exact_mod_cast hx1, by exact_mod_cast hxn, ?_, ?_⟩
    · rw [Int.toNat_natCast x]
      exact hMx
    · rw [Int.toNat_natCast x, hcx]
      omega
  · by_cases hex : e = x
    · left
      rw [hex, hcx]
      omega
    · have hce : (upd (upd g x (-1)) a ((x : Nat) : Int)) e = g e := by
        rw [upd_other _ _ _ _ he, upd_other _ _ _ _ hex]
      rcases hf e hen he1 hMe with h | ⟨h1, h2, h3, h4⟩
      · left
        rw [hce]
        exact h
      · right
        rw [hce]
        refine ⟨h1, h2, h3, ?_⟩
        have hta : (g e).toNat ≠ a := by
          intro hc
          rw [hc, hga] at h4
          omega
        have htx : (g e).toNat ≠ x := by
          intro hc
          rw [hc, hgx] at h4
          omega
        rw [upd_other _ _ _ _ hta, upd_other _ _ _ _ htx]
        exact h4

theorem merge_big_flat_on {n : Nat} {M : Nat → Prop} {g : Nat → Int}
    (hf : FlatOn n M g) {r x : Nat} (hr1 : 1 ≤ r) (hrn : r ≤ n) (hMr : M r)
    (hgr : g r < 0) (hgx : g x = 0) (hrx : r ≠ x) :
    FlatOn n M (upd (upd g r (g r - 1)) x ((r : Nat) : Int)) := by
  intro e hen he1 hMe
  have hcr : (upd (upd g r (g r - 1)) x ((r : Nat) : Int)) r = g r - 1 := by
    rw [upd_other _ _ _ _ hrx, upd_same]
  by_cases he : e = x
  · right
    rw [he, upd_same]
    refine ⟨by exact_mod_cast hr1, by exact_mod_cast hrn, ?_, ?_⟩
    · rw [Int.toNat_natCast r]
      exact hMr
    · rw [Int.toNat_natCast r, hcr]
      omega
  · by_cases her : e = r
    · left
      rw [her, hcr]
      omega
    · have hce : (upd (upd g r (g r - 1)) x ((r : Nat) : Int)) e = g e := by
        rw [upd_other _ _ _ _ he, upd_other _ _ _ _ her]
      rcases hf e hen he1 hMe with h | ⟨h1, h2, h3, h4⟩
      · left
        rw [hce]
        exact h
      · right
        rw [hce]
        refine ⟨h1, h2, h3, ?_⟩
        have htx : (g e).toNat ≠ x := by
          intro hc
          rw [hc, hgx] at h4
          omega
        rw [upd_other _ _ _ _ htx, upd]
        by_cases ht : (g e).toNat = r
        · rw [if_pos ht]
          omega
        · rw [if_neg ht]
          exact h4

/-! ## The update check of partit.c -/

theorem up_scan_spec {n : Nat} {Mo Mn : Nat → Prop} {og ng : Nat → Int}
    (hfo : FlatOn n Mo og) (hfn : FlatOn n Mn ng)
    (member : Nat → Nat) {fuel : Nat} (hfuel : 2 ≤ fuel)
    (size : Nat) (hmem : ∀ t, t < size →
      1 ≤ member t ∧ member t ≤ n ∧ Mo (member t) ∧ Mn (member t)) :
    ∀ k, k ≤ size →
      loop0 (fun i st =>
        if st.1 then st
        else
          let p1 := find (member i) st.2.1 fuel
          let p2 := find (member i) st.2.2 fuel
          (decide (p1.1 ≠ p2.1), p1.2, p2.2)) k
        ((false : Bool), og, ng)
      = (decide (∃ t, t < k ∧
          root og (member t) ≠ root ng (member t)), og, ng) := by
  intro k
  induction k with
  | zero =>
    intro _
    simp [loop0]
  | succ k ih =>
    intro hk
    have hprev := ih (by omega)
    show (fun i st =>
        if st.1 then st
        else
          let p1 := find (member i) st.2.1 fuel
          let p2 := find (member i) st.2.2 fuel
          (decide (p1.1 ≠ p2.1), p1.2, p2.2)) k
        (loop0 (fun i st =>
          if st.1 then st
          else
            let p1 := find (member i) st.2.1 fuel
            let p2 := find (member i) st.2.2 fuel
            (decide (p1.1 ≠ p2.1), p1.2, p2.2)) k ((false : Bool), og, ng)) = _
    rw [hprev]
    by_cases hex : ∃ t, t < k ∧ root og (member t) ≠ root ng (member t)
    · have hflag : decide (∃ t, t < k ∧
          root og (member t) ≠ root ng (member t)) = true := by
        simpa using hex
      rw [hflag]
      have hex1 : ∃ t, t < k + 1 ∧
          root og (member t) ≠ root ng (member t) := by
        obtain ⟨t, ht, hmis⟩ := hex
        exact ⟨t, by omega, hmis⟩
      have hflag1 : decide (∃ t, t < k + 1 ∧
          root og (member t) ≠ root ng (member t)) = true := by
        simpa using hex1
      rw [hflag1]
      rfl
    · have hflag : decide (∃ t, t < k ∧
          root og (member t) ≠ root ng (member t)) = false := by
        simpa using hex
      rw [hflag]
      show (if (false : Bool) then _ else _) = _
      rw [if_neg (by simp)]
      have hm := hmem k (by omega)
      have hfind1 := find_flat_on hfo hm.1 hm.2.1 hm.2.2.1 hfuel
      have hfind2 := find_flat_on hfn hm.1 hm.2.1 hm.2.2.2 hfuel
      simp only [hfind1, hfind2]
      have hiff : (∃ t, t < k + 1 ∧
          root og (member t) ≠ root ng (member t))
          ↔ root og (member k) ≠ root ng (member k) := by
        constructor
        · rintro ⟨t, ht, hmis⟩
          by_cases htk : t = k
          · rwa [htk] at hmis
          · exact absurd ⟨t, by omega, hmis⟩ hex
        · intro h
          exact ⟨k, by omega, h⟩
      rw [decide_eq_decide.mpr hiff]

theorem up_copy_spec (member : Nat → Nat) (ng : Nat → Int) :
    ∀ (k : Nat) (og : Nat → Int) (x : Nat),
      (loop0 (fun i og' => upd og' (member i) (ng (member i))) k og) x
        = if ∃ t, t < k ∧ member t = x then ng x else og x := by
  intro k
  induction k with
  | zero =>
    intro og x
    rw [if_neg (by rintro ⟨t, ht, _⟩; omega)]
    rfl
  | succ k ih =>
    intro og x
    show upd (loop0 (fun i og' => upd og' (member i) (ng (member i))) k og)
      (member k) (ng (member k)) x = _
    by_cases hx : x = member k
    · rw [hx, upd_same, if_pos ⟨k, by omega, rfl⟩]
    · rw [upd_other _ _ _ _ hx, ih]
      by_cases hex : ∃ t, t < k ∧ member t = x
      · rw [if_pos hex]
        obtain ⟨t, ht, hmt⟩ := hex
        rw [if_pos ⟨t, by omega, hmt⟩]
      · rw [if_neg hex, if_neg (by
          rintro ⟨t, ht, hmt⟩
          by_cases htk : t = k
          · rw [htk] at hmt
            exact hx hmt.symm
          · exact hex ⟨t, by omega, hmt⟩)]

theorem update_partitions_spec {n : Nat} {Mo Mn : Nat → Prop} {og ng : Nat → Int}
    (hfo : FlatOn n Mo og) (hfn : FlatOn n Mn ng)
    (member : Nat → Nat) {fuel : Nat} (hfuel : 2 ≤ fuel)
    (size : Nat) (hmem : ∀ t, t < size →
      1 ≤ member t ∧ member t ≤ n ∧ Mo (member t) ∧ Mn (member t)) :
    (update_partitions size member og ng fuel).2.2 = ng ∧
    ((update_partitions size member og ng fuel).1 = true ↔
      ∃ t, t < size ∧ root og (member t) ≠ root ng (member t)) ∧
    ∀ x, (update_partitions size member og ng fuel).2.1 x
      = if (∃ t, t < size ∧ member t = x) ∧
           (∃ t, t < size ∧ root og (member t) ≠ root ng (member t))
        then ng x else og x := by
  have hscan := up_scan_spec hfo hfn member hfuel size hmem size (le_refl _)
  unfold update_partitions
  rw [hscan]
  by_cases hex : ∃ t, t < size ∧ root og (member t) ≠ root ng (member t)
  · have hflag : decide (∃ t, t < size ∧
        root og (member t) ≠ root ng (member t)) = true := by simpa using hex
    rw [hflag]
    refine ⟨rfl, ⟨fun _ => hex, fun _ => rfl⟩, ?_⟩
    intro x
    show (loop0 (fun i og' => upd og' (member i) (ng (member i))) size og) x = _
    rw [up_copy_spec]
    by_cases hm : ∃ t, t < size ∧ member t = x
    · rw [if_pos hm, if_pos ⟨hm, hex⟩]
    · rw [if_neg hm, if_neg (by rintro ⟨h1, _⟩; exact hm h1)]
  · have hflag : decide (∃ t, t < size ∧
        root og (member t) ≠ root ng (member t)) = false := by simpa using hex
    rw [hflag]
    refine ⟨rfl, ⟨fun h => absurd h (by simp), fun h => absurd h hex⟩, ?_⟩
    intro x
    show og x = _
    rw [if_neg (by rintro ⟨_, h2⟩; exact hex h2)]

/-! ## Claim C7 -/

/-- C7: after `init_connections` and `t_closure` (as run at the start of
`find_dead_states`, on top of arbitrary previous contents `c0` of the
static matrix), the in-range cells of the connectivity matrix hold the
reflexive-transitive closure of the direct-transition relation:
`connected[i][j]` is true iff `j` is reachable from `i` by zero or more
transitions. -/
theorem claim_C7_warshall_closure (d : Automaton) (c0 : Nat → Nat → Bool)
    (hv : ValidDFA d) {i j : Nat} (hi1 : 1 ≤ i) (hin : i ≤ d.nstates)
    (hj1 : 1 ≤ j) (hjn : j ≤ d.nstates) :
    (connAfter d c0 i j = true ↔ Relation.ReflTransGen (stepRel d) i j) := by
  unfold connAfter
  rw [t_closure_eq_wfold]
  rw [wfold_iff_bpath _ d.nstates (le_refl _) i j hi1 hin hj1 hjn]
  constructor
  · intro h
    exact bpath_to_rtg d c0 i j h hi1 hin hj1 hjn
  · intro h
    exact (rtg_to_bpath d hv.2.2.2.1 c0 i j h hi1 hin).1

theorem claim_C7_witness :
    ValidDFA dfaThree ∧
    (connAfter dfaThree zeroConn 1 2 = true ↔
      Relation.ReflTransGen (stepRel dfaThree) 1 2) :=
  ⟨by decide,
   claim_C7_warshall_closure dfaThree zeroConn (by decide) (by decide)
     (by decide) (by decide) (by decide)⟩

/-! ## Claim C9 -/

/-- C9: for every well-formed partition vector (in-range parent pointers,
parent chains terminating at a root within `n` steps) and every in-range
element `e`, `find` returns the root of the parent chain of `e`, and the
path-compression mutation preserves the induced partition: afterwards
every element has the same root as before, and every root cell (in
particular every stored weight) is unchanged. -/
theorem claim_C9_find_correct {n : Nat} {g : Nat → Int} (hwf : WFN n g)
    {e : Nat} (he1 : 1 ≤ e) (hen : e ≤ n) {fuel : Nat} (hfuel : n ≤ fuel) :
    RootsTo g e ((find e g fuel).1) ∧
    (∀ x, x ≤ n → 1 ≤ x → ∀ s, RootsTo g x s ↔ RootsTo ((find e g fuel).2) x s) ∧
    (∀ x, g x ≤ 0 → (find e g fuel).2 x = g x) := by
  obtain ⟨h1, h2, h3, h4, _⟩ := find_spec hwf hen he1 hfuel
  refine ⟨h1, ?_, h3⟩
  intro x hx hx1 s
  constructor
  · exact h2 x s
  · intro hs
    have hex : RootsTo g x (find_loop n g x) := hwf.rootsTo hx hx1
    have hex' := h2 x _ hex
    have hse : s = find_loop n g x := RootsTo.unique hs hex'
    rw [hse]
    exact hex

theorem claim_C9_witness :
    WFN 3 wfChain ∧
    (RootsTo wfChain 1 ((find 1 wfChain 3).1) ∧
     (∀ x, x ≤ 3 → 1 ≤ x → ∀ s,
        RootsTo wfChain x s ↔ RootsTo ((find 1 wfChain 3).2) x s) ∧
     (∀ x, wfChain x ≤ 0 → (find 1 wfChain 3).2 x = wfChain x)) :=
  ⟨by decide, claim_C9_find_correct (by decide) (by decide) (by decide) (by decide)⟩

/-! ## Claim C4 -/

/-- C4, counterexample to the tie rule: on the all-singleton vector both
roots (1 and 2) have stored weight 0, and `Union(1, 2, rep)` attaches the
FIRST argument's root under the SECOND argument's root — cell 1 becomes a
pointer to 2 and cell 2 becomes the surviving root of weight -1 — whereas
the claim asserts the second argument's root would be attached under the
first's (which would require cell 2 to become 1). -/

theorem claim_C4_counterexample :
    (Union 1 2 (fun _ => 0) 5) 1 = 2 ∧ (Union 1 2 (fun _ => 0) 5) 2 = -1 ∧
    ¬ (Union 1 2 (fun _ => 0) 5) 2 = 1 := by
  refine ⟨by decide, by decide, by decide⟩

/-- C4 (amended): for a well-formed vector and elements whose classes have
distinct roots, `Union(a, b, rep)` attaches the root with the strictly
larger stored cell (the smaller tree, weights being `-(size-1)`) under
the other root and adds the weights (minus one more for the attached
root); when the two stored weights are equal it attaches the FIRST
argument's root under the SECOND argument's root. -/

theorem claim_C4_union_weight_balanced {n : Nat} {g : Nat → Int} (hwf : WFN n g)
    {a b : Nat} (ha1 : 1 ≤ a) (han : a ≤ n) (hb1 : 1 ≤ b) (hbn : b ≤ n)
    {fuel : Nat} (hfuel : n ≤ fuel)
    (hne : find_loop n g a ≠ find_loop n g b) :
    (g (find_loop n g b) > g (find_loop n g a) →
      (Union a b g fuel) (find_loop n g b) = ((find_loop n g a : Nat) : Int) ∧
      (Union a b g fuel) (find_loop n g a) =
        g (find_loop n g a) + (g (find_loop n g b) - 1)) ∧
    (g (find_loop n g a) ≥ g (find_loop n g b) →
      (Union a b g fuel) (find_loop n g a) = ((find_loop n g b : Nat) : Int) ∧
      (Union a b g fuel) (find_loop n g b) =
        g (find_loop n g b) + (g (find_loop n g a) - 1)) := by
  obtain ⟨hr1a, hprea, hcella, hwf1, hra1, hran⟩ := find_spec hwf han ha1 hfuel
  have hfst1 : (find a g fuel).1 = find_loop n g a :=
    RootsTo.unique hr1a (hwf.rootsTo han ha1)
  obtain ⟨hr1b, hpreb, hcellb, hwf2, hrb1, hrbn⟩ := find_spec hwf1 hbn hb1 hfuel
  have hrb' : RootsTo (find a g fuel).2 b (find_loop n g b) :=
    hprea b _ (hwf.rootsTo hbn hb1)
  have hfst2 : (find b (find a g fuel).2 fuel).1 = find_loop n g b :=
    RootsTo.unique hr1b hrb'
  have hgra : g (find_loop n g a) ≤ 0 := (hwf a han ha1).2
  have hgrb : g (find_loop n g b) ≤ 0 := (hwf b hbn hb1).2
  have hc1a : (find a g fuel).2 (find_loop n g a) = g (find_loop n g a) :=
    hcella _ hgra
  have hc1b : (find a g fuel).2 (find_loop n g b) = g (find_loop n g b) :=
    hcella _ hgrb
  have hc2a : (find b (find a g fuel).2 fuel).2 (find_loop n g a)
      = g (find_loop n g a) := by
    rw [hcellb _ (by rw [hc1a]; exact hgra)]
    exact hc1a
  have hc2b : (find b (find a g fuel).2 fuel).2 (find_loop n g b)
      = g (find_loop n g b) := by
    rw [hcellb _ (by rw [hc1b]; exact hgrb)]
    exact hc1b
  simp only [Union]
  rw [hfst1, hfst2, if_pos hne, hc2a, hc2b]
  constructor
  · intro hlt
    rw [if_pos hlt]
    constructor
    · exact upd_same _ _ _
    · rw [upd_other _ _ _ _ hne, upd_same]
  · intro hge
    rw [if_neg (by omega)]
    constructor
    · exact upd_same _ _ _
    · rw [upd_other _ _ _ _ (fun h => hne h.symm), upd_same]

theorem claim_C4_witness :
    WFN 2 zeroGroups ∧ find_loop 2 zeroGroups 1 ≠ find_loop 2 zeroGroups 2 ∧
    ((zeroGroups (find_loop 2 zeroGroups 2) > zeroGroups (find_loop 2 zeroGroups 1) →
      (Union 1 2 zeroGroups 2) (find_loop 2 zeroGroups 2)
        = ((find_loop 2 zeroGroups 1 : Nat) : Int) ∧
      (Union 1 2 zeroGroups 2) (find_loop 2 zeroGroups 1)
        = zeroGroups (find_loop 2 zeroGroups 1) + (zeroGroups (find_loop 2 zeroGroups 2) - 1)) ∧
     (zeroGroups (find_loop 2 zeroGroups 1) ≥ zeroGroups (find_loop 2 zeroGroups 2) →
      (Union 1 2 zeroGroups 2) (find_loop 2 zeroGroups 1)
        = ((find_loop 2 zeroGroups 2 : Nat) : Int) ∧
      (Union 1 2 zeroGroups 2) (find_loop 2 zeroGroups 2)
        = zeroGroups (find_loop 2 zeroGroups 2) + (zeroGroups (find_loop 2 zeroGroups 1) - 1))) :=
  ⟨by decide, by decide,
   claim_C4_union_weight_balanced (by decide) (by decide) (by decide) (by decide)
     (by decide) (by decide) (by decide)⟩

/-! ## Claim C5 -/

/-- C5: `compress_dfa` never writes the terminating sentinel after the
accept entries it fills (inout.c does, at line `dfa->accept[i] = 0`, and
dead.c relies on it).  On the first processed file the zero-initialized
static `out_dfa` masks the omission, but on a two-file run where the
first minimized DFA has more accept states than the second, the stale
entry survives at the sentinel position.  Here: minimizing `dfaTwoAcc`
writes accept entries 1, 2; then minimizing `dfaOneAcc` into the same
output automaton writes the single entry 1 at index 0, and index 1 still
holds the stale id 2 instead of the sentinel 0. -/

theorem claim_C5_missing_sentinel :
    (minimize_dfa dfaOneAcc
       (minimize_dfa dfaTwoAcc zeroAutomaton zeroGroups zeroConn)
       zeroGroups zeroConn).nstates = 1 ∧
    (minimize_dfa dfaOneAcc
       (minimize_dfa dfaTwoAcc zeroAutomaton zeroGroups zeroConn)
       zeroGroups zeroConn).accept 0 = 1 ∧
    (minimize_dfa dfaOneAcc
       (minimize_dfa dfaTwoAcc zeroAutomaton zeroGroups zeroConn)
       zeroGroups zeroConn).accept 1 = 2 := by
  refine ⟨by decide, by decide, by decide⟩

/-! ## Claim C6 -/

/-- C6, counterexample: in `dfaUnreach` state 2 has attribute 'A' and is
unreachable from the initial state 1; `find_dead_states` reclassifies it
to 'D', while the claim asserts states with attribute 'A' are never
reclassified. -/

theorem claim_C6_counterexample :
    dfaUnreach.state_attrib 2 = 'A' ∧
    (find_dead_states dfaUnreach zeroConn).state_attrib 2 = 'D' := by
  refine ⟨by decide, by decide⟩

/-- C6 (amended): the second pass of `find_dead_states` never changes a
state whose attribute is 'A' or already 'D', but the first pass marks
every state not connected to the initial state dead, including accept
states: an accept state keeps 'A' exactly when the closure matrix
connects the initial state to it, and a state already 'D' stays 'D'. -/

theorem claim_C6_dead_marking (d : Automaton) (c0 : Nat → Nat → Bool)
    {s : Nat} (h1 : 1 ≤ s) (hn : s ≤ d.nstates) :
    (d.state_attrib s = 'A' →
      (find_dead_states d c0).state_attrib s =
        (if t_closure d.nstates (init_connections d.mat d.nstates d.nab c0)
            d.init_state s = true
         then 'A' else 'D')) ∧
    (d.state_attrib s = 'D' →
      (find_dead_states d c0).state_attrib s = 'D') := by
  set conn := t_closure d.nstates
    (init_connections d.mat d.nstates d.nab c0) with hconn
  have h1c := loop1_cellwise
    (fun i a => if conn d.init_state i = false then upd a i 'D' else a)
    (fun i v => if conn d.init_state i = false then 'D' else v)
    (by
      intro i a x hx
      show (if conn d.init_state i = false then upd a i 'D' else a) x = a x
      by_cases h : conn d.init_state i = false
      · rw [if_pos h]; exact upd_other a i x 'D' hx
      · rw [if_neg h])
    (by
      intro i a
      show (if conn d.init_state i = false then upd a i 'D' else a) i
        = if conn d.init_state i = false then 'D' else a i
      by_cases h : conn d.init_state i = false
      · rw [if_pos h, if_pos h]; exact upd_same a i 'D'
      · rw [if_neg h, if_neg h])
  have h2c := loop1_cellwise
    (fun i a =>
      if a i = 'D' ∨ a i = 'A' then a
      else if accept_scan d.accept conn i 0 (d.nstates + 1) then a
      else upd a i 'D')
    (fun i v =>
      if v = 'D' ∨ v = 'A' then v
      else if accept_scan d.accept conn i 0 (d.nstates + 1) then v
      else 'D')
    (by
      intro i a x hx
      show (if a i = 'D' ∨ a i = 'A' then a
            else if accept_scan d.accept conn i 0 (d.nstates + 1) then a
            else upd a i 'D') x = a x
      by_cases h : a i = 'D' ∨ a i = 'A'
      · rw [if_pos h]
      · rw [if_neg h]
        by_cases h2 : accept_scan d.accept conn i 0 (d.nstates + 1) = true
        · rw [if_pos h2]
        · rw [if_neg h2]
          exact upd_other a i x 'D' hx)
    (by
      intro i a
      show (if a i = 'D' ∨ a i = 'A' then a
            else if accept_scan d.accept conn i 0 (d.nstates + 1) then a
            else upd a i 'D') i
        = if a i = 'D' ∨ a i = 'A' then a i
          else if accept_scan d.accept conn i 0 (d.nstates + 1) then a i
          else 'D'
      by_cases h : a i = 'D' ∨ a i = 'A'
      · rw [if_pos h, if_pos h]
      · rw [if_neg h, if_neg h]
        by_cases h2 : accept_scan d.accept conn i 0 (d.nstates + 1) = true
        · rw [if_pos h2, if_pos h2]
        · rw [if_neg h2, if_neg h2]
          exact upd_same a i 'D')
  have key : (find_dead_states d c0).state_attrib s
      = loop1 (fun i a =>
          if a i = 'D' ∨ a i = 'A' then a
          else if accept_scan d.accept conn i 0 (d.nstates + 1) then a
          else upd a i 'D') d.nstates
          (loop1 (fun i a => if conn d.init_state i = false then upd a i 'D' else a)
            d.nstates d.state_attrib) s := rfl
  rw [key, h2c, h1c, if_pos ⟨h1, hn⟩, if_pos ⟨h1, hn⟩]
  constructor
  · intro hA
    rw [hA]
    rcases hcv : conn d.init_state s with _ | _
    · simp [hcv]
    · simp [hcv]
  · intro hD
    rw [hD]
    rcases hcv : conn d.init_state s with _ | _
    · simp [hcv]
    · simp [hcv]

theorem claim_C6_witness :
    1 ≤ 1 ∧ 1 ≤ dfaUnreach.nstates ∧
    ((dfaUnreach.state_attrib 1 = 'A' →
      (find_dead_states dfaUnreach zeroConn).state_attrib 1 =
        (if t_closure dfaUnreach.nstates
            (init_connections dfaUnreach.mat dfaUnreach.nstates dfaUnreach.nab zeroConn)
            dfaUnreach.init_state 1 = true
         then 'A' else 'D')) ∧
     (dfaUnreach.state_attrib 1 = 'D' →
      (find_dead_states dfaUnreach zeroConn).state_attrib 1 = 'D')) :=
  ⟨by decide, by decide,
   claim_C6_dead_marking dfaUnreach zeroConn (by decide) (by decide)⟩


/-! ## The membership scan of partit.c -/

theorem loop1_succ {σ : Type} (f : Nat → σ → σ) (n : Nat) (s : σ) :
    loop1 f (n + 1) s = f (n + 1) (loop1 f n s) := rfl

theorem loop0_succ {σ : Type} (f : Nat → σ → σ) (k : Nat) (s : σ) :
    loop0 f (k + 1) s = f k (loop0 f k s) := rfl

theorem Icc_filter_succ_card (p : Nat → Prop) [DecidablePred p] (k : Nat) :
    ((Finset.Icc 1 (k + 1)).filter p).card
      = ((Finset.Icc 1 k).filter p).card + (if p (k + 1) then 1 else 0) := by
  have hins : Finset.Icc 1 (k + 1) = insert (k + 1) (Finset.Icc 1 k) := by
    ext e
    simp only [Finset.mem_Icc, Finset.mem_insert]
    omega
  rw [hins, Finset.filter_insert]
  by_cases hp : p (k + 1)
  · rw [if_pos hp, if_pos hp, Finset.card_insert_of_not_mem]
    intro hmem
    have h1 := Finset.mem_Icc.mp (Finset.mem_filter.mp hmem).1
    omega
  · rw [if_neg hp, if_neg hp]
    rfl

theorem member_scan_spec {n fuel : Nat} {st : PartState} (rep0 : Nat)
    (hf : Flat n st.oldg) (hfuel : 2 ≤ fuel) :
    ∀ k, k ≤ n → ScanOK rep0 st k (member_scan rep0 k fuel st) := by
  intro k
  induction k with
  | zero =>
    intro _
    show ScanOK rep0 st 0 ((0 : Nat), st)
    unfold ScanOK
    dsimp only
    refine ⟨rfl, rfl, le_refl _, ?_, ?_, ?_, fun _ _ => rfl, ?_, ?_, ?_⟩
    · intro t ht
      omega
    · intro t1 t2 ht1 ht2
      omega
    · intro i hi1 hi2
      omega
    · intro x
      rw [if_neg (by rintro ⟨t, ht, _⟩; omega)]
    · intro x
      rw [if_neg (by rintro ⟨t, ht, _⟩; omega)]
    · rw [Finset.Icc_eq_empty (by omega), Finset.filter_empty]
      rfl
  | succ k ih =>
    intro hk
    obtain ⟨h1, h2, h3, h4, h5, h6, h7, h8, h9, h10⟩ := ih (by omega)
    have hfind : find (k + 1) (member_scan rep0 k fuel st).2.oldg fuel
        = (root st.oldg (k + 1), (member_scan rep0 k fuel st).2.oldg) := by
      rw [h1]
      exact find_flat hf (by omega) hk hfuel
    have hstep : member_scan rep0 (k + 1) fuel st
        = (if (find (k + 1) (member_scan rep0 k fuel st).2.oldg fuel).1 = rep0 then
            ((member_scan rep0 k fuel st).1 + 1,
             { (member_scan rep0 k fuel st).2 with
                 member := upd (member_scan rep0 k fuel st).2.member
                   (member_scan rep0 k fuel st).1 (k + 1),
                 newg := upd (member_scan rep0 k fuel st).2.newg (k + 1) 0,
                 unified := upd (member_scan rep0 k fuel st).2.unified (k + 1) false,
                 oldg := (find (k + 1) (member_scan rep0 k fuel st).2.oldg fuel).2 })
          else ((member_scan rep0 k fuel st).1,
            { (member_scan rep0 k fuel st).2 with
                oldg := (find (k + 1) (member_scan rep0 k fuel st).2.oldg fuel).2 })) := rfl
    rw [hstep]
    simp only [hfind]
    by_cases hroot : root st.oldg (k + 1) = rep0
    · rw [if_pos hroot]
      unfold ScanOK
      dsimp only
      have hmemiff : ∀ x, memSet
          (upd (member_scan rep0 k fuel st).2.member (member_scan rep0 k fuel st).1 (k + 1))
          ((member_scan rep0 k fuel st).1 + 1) x
          ↔ (x = k + 1 ∨ memSet (member_scan rep0 k fuel st).2.member
              (member_scan rep0 k fuel st).1 x) := by
        intro x
        constructor
        · rintro ⟨t, ht, hmt⟩
          by_cases hts : t = (member_scan rep0 k fuel st).1
          · left
            rw [hts, upd_same] at hmt
            exact hmt.symm
          · right
            rw [upd_other _ _ _ _ hts] at hmt
            exact ⟨t, by omega, hmt⟩
        · rintro (hx | ⟨t, ht, hmt⟩)
          · exact ⟨(member_scan rep0 k fuel st).1, by omega, by rw [upd_same, hx]⟩
          · exact ⟨t, by omega, by rw [upd_other _ _ _ _ (by omega)]; exact hmt⟩
      refine ⟨h1, h2, by omega, ?_, ?_, ?_, ?_, ?_, ?_, ?_⟩
      · intro t ht
        by_cases hts : t = (member_scan rep0 k fuel st).1
        · rw [hts, upd_same]
          exact ⟨by omega, by omega, hroot⟩
        · have ht' : t < (member_scan rep0 k fuel st).1 := by omega
          rw [upd_other _ _ _ _ hts]
          obtain ⟨hb1, hb2, hb3⟩ := h4 t ht'
          exact ⟨hb1, by omega, hb3⟩
      · intro t1 t2 ht12 ht2
        by_cases ht2s : t2 = (member_scan rep0 k fuel st).1
        · rw [ht2s, upd_same, upd_other _ _ _ _ (by omega)]
          have := (h4 t1 (by omega)).2.1
          omega
        · rw [upd_other _ _ _ _ ht2s, upd_other _ _ _ _ (by omega)]
          exact h5 t1 t2 ht12 (by omega)
      · intro i hi1 hi2 hir
        by_cases hik : i = k + 1
        · exact ⟨(member_scan rep0 k fuel st).1, by omega, by rw [upd_same, hik]⟩
        · obtain ⟨t, ht, hmt⟩ := h6 i hi1 (by omega) hir
          exact ⟨t, by omega, by rw [upd_other _ _ _ _ (by omega)]; exact hmt⟩
      · intro u hu
        rw [upd_other _ _ _ _ (by omega)]
        exact h7 u (by omega)
      · intro x
        rw [if_congr (hmemiff x) rfl rfl]
        by_cases hx : x = k + 1
        · rw [hx, upd_same, if_pos (Or.inl rfl)]
        · rw [upd_other _ _ _ _ hx, h8]
          by_cases hm : memSet (member_scan rep0 k fuel st).2.member
              (member_scan rep0 k fuel st).1 x
          · rw [if_pos hm, if_pos (Or.inr hm)]
          · rw [if_neg hm, if_neg (by rintro (h | h); exact hx h; exact hm h)]
      · intro x
        rw [if_congr (hmemiff x) rfl rfl]
        by_cases hx : x = k + 1
        · rw [hx, upd_same, if_pos (Or.inl rfl)]
        · rw [upd_other _ _ _ _ hx, h9]
          by_cases hm : memSet (member_scan rep0 k fuel st).2.member
              (member_scan rep0 k fuel st).1 x
          · rw [if_pos hm, if_pos (Or.inr hm)]
          · rw [if_neg hm, if_neg (by rintro (h | h); exact hx h; exact hm h)]
      · rw [Icc_filter_succ_card, if_pos hroot]
        omega
    · rw [if_neg hroot]
      unfold ScanOK
      dsimp only
      refine ⟨h1, h2, by omega, ?_, h5, ?_, h7, h8, h9, ?_⟩
      · intro t ht
        obtain ⟨hb1, hb2, hb3⟩ := h4 t ht
        exact ⟨hb1, by omega, hb3⟩
      · intro i hi1 hi2 hir
        by_cases hik : i = k + 1
        · rw [hik] at hir
          exact absurd hir hroot
        · exact h6 i hi1 (by omega) hir
      · rw [Icc_filter_succ_card, if_neg hroot]
        omega

/-! ## The pair loop of partit.c -/

theorem pair_step (d : Automaton) (s : PartState) (i size fuel t : Nat)
    (hfG : Flat d.nstates s.oldg)
    (hmatr : ∀ x, x ≤ d.nstates → 1 ≤ x → ∀ a, a ≤ d.nab → 1 ≤ a →
      d.mat x a ≤ d.nstates)
    (hfuel : 2 ≤ fuel)
    (hm : ∀ u, u < size → 1 ≤ s.member u ∧ s.member u ≤ d.nstates)
    (hmono : ∀ t1 t2, t1 < t2 → t2 < size → s.member t1 < s.member t2)
    (hi : i < size)
    (hlead : ∀ l, l < i → ¬ sigEq d s.oldg (s.member l) (s.member i))
    (hun : ∀ j, i < j → j < size → (s.unified (s.member j) = true ↔
      ∃ l, l < i ∧ sigEq d s.oldg (s.member l) (s.member j)))
    (hfresh : ∀ j, i ≤ j → j < size →
      (∀ l, l < i → ¬ sigEq d s.oldg (s.member l) (s.member j)) →
      s.newg (s.member j) = 0)
    (ht : t + 1 ≤ size - 1 - i)
    (sc : PartState) (hinv : PLInv d s i size (i + 1 + t) sc) :
    PLInv d s i size (i + 1 + (t + 1))
      (if sc.unified (sc.member (i + 1 + t)) then sc
       else if (same_transitions (sc.member i) (sc.member (i + 1 + t)) d.mat
           d.nab sc.oldg fuel).1 then
         { sc with newg := Union (sc.member i) (sc.member (i + 1 + t)) sc.newg fuel,
                   unified := upd sc.unified (sc.member (i + 1 + t)) true,
                   oldg := (same_transitions (sc.member i) (sc.member (i + 1 + t))
                     d.mat d.nab sc.oldg fuel).2 }
       else { sc with oldg := (same_transitions (sc.member i) (sc.member (i + 1 + t))
         d.mat d.nab sc.oldg fuel).2 }) := by
  have hJ : i + 1 + t < size := by omega
  have hminj : ∀ t1 t2, t1 < size → t2 < size → s.member t1 = s.member t2 →
      t1 = t2 := by
    intro t1 t2 h1 h2 he
    rcases Nat.lt_trichotomy t1 t2 with h | h | h
    · have := hmono t1 t2 h h2
      omega
    · exact h
    · have := hmono t2 t1 h h1
      omega
  obtain ⟨ha1, ha2, ha3, hb4, hb5, hc6, hflat7, he8, hf9⟩ := hinv
  rw [ha2, ha1]
  have htest : sc.unified (s.member (i + 1 + t)) = s.unified (s.member (i + 1 + t)) := by
    apply hb5
    rintro ⟨j', hj1, hj2, _, hjeq⟩
    have := hminj (i + 1 + t) j' hJ (by omega) hjeq
    omega
  rw [htest]
  by_cases hskip : ∃ l, l < i ∧ sigEq d s.oldg (s.member l) (s.member (i + 1 + t))
  · have hutrue : s.unified (s.member (i + 1 + t)) = true :=
      (hun (i + 1 + t) (by omega) hJ).mpr hskip
    rw [hutrue, if_pos rfl]
    have hnotp : ¬ sigEq d s.oldg (s.member i) (s.member (i + 1 + t)) := by
      intro hp
      obtain ⟨l, hl, hsl⟩ := hskip
      exact hlead l hl (sigEq_trans hsl (sigEq_symm hp))
    refine ⟨ha1, ha2, ha3, ?_, ?_, ?_, hflat7, ?_, ?_⟩
    · intro j h1 h2 h3
      by_cases hjj : j = i + 1 + t
      · rw [hjj] at h3
        exact absurd h3 hnotp
      · exact hb4 j h1 (by omega) h3
    · intro y hy
      apply hb5
      rintro ⟨j, hj1, hj2, hj3, hj4⟩
      exact hy ⟨j, hj1, by omega, hj3, hj4⟩
    · intro y hy
      apply hc6
      rintro (h | ⟨j, hj1, hj2, hj3, hj4⟩)
      · exact hy (Or.inl h)
      · exact hy (Or.inr ⟨j, hj1, by omega, hj3, hj4⟩)
    · rintro ⟨j, hj1, hj2, hj3⟩
      have hj2' : j < i + 1 + t := by
        by_cases hjj : j = i + 1 + t
        · rw [hjj] at hj3
          exact absurd hj3 hnotp
        · omega
      obtain ⟨v, hv1, hv2, hv3, hv4, hv5, hv6⟩ := he8 ⟨j, hj1, hj2', hj3⟩
      refine ⟨v, hv1, by omega, hv3, hv4, ?_, hv6⟩
      intro y hy
      apply hv5
      rcases hy with h | ⟨j', hj1', hj2', hj3', hj4'⟩
      · exact Or.inl h
      · have hj2'' : j' < i + 1 + t := by
          by_cases hjj : j' = i + 1 + t
          · rw [hjj] at hj3'
            exact absurd hj3' hnotp
          · omega
        exact Or.inr ⟨j', hj1', hj2'', hj3', hj4'⟩
    · intro hnone
      apply hf9
      rintro ⟨j, hj1, hj2, hj3⟩
      exact hnone ⟨j, hj1, by omega, hj3⟩
  · have hufalse : s.unified (s.member (i + 1 + t)) = false := by
      cases hcase : s.unified (s.member (i + 1 + t)) with
      | false => rfl
      | true => exact absurd ((hun (i + 1 + t) (by omega) hJ).mp hcase) hskip
    rw [hufalse]
    rw [if_neg (by simp)]
    have hrange : ∀ a, 1 ≤ a → a ≤ d.nab →
        d.mat (s.member i) a ≤ d.nstates ∧
        d.mat (s.member (i + 1 + t)) a ≤ d.nstates := by
      intro a h1 h2
      exact ⟨hmatr _ (hm i hi).2 (hm i hi).1 a h2 h1,
        hmatr _ (hm (i + 1 + t) hJ).2 (hm (i + 1 + t) hJ).1 a h2 h1⟩
    obtain ⟨hst2, hst1⟩ := same_transitions_spec hfG d (s.member i)
      (s.member (i + 1 + t)) hfuel hrange
    rw [hst2]
    by_cases hsig : sigEq d s.oldg (s.member i) (s.member (i + 1 + t))
    · have hflag : (same_transitions (s.member i) (s.member (i + 1 + t)) d.mat
          d.nab s.oldg fuel).1 = true := hst1.mpr hsig
      rw [hflag, if_pos rfl]
      have hnoprev : ∀ l, l < i →
          ¬ sigEq d s.oldg (s.member l) (s.member (i + 1 + t)) := by
        intro l hl hc
        exact hlead l hl (sigEq_trans hc (sigEq_symm hsig))
      have hgx : sc.newg (s.member (i + 1 + t)) = 0 := by
        have hframe : sc.newg (s.member (i + 1 + t))
            = s.newg (s.member (i + 1 + t)) := by
          apply hc6
          rintro (h | ⟨j', hj1', hj2', _, hj4'⟩)
          · have := hminj (i + 1 + t) i hJ hi h
            omega
          · have := hminj (i + 1 + t) j' hJ (by omega) hj4'
            omega
        rw [hframe]
        exact hfresh (i + 1 + t) (by omega) hJ hnoprev
      have hmij : s.member i ≠ s.member (i + 1 + t) := by
        intro h
        have := hminj i (i + 1 + t) hi hJ h
        omega
      have hrx : root sc.newg (s.member (i + 1 + t)) = s.member (i + 1 + t) :=
        root_of_nonpos (le_of_eq hgx)
      by_cases hany : ∃ j, i < j ∧ j < i + 1 + t ∧
          sigEq d s.oldg (s.member i) (s.member j)
      · obtain ⟨v, hv1, hv2, hv3, hv4, hv5, hv6⟩ := he8 hany
        have hra : root sc.newg (s.member i) = s.member v := hv5 _ (Or.inl rfl)
        have hvj : s.member v ≠ s.member (i + 1 + t) := by
          intro h
          have := hminj v (i + 1 + t) (by omega) hJ h
          omega
        have hne : root sc.newg (s.member i)
            ≠ root sc.newg (s.member (i + 1 + t)) := by
          rw [hra, hrx]
          exact hvj
        have hU := Union_flat_on_closed hflat7 (hm i hi).1 (hm i hi).2
          (hm (i + 1 + t) hJ).1 (hm (i + 1 + t) hJ).2 ⟨i, hi, rfl⟩
          ⟨i + 1 + t, hJ, rfl⟩ hfuel hne
        have hcond : sc.newg (root sc.newg (s.member (i + 1 + t)))
            > sc.newg (root sc.newg (s.member i)) := by
          rw [hra, hrx, hgx]
          omega
        rw [if_pos hcond] at hU
        rw [hra, hrx, hgx] at hU
        have harith : sc.newg (s.member v) + ((0 : Int) - 1)
            = sc.newg (s.member v) - 1 := by ring
        rw [harith] at hU
        rw [hU]
        have hroot := merge_big_root (g := sc.newg) (hm v (by omega)).1 hv6 hgx hvj
        have hflat' := merge_big_flat_on hflat7 (hm v (by omega)).1
          (hm v (by omega)).2 ⟨v, by omega, rfl⟩ hv6 hgx hvj
        unfold PLInv
        dsimp only
        refine ⟨rfl, rfl, ha3, ?_, ?_, ?_, hflat', ?_, ?_⟩
        · intro j h1 h2 h3
          by_cases hjj : j = i + 1 + t
          · rw [hjj, upd_same]
          · rw [upd_other _ _ _ _
              (fun h => hjj (hminj j (i + 1 + t) (by omega) hJ h))]
            exact hb4 j h1 (by omega) h3
        · intro y hy
          have hyj : y ≠ s.member (i + 1 + t) :=
            fun h => hy ⟨i + 1 + t, by omega, by omega, hsig, h⟩
          rw [upd_other _ _ _ _ hyj]
          apply hb5
          rintro ⟨j, hj1, hj2, hj3, hj4⟩
          exact hy ⟨j, hj1, by omega, hj3, hj4⟩
        · intro y hy
          have hyj : y ≠ s.member (i + 1 + t) :=
            fun h => hy (Or.inr ⟨i + 1 + t, by omega, by omega, hsig, h⟩)
          have hyv : y ≠ s.member v :=
            fun h => hy (Or.inr ⟨v, hv1, by omega, hv3, h⟩)
          rw [upd_other _ _ _ _ hyj, upd_other _ _ _ _ hyv]
          apply hc6
          rintro (h | ⟨j, hj1, hj2, hj3, hj4⟩)
          · exact hy (Or.inl h)
          · exact hy (Or.inr ⟨j, hj1, by omega, hj3, hj4⟩)
        · intro _
          refine ⟨v, hv1, by omega, hv3, hv4, ?_, ?_⟩
          · intro y hy
            rw [hroot y]
            by_cases hyj : y = s.member (i + 1 + t)
            · rw [if_pos hyj]
            · rw [if_neg hyj]
              apply hv5
              rcases hy with h | ⟨j, hj1, hj2, hj3, hj4⟩
              · exact Or.inl h
              · have hj2' : j < i + 1 + t := by
                  by_cases hjj : j = i + 1 + t
                  · rw [hjj] at hj4
                    exact absurd hj4 hyj
                  · omega
                exact Or.inr ⟨j, hj1, hj2', hj3, hj4⟩
          · rw [upd_other _ _ _ _ (fun h => hvj h), upd_same]
            omega
        · intro hnone
          exact absurd ⟨i + 1 + t, by omega, by omega, hsig⟩ hnone
      · have hscs : sc.newg = s.newg := by
          apply hf9
          rintro ⟨j, hj1, hj2, hj3⟩
          exact hany ⟨j, hj1, hj2, hj3⟩
        have hga : sc.newg (s.member i) = 0 := by
          rw [hscs]
          exact hfresh i (le_refl i) hi hlead
        have hra : root sc.newg (s.member i) = s.member i :=
          root_of_nonpos (le_of_eq hga)
        have hne : root sc.newg (s.member i)
            ≠ root sc.newg (s.member (i + 1 + t)) := by
          rw [hra, hrx]
          exact hmij
        have hU := Union_flat_on_closed hflat7 (hm i hi).1 (hm i hi).2
          (hm (i + 1 + t) hJ).1 (hm (i + 1 + t) hJ).2 ⟨i, hi, rfl⟩
          ⟨i + 1 + t, hJ, rfl⟩ hfuel hne
        have hcond : ¬ (sc.newg (root sc.newg (s.member (i + 1 + t)))
            > sc.newg (root sc.newg (s.member i))) := by
          rw [hra, hrx, hga, hgx]
          omega
        rw [if_neg hcond] at hU
        rw [hra, hrx, hga, hgx] at hU
        have harith : (0 : Int) + (0 - 1) = -1 := by norm_num
        rw [harith] at hU
        rw [hU]
        have hroot := merge_sgl_root (g := sc.newg) (hm (i + 1 + t) hJ).1
          hga hgx hmij
        have hflat' := merge_sgl_flat_on hflat7 (hm (i + 1 + t) hJ).1
          (hm (i + 1 + t) hJ).2 ⟨i + 1 + t, hJ, rfl⟩ hga hgx hmij
        unfold PLInv
        dsimp only
        refine ⟨rfl, rfl, ha3, ?_, ?_, ?_, hflat', ?_, ?_⟩
        · intro j h1 h2 h3
          by_cases hjj : j = i + 1 + t
          · rw [hjj, upd_same]
          · rw [upd_other _ _ _ _
              (fun h => hjj (hminj j (i + 1 + t) (by omega) hJ h))]
            exact hb4 j h1 (by omega) h3
        · intro y hy
          have hyj : y ≠ s.member (i + 1 + t) :=
            fun h => hy ⟨i + 1 + t, by omega, by omega, hsig, h⟩
          rw [upd_other _ _ _ _ hyj]
          apply hb5
          rintro ⟨j, hj1, hj2, hj3, hj4⟩
          exact hy ⟨j, hj1, by omega, hj3, hj4⟩
        · intro y hy
          have hyj : y ≠ s.member (i + 1 + t) :=
            fun h => hy (Or.inr ⟨i + 1 + t, by omega, by omega, hsig, h⟩)
          have hyi : y ≠ s.member i := fun h => hy (Or.inl h)
          rw [upd_other _ _ _ _ hyi, upd_other _ _ _ _ hyj, hscs]
        · intro _
          refine ⟨i + 1 + t, by omega, by omega, hsig, ?_, ?_, ?_⟩
          · intro u h1 h2 hc
            exact hany ⟨u, h1, h2, hc⟩
          · intro y hy
            have hy' : y = s.member i ∨ y = s.member (i + 1 + t) := by
              rcases hy with h | ⟨j, hj1, hj2, hj3, hj4⟩
              · exact Or.inl h
              · by_cases hjj : j = i + 1 + t
                · rw [hjj] at hj4
                  exact Or.inr hj4
                · exact absurd ⟨j, hj1, by omega, hj3⟩ hany
            rw [hroot y, if_pos hy']
          · rw [upd_other _ _ _ _ (fun h => hmij h.symm), upd_same]
            omega
        · intro hnone
          exact absurd ⟨i + 1 + t, by omega, by omega, hsig⟩ hnone
    · have hflag : (same_transitions (s.member i) (s.member (i + 1 + t)) d.mat
          d.nab s.oldg fuel).1 = false := by
        cases hcase : (same_transitions (s.member i) (s.member (i + 1 + t)) d.mat
            d.nab s.oldg fuel).1 with
        | false => rfl
        | true => exact absurd (hst1.mp hcase) hsig
      rw [hflag]
      rw [if_neg (by simp)]
      unfold PLInv
      dsimp only
      refine ⟨rfl, rfl, ha3, ?_, ?_, ?_, hflat7, ?_, ?_⟩
      · intro j h1 h2 h3
        by_cases hjj : j = i + 1 + t
        · rw [hjj] at h3
          exact absurd h3 hsig
        · exact hb4 j h1 (by omega) h3
      · intro y hy
        apply hb5
        rintro ⟨j, hj1, hj2, hj3, hj4⟩
        exact hy ⟨j, hj1, by omega, hj3, hj4⟩
      · intro y hy
        apply hc6
        rintro (h | ⟨j, hj1, hj2, hj3, hj4⟩)
        · exact hy (Or.inl h)
        · exact hy (Or.inr ⟨j, hj1, by omega, hj3, hj4⟩)
      · rintro ⟨j, hj1, hj2, hj3⟩
        have hj2' : j < i + 1 + t := by
          by_cases hjj : j = i + 1 + t
          · rw [hjj] at hj3
            exact absurd hj3 hsig
          · omega
        obtain ⟨v, hv1, hv2, hv3, hv4, hv5, hv6⟩ := he8 ⟨j, hj1, hj2', hj3⟩
        refine ⟨v, hv1, by omega, hv3, hv4, ?_, hv6⟩
        intro y hy
        apply hv5
        rcases hy with h | ⟨j', hj1', hj2', hj3', hj4'⟩
        · exact Or.inl h
        · have hj2'' : j' < i + 1 + t := by
            by_cases hjj : j' = i + 1 + t
            · rw [hjj] at hj3'
              exact absurd hj3' hsig
            · omega
          exact Or.inr ⟨j', hj1', hj2'', hj3', hj4'⟩
      · intro hnone
        apply hf9
        rintro ⟨j, hj1, hj2, hj3⟩
        exact hnone ⟨j, hj1, by omega, hj3⟩

theorem pair_loop_inv (d : Automaton) (s : PartState) (i size fuel : Nat)
    (hfG : Flat d.nstates s.oldg)
    (hmatr : ∀ x, x ≤ d.nstates → 1 ≤ x → ∀ a, a ≤ d.nab → 1 ≤ a →
      d.mat x a ≤ d.nstates)
    (hfuel : 2 ≤ fuel)
    (hm : ∀ u, u < size → 1 ≤ s.member u ∧ s.member u ≤ d.nstates)
    (hmono : ∀ t1 t2, t1 < t2 → t2 < size → s.member t1 < s.member t2)
    (hi : i < size)
    (hlead : ∀ l, l < i → ¬ sigEq d s.oldg (s.member l) (s.member i))
    (hun : ∀ j, i < j → j < size → (s.unified (s.member j) = true ↔
      ∃ l, l < i ∧ sigEq d s.oldg (s.member l) (s.member j)))
    (hfresh : ∀ j, i ≤ j → j < size →
      (∀ l, l < i → ¬ sigEq d s.oldg (s.member l) (s.member j)) →
      s.newg (s.member j) = 0)
    (hflat : FlatOn d.nstates (memSet s.member size) s.newg) :
    ∀ t, t ≤ size - 1 - i →
      PLInv d s i size (i + 1 + t)
        (loop0 (fun u sc =>
          let j := i + 1 + u
          if sc.unified (sc.member j) then sc
          else
            let p := same_transitions (sc.member i) (sc.member j) d.mat d.nab
              sc.oldg fuel
            if p.1 then
              { sc with newg := Union (sc.member i) (sc.member j) sc.newg fuel,
                        unified := upd sc.unified (sc.member j) true,
                        oldg := p.2 }
            else { sc with oldg := p.2 }) t s) := by
  intro t
  induction t with
  | zero =>
    intro _
    refine ⟨rfl, rfl, rfl, ?_, fun _ _ => rfl, fun _ _ => rfl, hflat, ?_,
      fun _ => rfl⟩
    · intro j h1 h2 h3
      exact absurd h1 (by omega)
    · rintro ⟨j, h1, h2, _⟩
      exact absurd h1 (by omega)
  | succ t ih =>
    intro ht
    rw [loop0_succ]
    exact pair_step d s i size fuel t hfG hmatr hfuel hm hmono hi hlead hun
      hfresh ht _ (ih (by omega))

theorem pair_loop_spec (d : Automaton) (s : PartState) (i size fuel : Nat)
    (hfG : Flat d.nstates s.oldg)
    (hmatr : ∀ x, x ≤ d.nstates → 1 ≤ x → ∀ a, a ≤ d.nab → 1 ≤ a →
      d.mat x a ≤ d.nstates)
    (hfuel : 2 ≤ fuel)
    (hm : ∀ u, u < size → 1 ≤ s.member u ∧ s.member u ≤ d.nstates)
    (hmono : ∀ t1 t2, t1 < t2 → t2 < size → s.member t1 < s.member t2)
    (hi : i < size)
    (hlead : ∀ l, l < i → ¬ sigEq d s.oldg (s.member l) (s.member i))
    (hun : ∀ j, i < j → j < size → (s.unified (s.member j) = true ↔
      ∃ l, l < i ∧ sigEq d s.oldg (s.member l) (s.member j)))
    (hfresh : ∀ j, i ≤ j → j < size →
      (∀ l, l < i → ¬ sigEq d s.oldg (s.member l) (s.member j)) →
      s.newg (s.member j) = 0)
    (hflat : FlatOn d.nstates (memSet s.member size) s.newg) :
    PLInv d s i size size (pair_loop d size i fuel s) := by
  have h := pair_loop_inv d s i size fuel hfG hmatr hfuel hm hmono hi hlead
    hun hfresh hflat (size - 1 - i) (le_refl _)
  have heq : i + 1 + (size - 1 - i) = size := by omega
  rw [heq] at h
  exact h

/-! ## The outer unify loop of partit.c -/

theorem root_congr_cell {g1 g2 : Nat → Int} {y : Nat} (h : g1 y = g2 y) :
    root g1 y = root g2 y := by
  unfold root
  rw [h]

theorem unify_step (d : Automaton) (s : PartState) (size fuel i : Nat)
    (hfG : Flat d.nstates s.oldg)
    (hmatr : ∀ x, x ≤ d.nstates → 1 ≤ x → ∀ a, a ≤ d.nab → 1 ≤ a →
      d.mat x a ≤ d.nstates)
    (hfuel : 2 ≤ fuel)
    (hm : ∀ u, u < size → 1 ≤ s.member u ∧ s.member u ≤ d.nstates)
    (hmono : ∀ t1 t2, t1 < t2 → t2 < size → s.member t1 < s.member t2)
    (hi : i < size - 1)
    (sc : PartState) (hinv : UInv d s size i sc) :
    UInv d s size (i + 1)
      (if sc.unified (sc.member i) then sc
       else pair_loop d size i fuel
         { sc with unified := upd sc.unified (sc.member i) true }) := by
  have hi' : i < size := by omega
  have hminj : ∀ t1 t2, t1 < size → t2 < size → s.member t1 = s.member t2 →
      t1 = t2 := by
    intro t1 t2 h1 h2 he
    rcases Nat.lt_trichotomy t1 t2 with h | h | h
    · have := hmono t1 t2 h h2
      omega
    · exact h
    · have := hmono t2 t1 h h1
      omega
  obtain ⟨ha1, ha2, ha3, h4, h5, h6, h7, h8⟩ := hinv
  rw [ha2]
  by_cases hproc : ∃ l, l < i ∧ sigEq d s.oldg (s.member l) (s.member i)
  · have htrue : sc.unified (s.member i) = true := (h4 i hi').mpr hproc
    rw [htrue, if_pos rfl]
    obtain ⟨l0, hl0, hsl0⟩ := hproc
    refine ⟨ha1, ha2, ha3, ?_, h5, ?_, h7, ?_⟩
    · intro t htl
      rw [h4 t htl]
      constructor
      · rintro ⟨l, hl, hsg⟩
        exact ⟨l, by omega, hsg⟩
      · rintro ⟨l, hl, hsg⟩
        by_cases hli : l = i
        · rw [hli] at hsg
          exact ⟨l0, hl0, sigEq_trans hsl0 hsg⟩
        · exact ⟨l, by omega, hsg⟩
    · intro t htl hnone
      apply h6 t htl
      rintro ⟨l, hl, hsg⟩
      exact hnone ⟨l, by omega, hsg⟩
    · intro t htl hex hmulti
      refine h8 t htl ?_ hmulti
      obtain ⟨l, hl, hsg⟩ := hex
      by_cases hli : l = i
      · rw [hli] at hsg
        exact ⟨l0, hl0, sigEq_trans hsl0 hsg⟩
      · exact ⟨l, by omega, hsg⟩
  · have hfalse : sc.unified (s.member i) = false := by
      cases hcase : sc.unified (s.member i) with
      | false => rfl
      | true => exact absurd ((h4 i hi').mp hcase) hproc
    rw [hfalse, if_neg (by simp), ha1, ha3]
    have hleadP : ∀ l, l < i → ¬ sigEq d s.oldg (s.member l) (s.member i) :=
      fun l hl hsg => hproc ⟨l, hl, hsg⟩
    have hps : PLInv d
        { member := s.member, newg := sc.newg,
          unified := upd sc.unified (s.member i) true,
          oldg := s.oldg, updated := s.updated }
        i size size (pair_loop d size i fuel
          { member := s.member, newg := sc.newg,
            unified := upd sc.unified (s.member i) true,
            oldg := s.oldg, updated := s.updated }) := by
      apply pair_loop_spec
      · exact hfG
      · exact hmatr
      · exact hfuel
      · exact hm
      · exact hmono
      · exact hi'
      · exact hleadP
      · show ∀ j, i < j → j < size →
          ((upd sc.unified (s.member i) true) (s.member j) = true ↔
            ∃ l, l < i ∧ sigEq d s.oldg (s.member l) (s.member j))
        intro j hj1 hj2
        rw [upd_other _ _ _ _
          (fun h => absurd (hminj j i hj2 hi' h) (by omega))]
        exact h4 j hj2
      · show ∀ j, i ≤ j → j < size →
          (∀ l, l < i → ¬ sigEq d s.oldg (s.member l) (s.member j)) →
          sc.newg (s.member j) = 0
        intro j hij hjs hnone
        apply h6 j hjs
        rintro ⟨l, hl, hsg⟩
        exact hnone l hl hsg
      · exact h5
    obtain ⟨hp1, hp2, hp3, hp4, hp5, hp6, hp7, hp8, hp9⟩ := hps
    dsimp only at hp1 hp2 hp3 hp4 hp5 hp6 hp7 hp8 hp9
    refine ⟨hp1, hp2, hp3, ?_, hp7, ?_, ?_, ?_⟩
    · intro t htl
      by_cases hsigit : sigEq d s.oldg (s.member i) (s.member t)
      · have hrhs : ∃ l, l < i + 1 ∧ sigEq d s.oldg (s.member l) (s.member t) :=
          ⟨i, by omega, hsigit⟩
        by_cases hti : t = i
        · have hfr := hp5 (s.member t) (by
            rintro ⟨j, hj1, hj2, hj3, hj4⟩
            have := hminj t j htl (by omega) hj4
            omega)
          rw [hfr, hti, upd_same]
          exact ⟨fun _ => ⟨i, by omega, sigEq_refl d s.oldg (s.member i)⟩,
            fun _ => rfl⟩
        · have hti' : i < t := by
            rcases Nat.lt_or_ge i t with h | h
            · exact h
            · exact absurd (sigEq_symm hsigit) (hleadP t (by omega))
          rw [hp4 t hti' htl hsigit]
          exact ⟨fun _ => hrhs, fun _ => rfl⟩
      · have hti : t ≠ i := fun h => hsigit (by
          rw [h]
          exact sigEq_refl d s.oldg (s.member i))
        have hfr := hp5 (s.member t) (by
          rintro ⟨j, hj1, hj2, hj3, hj4⟩
          have hje := hminj t j htl (by omega) hj4
          rw [hje] at hsigit
          exact hsigit hj3)
        rw [hfr, upd_other _ _ _ _ (fun h => hti (hminj t i htl hi' h)),
          h4 t htl]
        constructor
        · rintro ⟨l, hl, hsg⟩
          exact ⟨l, by omega, hsg⟩
        · rintro ⟨l, hl, hsg⟩
          by_cases hli : l = i
          · rw [hli] at hsg
            exact absurd hsg hsigit
          · exact ⟨l, by omega, hsg⟩
    · intro t htl hnone
      have hnsig : ¬ sigEq d s.oldg (s.member i) (s.member t) :=
        fun h => hnone ⟨i, by omega, h⟩
      have hti : t ≠ i := fun h => hnsig (by
        rw [h]
        exact sigEq_refl d s.oldg (s.member i))
      have hfr := hp6 (s.member t) (by
        rintro (h | ⟨j, hj1, hj2, hj3, hj4⟩)
        · exact hti (hminj t i htl hi' h)
        · have hje := hminj t j htl (by omega) hj4
          apply hnsig
          rw [hje]
          exact hj3)
      rw [hfr]
      apply h6 t htl
      rintro ⟨l, hl, hsg⟩
      exact hnone ⟨l, by omega, hsg⟩
    · intro t htl hsingle
      by_cases hti : t = i
      · have hnop : ¬ ∃ j, i < j ∧ j < size ∧
            sigEq d s.oldg (s.member i) (s.member j) := by
          rintro ⟨j, hj1, hj2, hj3⟩
          have hjt : j = t := hsingle j hj2 (by
            rw [hti]
            exact sigEq_symm hj3)
          omega
        have hres := hp9 hnop
        rw [hres]
        exact h7 t htl hsingle
      · have hnsig : ¬ sigEq d s.oldg (s.member i) (s.member t) := by
          intro h
          exact hti (hsingle i hi' h).symm
        have hfr := hp6 (s.member t) (by
          rintro (h | ⟨j, hj1, hj2, hj3, hj4⟩)
          · exact hti (hminj t i htl hi' h)
          · have hje := hminj t j htl (by omega) hj4
            apply hnsig
            rw [hje]
            exact hj3)
        rw [hfr]
        exact h7 t htl hsingle
    · intro t htl hex hmulti
      by_cases hsigit : sigEq d s.oldg (s.member i) (s.member t)
      · obtain ⟨u, hu1, hu2, hu3⟩ := hmulti
        have hpart : ∃ j, i < j ∧ j < size ∧
            sigEq d s.oldg (s.member i) (s.member j) := by
          by_cases hti : t = i
          · have hsiu : sigEq d s.oldg (s.member i) (s.member u) := by
              rw [← hti]
              exact sigEq_symm hu3
            have hui : i < u := by
              rcases Nat.lt_or_ge i u with h | h
              · exact h
              · have hult : u < i := by omega
                exact absurd (sigEq_symm hsiu) (hleadP u hult)
            exact ⟨u, hui, hu1, hsiu⟩
          · have hti' : i < t := by
              rcases Nat.lt_or_ge i t with h | h
              · exact h
              · exact absurd (sigEq_symm hsigit) (hleadP t (by omega))
            exact ⟨t, hti', htl, hsigit⟩
        obtain ⟨v, hv1, hv2, hv3, hv4, hv5, hv6⟩ := hp8 hpart
        refine ⟨v, hv2, sigEq_trans (sigEq_symm hv3) hsigit, ?_, hv6,
          i, hv1, hsigit, ?_⟩
        · apply hv5
          by_cases hti : t = i
          · left
            rw [hti]
          · have hti' : i < t := by
              rcases Nat.lt_or_ge i t with h | h
              · exact h
              · exact absurd (sigEq_symm hsigit) (hleadP t (by omega))
            exact Or.inr ⟨t, hti', htl, hsigit, rfl⟩
        · intro w hwv hsgw
          have hwi : sigEq d s.oldg (s.member w) (s.member i) :=
            sigEq_trans hsgw (sigEq_symm hsigit)
          rcases Nat.lt_trichotomy w i with h | h | h
          · exact absurd hwi (hleadP w h)
          · exact h
          · exact absurd (sigEq_symm hwi) (hv4 w h hwv)
      · have hProcOld : ∃ l, l < i ∧
            sigEq d s.oldg (s.member l) (s.member t) := by
          obtain ⟨l, hl, hsg⟩ := hex
          by_cases hli : l = i
          · rw [hli] at hsg
            exact absurd hsg hsigit
          · exact ⟨l, by omega, hsg⟩
        obtain ⟨v, hv1, hv2, hv3, hv4, hv5⟩ := h8 t htl hProcOld hmulti
        have hti : t ≠ i := fun h => hsigit (by
          rw [h]
          exact sigEq_refl d s.oldg (s.member i))
        have hfrt := hp6 (s.member t) (by
          rintro (h | ⟨j, hj1, hj2, hj3, hj4⟩)
          · exact hti (hminj t i htl hi' h)
          · have hje := hminj t j htl (by omega) hj4
            apply hsigit
            rw [hje]
            exact hj3)
        have hfrv := hp6 (s.member v) (by
          rintro (h | ⟨j, hj1, hj2, hj3, hj4⟩)
          · have hvi := hminj v i hv1 hi' h
            rw [hvi] at hv2
            exact hsigit hv2
          · have hje := hminj v j hv1 (by omega) hj4
            rw [hje] at hv2
            exact hsigit (sigEq_trans hj3 hv2))
        refine ⟨v, hv1, hv2, ?_, ?_, hv5⟩
        · rw [root_congr_cell hfrt]
          exact hv3
        · rw [hfrv]
          exact hv4

theorem unify_loop_inv (d : Automaton) (s : PartState) (size fuel : Nat)
    (hfG : Flat d.nstates s.oldg)
    (hmatr : ∀ x, x ≤ d.nstates → 1 ≤ x → ∀ a, a ≤ d.nab → 1 ≤ a →
      d.mat x a ≤ d.nstates)
    (hfuel : 2 ≤ fuel)
    (hm : ∀ u, u < size → 1 ≤ s.member u ∧ s.member u ≤ d.nstates)
    (hmono : ∀ t1 t2, t1 < t2 → t2 < size → s.member t1 < s.member t2)
    (hun0 : ∀ t, t < size → s.unified (s.member t) = false)
    (hfresh0 : ∀ t, t < size → s.newg (s.member t) = 0) :
    ∀ c, c ≤ size - 1 → UInv d s size c
      (loop0 (fun i sc =>
        if sc.unified (sc.member i) then sc
        else
          pair_loop d size i fuel
            { sc with unified := upd sc.unified (sc.member i) true }) c s) := by
  have hflat0 : FlatOn d.nstates (memSet s.member size) s.newg := by
    intro e he1 he2 hMe
    obtain ⟨t, htl, hte⟩ := hMe
    left
    rw [← hte, hfresh0 t htl]
  intro c
  induction c with
  | zero =>
    intro _
    show UInv d s size 0 s
    refine ⟨rfl, rfl, rfl, ?_, hflat0, ?_, ?_, ?_⟩
    · intro t htl
      rw [hun0 t htl]
      constructor
      · intro h
        exact absurd h (by simp)
      · rintro ⟨l, hl, _⟩
        exact absurd hl (by omega)
    · intro t htl _
      exact hfresh0 t htl
    · intro t htl _
      exact hfresh0 t htl
    · intro t htl hex _
      obtain ⟨l, hl, _⟩ := hex
      exact absurd hl (by omega)
  | succ c ih =>
    intro hc
    rw [loop0_succ]
    exact unify_step d s size fuel c hfG hmatr hfuel hm hmono (by omega) _
      (ih (by omega))

theorem unify_loop_spec (d : Automaton) (s : PartState) (size fuel : Nat)
    (hfG : Flat d.nstates s.oldg)
    (hmatr : ∀ x, x ≤ d.nstates → 1 ≤ x → ∀ a, a ≤ d.nab → 1 ≤ a →
      d.mat x a ≤ d.nstates)
    (hfuel : 2 ≤ fuel)
    (hm : ∀ u, u < size → 1 ≤ s.member u ∧ s.member u ≤ d.nstates)
    (hmono : ∀ t1 t2, t1 < t2 → t2 < size → s.member t1 < s.member t2)
    (hun0 : ∀ t, t < size → s.unified (s.member t) = false)
    (hfresh0 : ∀ t, t < size → s.newg (s.member t) = 0) :
    UInv d s size (size - 1) (unify_loop d size fuel s) :=
  unify_loop_inv d s size fuel hfG hmatr hfuel hm hmono hun0 hfresh0
    (size - 1) (le_refl _)

/-- From the final unify-loop invariant: two members of the class are in
the same scratch class exactly when they have equivalent transitions. -/
theorem class_root_iff (d : Automaton) (G : Nat → Int) (m : Nat → Nat)
    (size : Nat) (g : Nat → Int)
    (hminj : ∀ t1 t2, t1 < size → t2 < size → m t1 = m t2 → t1 = t2)
    (hsingle : ∀ t, t < size →
      (∀ u, u < size → sigEq d G (m u) (m t) → u = t) → g (m t) = 0)
    (hmulti : ∀ t, t < size → (∃ u, u < size ∧ u ≠ t ∧ sigEq d G (m u) (m t)) →
      ∃ v, v < size ∧ sigEq d G (m v) (m t) ∧ root g (m t) = m v ∧
        g (m v) < 0 ∧
        ∃ l, l < v ∧ sigEq d G (m l) (m t) ∧
          (∀ u, u < v → sigEq d G (m u) (m t) → u = l)) :
    ∀ t u, t < size → u < size →
      (root g (m t) = root g (m u) ↔ sigEq d G (m t) (m u)) := by
  intro t u htl hul
  by_cases htu : t = u
  · rw [htu]
    exact ⟨fun _ => sigEq_refl d G (m u), fun _ => rfl⟩
  by_cases hmt : ∃ w, w < size ∧ w ≠ t ∧ sigEq d G (m w) (m t)
  · by_cases hmu : ∃ w, w < size ∧ w ≠ u ∧ sigEq d G (m w) (m u)
    · obtain ⟨vt, hvt1, hvt2, hvt3, hvt4, lt', hlt1, hlt2, hlt3⟩ :=
        hmulti t htl hmt
      obtain ⟨vu, hvu1, hvu2, hvu3, hvu4, lu', hlu1, hlu2, hlu3⟩ :=
        hmulti u hul hmu
      constructor
      · intro hr
        rw [hvt3, hvu3] at hr
        have hv : vt = vu := hminj vt vu hvt1 hvu1 hr
        rw [hv] at hvt2
        exact sigEq_trans (sigEq_symm hvt2) hvu2
      · intro hsg
        have hveq : vt = vu := by
          rcases Nat.lt_trichotomy vt vu with h | h | h
          · exfalso
            have h1 : sigEq d G (m lt') (m u) := sigEq_trans hlt2 hsg
            have h2 : lt' = lu' := hlu3 lt' (by omega) h1
            have h3 : sigEq d G (m vt) (m u) := sigEq_trans hvt2 hsg
            have h4 : vt = lu' := hlu3 vt h h3
            omega
          · exact h
          · exfalso
            have h1 : sigEq d G (m lu') (m t) :=
              sigEq_trans hlu2 (sigEq_symm hsg)
            have h2 : lu' = lt' := hlt3 lu' (by omega) h1
            have h3 : sigEq d G (m vu) (m t) :=
              sigEq_trans hvu2 (sigEq_symm hsg)
            have h4 : vu = lt' := hlt3 vu h h3
            omega
        rw [hvt3, hvu3, hveq]
    · have hsu : ∀ w, w < size → sigEq d G (m w) (m u) → w = u := by
        intro w hw hsg
        by_contra hne
        exact hmu ⟨w, hw, hne, hsg⟩
      obtain ⟨vt, hvt1, hvt2, hvt3, hvt4, hvt5⟩ := hmulti t htl hmt
      have hru : root g (m u) = m u :=
        root_of_nonpos (le_of_eq (hsingle u hul hsu))
      constructor
      · intro hr
        rw [hvt3, hru] at hr
        have hvu : vt = u := hminj vt u hvt1 hul hr
        rw [hvu] at hvt2
        exact absurd (hsu t htl (sigEq_symm hvt2)) htu
      · intro hsg
        exact absurd (hsu t htl hsg) htu
  · have hst : ∀ w, w < size → sigEq d G (m w) (m t) → w = t := by
      intro w hw hsg
      by_contra hne
      exact hmt ⟨w, hw, hne, hsg⟩
    have hrt : root g (m t) = m t :=
      root_of_nonpos (le_of_eq (hsingle t htl hst))
    by_cases hmu : ∃ w, w < size ∧ w ≠ u ∧ sigEq d G (m w) (m u)
    · obtain ⟨vu, hvu1, hvu2, hvu3, hvu4, hvu5⟩ := hmulti u hul hmu
      constructor
      · intro hr
        rw [hrt, hvu3] at hr
        have htv : t = vu := hminj t vu htl hvu1 hr
        rw [← htv] at hvu2
        exact absurd (hst u hul (sigEq_symm hvu2)) (fun h => htu h.symm)
      · intro hsg
        exact absurd (hst u hul (sigEq_symm hsg)) (fun h => htu h.symm)
    · have hru : root g (m u) = m u := by
        apply root_of_nonpos
        apply le_of_eq
        apply hsingle u hul
        intro w hw hsg
        by_contra hne
        exact hmu ⟨w, hw, hne, hsg⟩
      constructor
      · intro hr
        rw [hrt, hru] at hr
        exact absurd (hminj t u htl hul hr) htu
      · intro hsg
        exact absurd (hst u hul (sigEq_symm hsg)) (fun h => htu h.symm)

/-! ## One class iteration of partit.c -/

theorem Flat.flatOnTrue {n : Nat} {g : Nat → Int} (hf : Flat n g) :
    FlatOn n (fun _ => True) g := by
  intro e he1 he2 _
  rcases hf e he1 he2 with h | ⟨h1, h2, h3⟩
  · exact Or.inl h
  · exact Or.inr ⟨h1, h2, trivial, h3⟩

theorem partition_step_spec (d : Automaton) (st : PartState) (fuel rep0 : Nat)
    (hmatr : ∀ x, x ≤ d.nstates → 1 ≤ x → ∀ a, a ≤ d.nab → 1 ≤ a →
      d.mat x a ≤ d.nstates)
    (hfuel : 2 ≤ fuel)
    (hflat : Flat d.nstates st.oldg)
    (hrs : RootSecond d.nstates st.oldg)
    (hrep1 : 1 ≤ rep0) (hrepn : rep0 ≤ d.nstates) :
    PStepOK d rep0 st (partition_step d fuel rep0 st) := by
  by_cases hguard : st.oldg rep0 ≥ 0
  · have hstep : partition_step d fuel rep0 st = st := by
      unfold partition_step
      rw [if_pos hguard]
    rw [hstep]
    refine ⟨hflat, hrs, fun h => h, fun _ => rfl, le_refl _, ?_, ?_, ?_⟩
    · intro h1 h2
      rw [h1] at h2
      exact absurd h2 (by simp)
    · intro _ h2
      exact absurd h2 (by omega)
    · intro x hx1 hxn
      exact hflat.root_idem hx1 hxn
  · have hneg : st.oldg rep0 < 0 := by omega
    obtain ⟨hs1, hs2, hs3, hs4, hs5, hs6, hs7, hs8, hs9, hs10⟩ :=
      member_scan_spec rep0 hflat hfuel d.nstates (le_refl _)
    set ms := member_scan rep0 d.nstates fuel st with hmsdef
    have hfG2 : Flat d.nstates ms.2.oldg := by
      rw [hs1]
      exact hflat
    have hm2 : ∀ u, u < ms.1 → 1 ≤ ms.2.member u ∧ ms.2.member u ≤ d.nstates :=
      fun u hu => ⟨(hs4 u hu).1, (hs4 u hu).2.1⟩
    have hun0 : ∀ t, t < ms.1 → ms.2.unified (ms.2.member t) = false := by
      intro t ht
      rw [hs9 (ms.2.member t), if_pos ⟨t, ht, rfl⟩]
    have hfresh0 : ∀ t, t < ms.1 → ms.2.newg (ms.2.member t) = 0 := by
      intro t ht
      rw [hs8 (ms.2.member t), if_pos ⟨t, ht, rfl⟩]
    obtain ⟨hu1, hu2, hu3, hu4, hu5, hu6, hu7, hu8⟩ :=
      unify_loop_spec d ms.2 ms.1 fuel hfG2 hmatr hfuel hm2 hs5 hun0 hfresh0
    set s2 := unify_loop d ms.1 fuel ms.2 with hs2def
    rw [hs1] at hu1
    simp only [hs1] at hu4 hu6 hu7 hu8
    have hminj : ∀ t1 t2, t1 < ms.1 → t2 < ms.1 →
        ms.2.member t1 = ms.2.member t2 → t1 = t2 := by
      intro t1 t2 h1 h2 he
      rcases Nat.lt_trichotomy t1 t2 with h | h | h
      · have := hs5 t1 t2 h h2
        omega
      · exact h
      · have := hs5 t2 t1 h h1
        omega
    have hrootrep : root st.oldg rep0 = rep0 := root_of_nonpos (le_of_lt hneg)
    obtain ⟨t0, ht0, ht0e⟩ := hs6 rep0 hrep1 hrepn hrootrep
    obtain ⟨a, ha⟩ := Finset.card_eq_one.mp (hrs rep0 hrepn hrep1 hneg)
    have hmema : ∀ e, (e ∈ Finset.Icc 1 d.nstates ∧
        (root st.oldg e = rep0 ∧ e < rep0)) ↔ e = a := by
      intro e
      constructor
      · intro h
        have hx : e ∈ ({a} : Finset Nat) := by
          rw [← ha]
          exact Finset.mem_filter.mpr h
        exact Finset.mem_singleton.mp hx
      · intro h
        rw [h]
        have hx : a ∈ (Finset.Icc 1 d.nstates).filter
            (fun e => root st.oldg e = rep0 ∧ e < rep0) := by
          rw [ha]
          exact Finset.mem_singleton_self a
        exact Finset.mem_filter.mp hx
    have ht0_1 : t0 = 1 := by
      have ht0pos : 0 < t0 := by
        by_contra h0
        have ht00 : t0 = 0 := by omega
        obtain ⟨hai, har, hal⟩ := (hmema a).mpr rfl
        obtain ⟨hai1, hai2⟩ := Finset.mem_Icc.mp hai
        obtain ⟨ta, hta, htae⟩ := hs6 a hai1 hai2 har
        have hlt : ms.2.member ta < ms.2.member t0 := by
          rw [htae, ht0e]
          exact hal
        have hta0 : ta < t0 := by
          rcases Nat.lt_trichotomy ta t0 with h | h | h
          · exact h
          · rw [h] at hlt
            omega
          · have := hs5 t0 ta h hta
            omega
        omega
      have h0in : ms.2.member 0 = a := by
        apply (hmema (ms.2.member 0)).mp
        have hb := hs4 0 (by omega)
        refine ⟨Finset.mem_Icc.mpr ⟨hb.1, hb.2.1⟩, hb.2.2, ?_⟩
        rw [← ht0e]
        exact hs5 0 t0 ht0pos ht0
      by_contra hne
      have ht02 : 2 ≤ t0 := by omega
      have h1in : ms.2.member 1 = a := by
        apply (hmema (ms.2.member 1)).mp
        have hb := hs4 1 (by omega)
        refine ⟨Finset.mem_Icc.mpr ⟨hb.1, hb.2.1⟩, hb.2.2, ?_⟩
        rw [← ht0e]
        exact hs5 1 t0 (by omega) ht0
      have h01 : (0 : Nat) = 1 :=
        hminj 0 1 (by omega) (by omega) (by rw [h0in, h1in])
      omega
    have hsize2 : 2 ≤ ms.1 := by omega
    have hm1rep : ms.2.member 1 = rep0 := by
      rw [← ht0_1]
      exact ht0e
    have hU4 : ∀ t, t < ms.1 →
        (∃ u, u < ms.1 ∧ u ≠ t ∧
          sigEq d st.oldg (ms.2.member u) (ms.2.member t)) →
        ∃ v, v < ms.1 ∧ sigEq d st.oldg (ms.2.member v) (ms.2.member t) ∧
          root s2.newg (ms.2.member t) = ms.2.member v ∧
          s2.newg (ms.2.member v) < 0 ∧
          ∃ l, l < v ∧ sigEq d st.oldg (ms.2.member l) (ms.2.member t) ∧
            (∀ u, u < v → sigEq d st.oldg (ms.2.member u) (ms.2.member t) →
              u = l) := by
      intro t ht hmulti
      refine hu8 t ht ?_ hmulti
      obtain ⟨u, hu, hune, husig⟩ := hmulti
      rcases Nat.lt_trichotomy u t with h | h | h
      · exact ⟨u, by omega, husig⟩
      · exact absurd h hune
      · exact ⟨t, by omega, sigEq_refl d st.oldg (ms.2.member t)⟩
    have hiff := class_root_iff d st.oldg ms.2.member ms.1 s2.newg hminj hu7 hU4
    have hrootM : ∀ t, t < ms.1 → ∃ tv, tv < ms.1 ∧
        root s2.newg (ms.2.member t) = ms.2.member tv := by
      intro t ht
      by_cases hmulti : ∃ u, u < ms.1 ∧ u ≠ t ∧
          sigEq d st.oldg (ms.2.member u) (ms.2.member t)
      · obtain ⟨v, hv1, _, hv3, _⟩ := hU4 t ht hmulti
        exact ⟨v, hv1, hv3⟩
      · have hsg : ∀ u, u < ms.1 →
            sigEq d st.oldg (ms.2.member u) (ms.2.member t) → u = t := by
          intro u hu hsgu
          by_contra hne
          exact hmulti ⟨u, hu, hne, hsgu⟩
        exact ⟨t, ht, root_of_nonpos (le_of_eq (hu7 t ht hsg))⟩
    have hrootcell : ∀ t, t < ms.1 →
        s2.newg (root s2.newg (ms.2.member t)) ≤ 0 := by
      intro t ht
      by_cases hmulti : ∃ u, u < ms.1 ∧ u ≠ t ∧
          sigEq d st.oldg (ms.2.member u) (ms.2.member t)
      · obtain ⟨v, hv1, _, hv3, hv4, _⟩ := hU4 t ht hmulti
        rw [hv3]
        omega
      · have hsg : ∀ u, u < ms.1 →
            sigEq d st.oldg (ms.2.member u) (ms.2.member t) → u = t := by
          intro u hu hsgu
          by_contra hne
          exact hmulti ⟨u, hu, hne, hsgu⟩
        have hz := hu7 t ht hsg
        rw [root_of_nonpos (le_of_eq hz), hz]
    have hupmem : ∀ t, t < ms.1 → 1 ≤ s2.member t ∧ s2.member t ≤ d.nstates ∧
        (fun _ => True) (s2.member t) ∧ memSet ms.2.member ms.1 (s2.member t) := by
      intro t ht
      rw [hu2]
      exact ⟨(hs4 t ht).1, (hs4 t ht).2.1, trivial, ⟨t, ht, rfl⟩⟩
    have hfo : FlatOn d.nstates (fun _ => True) s2.oldg := by
      rw [hu1]
      exact hflat.flatOnTrue
    obtain ⟨hup1, hup2, hup3⟩ :=
      update_partitions_spec hfo hu5 s2.member hfuel ms.1 hupmem
    simp only [hu1, hu2] at hup2 hup3
    have hrootold : ∀ t, t < ms.1 → root st.oldg (ms.2.member t) = rep0 :=
      fun t ht => (hs4 t ht).2.2
    have hSplitIff :
        ((update_partitions ms.1 ms.2.member st.oldg s2.newg fuel).1 = true)
        ↔ ∃ t u, t < ms.1 ∧ u < ms.1 ∧
          ¬ sigEq d st.oldg (ms.2.member t) (ms.2.member u) := by
      rw [hup2]
      constructor
      · rintro ⟨t, ht, hmis⟩
        rw [hrootold t ht] at hmis
        by_contra hns
        have hall : ∀ a' b', a' < ms.1 → b' < ms.1 →
            sigEq d st.oldg (ms.2.member a') (ms.2.member b') := by
          intro a' b' ha' hb'
          by_contra hc
          exact hns ⟨a', b', ha', hb', hc⟩
        have hmulti : ∃ u, u < ms.1 ∧ u ≠ t ∧
            sigEq d st.oldg (ms.2.member u) (ms.2.member t) := by
          by_cases h0 : t = 0
          · exact ⟨1, by omega, by omega, hall 1 t (by omega) ht⟩
          · exact ⟨0, by omega, fun hc => h0 hc.symm, hall 0 t (by omega) ht⟩
        obtain ⟨v, hv1, hv2, hv3, hv4, l, hl1, hl2, hl3⟩ := hU4 t ht hmulti
        have hv_1 : v = 1 := by
          by_contra hvne
          rcases Nat.lt_or_ge v 2 with hv | hv
          · omega
          · have h0 := hl3 0 (by omega) (hall 0 t (by omega) ht)
            have h1 := hl3 1 (by omega) (hall 1 t (by omega) ht)
            omega
        rw [hv_1, hm1rep] at hv3
        exact hmis hv3.symm
      · rintro ⟨t, u, ht, hu, hns⟩
        have hrne : root s2.newg (ms.2.member t)
            ≠ root s2.newg (ms.2.member u) := by
          intro h
          exact hns ((hiff t u ht hu).mp h)
        by_cases hrt : root s2.newg (ms.2.member t) = rep0
        · refine ⟨u, hu, ?_⟩
          rw [hrootold u hu]
          intro h
          apply hrne
          rw [hrt, ← h]
        · refine ⟨t, ht, ?_⟩
          rw [hrootold t ht]
          intro h
          exact hrt h.symm
    have hstep : partition_step d fuel rep0 st
        = { s2 with
            oldg := (update_partitions ms.1 s2.member s2.oldg s2.newg fuel).2.1,
            newg := (update_partitions ms.1 s2.member s2.oldg s2.newg fuel).2.2,
            updated := s2.updated ||
              (update_partitions ms.1 s2.member s2.oldg s2.newg fuel).1 } := by
      unfold partition_step
      rw [if_neg hguard]
    rw [hstep, hu1, hu2]
    have hupdeq : s2.updated = st.updated := by
      rw [hu3, hs2]
    unfold PStepOK
    dsimp only
    by_cases hsplit :
        (update_partitions ms.1 ms.2.member st.oldg s2.newg fuel).1 = true
    · have hmisex : ∃ t, t < ms.1 ∧
          root st.oldg (ms.2.member t) ≠ root s2.newg (ms.2.member t) :=
        hup2.mp hsplit
      have hcell : ∀ x,
          (update_partitions ms.1 ms.2.member st.oldg s2.newg fuel).2.1 x
          = if ∃ t, t < ms.1 ∧ ms.2.member t = x then s2.newg x
            else st.oldg x := by
        intro x
        rw [hup3 x]
        by_cases hMx : ∃ t, t < ms.1 ∧ ms.2.member t = x
        · rw [if_pos hMx, if_pos ⟨hMx, hmisex⟩]
        · rw [if_neg hMx, if_neg (by rintro ⟨h1, _⟩; exact hMx h1)]
      have hFlat' : Flat d.nstates
          (update_partitions ms.1 ms.2.member st.oldg s2.newg fuel).2.1 := by
        intro e hen he1
        by_cases hMe : ∃ t, t < ms.1 ∧ ms.2.member t = e
        · rw [hcell e, if_pos hMe]
          rcases hu5 e hen he1 hMe with h | ⟨hp1', hp2', hp3', hp4'⟩
          · exact Or.inl h
          · right
            refine ⟨hp1', hp2', ?_⟩
            have hp3'' : ∃ t, t < ms.1 ∧ ms.2.member t = (s2.newg e).toNat :=
              hp3'
            rw [hcell _, if_pos hp3'']
            exact hp4'
        · rw [hcell e, if_neg hMe]
          rcases hflat e hen he1 with h | ⟨hq1, hq2, hq3⟩
          · exact Or.inl h
          · right
            refine ⟨hq1, hq2, ?_⟩
            rw [hcell _, if_neg ?_]
            · exact hq3
            · rintro ⟨tt, htt, htte⟩
              have hre : root st.oldg e = (st.oldg e).toNat :=
                root_of_pos (by omega)
              have hidem := hflat.root_idem he1 hen
              have h1 : root st.oldg ((st.oldg e).toNat) = rep0 := by
                rw [← htte]
                exact hrootold tt htt
              rw [hre, h1] at hidem
              exact hMe (hs6 e he1 hen (hre.trans hidem.symm))
      have hRS' : RootSecond d.nstates
          (update_partitions ms.1 ms.2.member st.oldg s2.newg fuel).2.1 := by
        intro r hrn hr1 hgr
        by_cases hMr : ∃ t, t < ms.1 ∧ ms.2.member t = r
        · obtain ⟨tr, htr, htre⟩ := hMr
          rw [hcell r, if_pos ⟨tr, htr, htre⟩, ← htre] at hgr
          have hmulti_tr : ∃ u, u < ms.1 ∧ u ≠ tr ∧
              sigEq d st.oldg (ms.2.member u) (ms.2.member tr) := by
            by_contra hns
            have hsg : ∀ u, u < ms.1 →
                sigEq d st.oldg (ms.2.member u) (ms.2.member tr) → u = tr := by
              intro u hu hsgu
              by_contra hne
              exact hns ⟨u, hu, hne, hsgu⟩
            rw [hu7 tr htr hsg] at hgr
            omega
          obtain ⟨v, hv1, hv2, hv3, hv4, l, hl1, hl2, hl3⟩ :=
            hU4 tr htr hmulti_tr
          have hself : root s2.newg (ms.2.member tr) = ms.2.member tr :=
            root_of_nonpos (le_of_lt hgr)
          have hvtr : v = tr := by
            rw [hv3] at hself
            exact hminj v tr hv1 htr hself
          rw [hvtr] at hl1 hl3
          rw [Finset.card_eq_one]
          refine ⟨ms.2.member l, ?_⟩
          ext e
          simp only [Finset.mem_filter, Finset.mem_Icc, Finset.mem_singleton]
          constructor
          · rintro ⟨⟨he1, he2⟩, hroot, helt⟩
            have hMe : ∃ t, t < ms.1 ∧ ms.2.member t = e := by
              by_contra hMe
              have hcelle :
                  (update_partitions ms.1 ms.2.member st.oldg s2.newg fuel).2.1 e
                  = st.oldg e := by
                rw [hcell e, if_neg hMe]
              have hroot' : root st.oldg e = r := by
                rw [← root_congr_cell hcelle]
                exact hroot
              have hrrep : root st.oldg r = rep0 := by
                rw [← htre]
                exact hrootold tr htr
              have hidem := hflat.root_idem he1 he2
              rw [hroot', hrrep] at hidem
              exact hMe (hs6 e he1 he2 (hroot'.trans hidem.symm))
            obtain ⟨te, hte, htee⟩ := hMe
            have hcelle :
                (update_partitions ms.1 ms.2.member st.oldg s2.newg fuel).2.1 e
                = s2.newg e := by
              rw [hcell e, if_pos ⟨te, hte, htee⟩]
            have hroote : root s2.newg e = r := by
              rw [← root_congr_cell hcelle]
              exact hroot
            rw [← htee] at hroote helt
            have hrtr : root s2.newg (ms.2.member tr) = ms.2.member tr :=
              root_of_nonpos (le_of_lt hgr)
            have hsg : sigEq d st.oldg (ms.2.member te) (ms.2.member tr) := by
              apply (hiff te tr hte htr).mp
              rw [hroote, hrtr, htre]
            have htelt : te < tr := by
              rw [← htre] at helt
              rcases Nat.lt_trichotomy te tr with h | h | h
              · exact h
              · rw [h] at helt
                omega
              · have := hs5 tr te h hte
                omega
            have hteL : te = l := hl3 te htelt hsg
            rw [← htee, hteL]
          · intro he
            rw [he]
            have hll : l < ms.1 := by omega
            have hb := hs4 l hll
            refine ⟨⟨hb.1, hb.2.1⟩, ?_, ?_⟩
            · have hcelle :
                  (update_partitions ms.1 ms.2.member st.oldg s2.newg fuel).2.1
                    (ms.2.member l) = s2.newg (ms.2.member l) := by
                rw [hcell _, if_pos ⟨l, hll, rfl⟩]
              rw [root_congr_cell hcelle]
              have hrtr : root s2.newg (ms.2.member tr) = ms.2.member tr :=
                root_of_nonpos (le_of_lt hgr)
              have hrl := (hiff l tr hll htr).mpr hl2
              rw [hrtr] at hrl
              rw [hrl, htre]
            · rw [← htre]
              exact hs5 l tr hl1 htr
        · rw [hcell r, if_neg hMr] at hgr
          have hold := hrs r hrn hr1 hgr
          have hfeq : (Finset.Icc 1 d.nstates).filter
              (fun e => root (update_partitions ms.1 ms.2.member st.oldg s2.newg fuel).2.1 e = r ∧ e < r)
              = (Finset.Icc 1 d.nstates).filter
                (fun e => root st.oldg e = r ∧ e < r) := by
            apply Finset.filter_congr
            intro e hei
            dsimp only
            obtain ⟨he1, he2⟩ := Finset.mem_Icc.mp hei
            by_cases hMe : ∃ t, t < ms.1 ∧ ms.2.member t = e
            · obtain ⟨te, hte, htee⟩ := hMe
              have hrnotrep : r ≠ rep0 := by
                intro h
                rw [h] at hMr
                exact hMr (hs6 rep0 hrep1 hrepn hrootrep)
              have hL : root (update_partitions ms.1 ms.2.member st.oldg s2.newg fuel).2.1 e ≠ r := by
                have hcelle :
                    (update_partitions ms.1 ms.2.member st.oldg s2.newg
                      fuel).2.1 e = s2.newg e := by
                  rw [hcell e, if_pos ⟨te, hte, htee⟩]
                rw [root_congr_cell hcelle, ← htee]
                obtain ⟨tv, htv, htve⟩ := hrootM te hte
                rw [htve]
                intro h
                exact hMr ⟨tv, htv, h⟩
              have hR : root st.oldg e ≠ r := by
                rw [← htee, hrootold te hte]
                exact fun h => hrnotrep h.symm
              constructor
              · rintro ⟨h, _⟩
                exact absurd h hL
              · rintro ⟨h, _⟩
                exact absurd h hR
            · have hcelle :
                  (update_partitions ms.1 ms.2.member st.oldg s2.newg
                    fuel).2.1 e = st.oldg e := by
                rw [hcell e, if_neg hMe]
              rw [root_congr_cell hcelle]
          rw [hfeq]
          exact hold
      have hstrict : classCount d.nstates st.oldg < classCount d.nstates
          (update_partitions ms.1 ms.2.member st.oldg s2.newg fuel).2.1 := by
        have hsplitAB : ∀ (g : Nat → Int),
            ((Finset.Icc 1 d.nstates).filter (fun e => g e ≤ 0)).card
            = (((Finset.Icc 1 d.nstates).filter (fun e => g e ≤ 0)).filter
                (fun e => root st.oldg e = rep0)).card
              + (((Finset.Icc 1 d.nstates).filter (fun e => g e ≤ 0)).filter
                (fun e => ¬ root st.oldg e = rep0)).card := by
          intro g
          exact (Finset.filter_card_add_filter_neg_card_eq_card
            (fun e => root st.oldg e = rep0)).symm
        have hA_old : ((Finset.Icc 1 d.nstates).filter
            (fun e => st.oldg e ≤ 0)).filter
              (fun e => root st.oldg e = rep0) = {rep0} := by
          ext e
          simp only [Finset.mem_filter, Finset.mem_Icc, Finset.mem_singleton]
          constructor
          · rintro ⟨⟨⟨he1, he2⟩, hle⟩, hr⟩
            rw [root_of_nonpos hle] at hr
            exact hr
          · intro h
            rw [h]
            exact ⟨⟨⟨hrep1, hrepn⟩, le_of_lt hneg⟩, hrootrep⟩
        have hB_eq : ((Finset.Icc 1 d.nstates).filter
            (fun e => (update_partitions ms.1 ms.2.member st.oldg s2.newg
              fuel).2.1 e ≤ 0)).filter (fun e => ¬ root st.oldg e = rep0)
            = ((Finset.Icc 1 d.nstates).filter
              (fun e => st.oldg e ≤ 0)).filter
                (fun e => ¬ root st.oldg e = rep0) := by
          rw [Finset.filter_filter, Finset.filter_filter]
          apply Finset.filter_congr
          intro e hei
          dsimp only
          obtain ⟨he1, he2⟩ := Finset.mem_Icc.mp hei
          by_cases hMe : ∃ t, t < ms.1 ∧ ms.2.member t = e
          · obtain ⟨te, hte, htee⟩ := hMe
            have hcls : root st.oldg e = rep0 := by
              rw [← htee]
              exact hrootold te hte
            constructor
            · rintro ⟨_, hc⟩
              exact absurd hcls hc
            · rintro ⟨_, hc⟩
              exact absurd hcls hc
          · have hcelle :
                (update_partitions ms.1 ms.2.member st.oldg s2.newg
                  fuel).2.1 e = st.oldg e := by
              rw [hcell e, if_neg hMe]
            rw [hcelle]
        have hA_new : 1 < (((Finset.Icc 1 d.nstates).filter
            (fun e => (update_partitions ms.1 ms.2.member st.oldg s2.newg
              fuel).2.1 e ≤ 0)).filter
                (fun e => root st.oldg e = rep0)).card := by
          obtain ⟨tx, ty, htx, hty, hnsg⟩ := hSplitIff.mp hsplit
          have hr12 : root s2.newg (ms.2.member tx)
              ≠ root s2.newg (ms.2.member ty) := by
            intro h
            exact hnsg ((hiff tx ty htx hty).mp h)
          obtain ⟨tv1, htv1, htv1e⟩ := hrootM tx htx
          obtain ⟨tv2, htv2, htv2e⟩ := hrootM ty hty
          have hmem1 : root s2.newg (ms.2.member tx)
              ∈ ((Finset.Icc 1 d.nstates).filter
                (fun e => (update_partitions ms.1 ms.2.member st.oldg s2.newg
                  fuel).2.1 e ≤ 0)).filter
                    (fun e => root st.oldg e = rep0) := by
            simp only [Finset.mem_filter, Finset.mem_Icc]
            have hb := hs4 tv1 htv1
            refine ⟨⟨?_, ?_⟩, ?_⟩
            · rw [htv1e]
              exact ⟨hb.1, hb.2.1⟩
            · rw [hcell _, if_pos (by rw [htv1e]; exact ⟨tv1, htv1, rfl⟩)]
              exact hrootcell tx htx
            · rw [htv1e]
              exact hrootold tv1 htv1
          have hmem2 : root s2.newg (ms.2.member ty)
              ∈ ((Finset.Icc 1 d.nstates).filter
                (fun e => (update_partitions ms.1 ms.2.member st.oldg s2.newg
                  fuel).2.1 e ≤ 0)).filter
                    (fun e => root st.oldg e = rep0) := by
            simp only [Finset.mem_filter, Finset.mem_Icc]
            have hb := hs4 tv2 htv2
            refine ⟨⟨?_, ?_⟩, ?_⟩
            · rw [htv2e]
              exact ⟨hb.1, hb.2.1⟩
            · rw [hcell _, if_pos (by rw [htv2e]; exact ⟨tv2, htv2, rfl⟩)]
              exact hrootcell ty hty
            · rw [htv2e]
              exact hrootold tv2 htv2
          exact Finset.one_lt_card.mpr
            ⟨root s2.newg (ms.2.member tx), hmem1,
              root s2.newg (ms.2.member ty), hmem2, hr12⟩
        unfold classCount
        rw [hsplitAB (update_partitions ms.1 ms.2.member st.oldg s2.newg
          fuel).2.1, hsplitAB st.oldg, hB_eq, hA_old, Finset.card_singleton]
        omega
      refine ⟨hFlat', hRS', ?_, ?_, le_of_lt hstrict, fun _ _ => hstrict,
        ?_, ?_⟩
      · intro h
        rw [hupdeq, h, hsplit]
        rfl
      · intro h
        rw [hsplit] at h
        simp at h
      · intro h
        rw [hsplit] at h
        simp at h
      · intro x hx1 hxn
        by_cases hMx : ∃ t, t < ms.1 ∧ ms.2.member t = x
        · obtain ⟨tx, htx, htxe⟩ := hMx
          have hcelle :
              (update_partitions ms.1 ms.2.member st.oldg s2.newg fuel).2.1 x
              = s2.newg x := by
            rw [hcell x, if_pos ⟨tx, htx, htxe⟩]
          rw [root_congr_cell hcelle, ← htxe]
          obtain ⟨tv, htv, htve⟩ := hrootM tx htx
          rw [htve, hrootold tv htv, hrootold tx htx]
        · have hcelle :
              (update_partitions ms.1 ms.2.member st.oldg s2.newg fuel).2.1 x
              = st.oldg x := by
            rw [hcell x, if_neg hMx]
          rw [root_congr_cell hcelle]
          exact hflat.root_idem hx1 hxn
    · have hupf : (update_partitions ms.1 ms.2.member st.oldg s2.newg
          fuel).1 = false := by
        cases hc : (update_partitions ms.1 ms.2.member st.oldg s2.newg
            fuel).1 with
        | false => rfl
        | true => exact absurd hc hsplit
      have hnomis : ¬ ∃ t, t < ms.1 ∧
          root st.oldg (ms.2.member t) ≠ root s2.newg (ms.2.member t) := by
        intro hex
        exact hsplit (hup2.mpr hex)
      have holdeq : (update_partitions ms.1 ms.2.member st.oldg s2.newg
          fuel).2.1 = st.oldg := by
        funext x
        rw [hup3 x, if_neg (by rintro ⟨_, hex⟩; exact hnomis hex)]
      refine ⟨?_, ?_, ?_, fun _ => holdeq, ?_, ?_, ?_, ?_⟩
      · rw [holdeq]
        exact hflat
      · rw [holdeq]
        exact hrs
      · intro h
        rw [hupdeq, h, hupf]
        rfl
      · rw [holdeq]
      · intro h1 h2
        rw [hupdeq, h1, hupf] at h2
        simp at h2
      · intro _ _ x y hxn hx1 hyn hy1 hrx hry
        have hnsplit : ¬ ∃ t u, t < ms.1 ∧ u < ms.1 ∧
            ¬ sigEq d st.oldg (ms.2.member t) (ms.2.member u) := by
          intro h
          rw [hSplitIff.mpr h] at hupf
          exact absurd hupf (by simp)
        have hall : ∀ a' b', a' < ms.1 → b' < ms.1 →
            sigEq d st.oldg (ms.2.member a') (ms.2.member b') := by
          intro a' b' ha' hb'
          by_contra hc
          exact hnsplit ⟨a', b', ha', hb', hc⟩
        obtain ⟨txx, htxx, htxxe⟩ := hs6 x hx1 hxn hrx
        obtain ⟨tyy, htyy, htyye⟩ := hs6 y hy1 hyn hry
        rw [← htxxe, ← htyye]
        exact hall txx tyy htxx htyy
      · intro x hx1 hxn
        rw [holdeq]
        exact hflat.root_idem hx1 hxn

/-! ## The sweep of partit.c and the refinement loop -/

theorem partition_sweep (d : Automaton) (st0 : PartState) (fuel : Nat)
    (hmatr : ∀ x, x ≤ d.nstates → 1 ≤ x → ∀ a, a ≤ d.nab → 1 ≤ a →
      d.mat x a ≤ d.nstates)
    (hfuel : 2 ≤ fuel)
    (hflat0 : Flat d.nstates st0.oldg)
    (hrs0 : RootSecond d.nstates st0.oldg) :
    ∀ k, k ≤ d.nstates →
      Flat d.nstates (loop1 (partition_step d fuel) k st0).oldg ∧
      RootSecond d.nstates (loop1 (partition_step d fuel) k st0).oldg ∧
      (st0.updated = true →
        (loop1 (partition_step d fuel) k st0).updated = true) ∧
      ((loop1 (partition_step d fuel) k st0).updated = false →
        (loop1 (partition_step d fuel) k st0).oldg = st0.oldg) ∧
      classCount d.nstates st0.oldg
        ≤ classCount d.nstates (loop1 (partition_step d fuel) k st0).oldg ∧
      (st0.updated = false →
        (loop1 (partition_step d fuel) k st0).updated = true →
        classCount d.nstates st0.oldg
          < classCount d.nstates (loop1 (partition_step d fuel) k st0).oldg) ∧
      ((loop1 (partition_step d fuel) k st0).updated = false →
        ∀ r, 1 ≤ r → r ≤ k → st0.oldg r < 0 →
        ∀ x y, x ≤ d.nstates → 1 ≤ x → y ≤ d.nstates → 1 ≤ y →
          root st0.oldg x = r → root st0.oldg y = r →
          sigEq d st0.oldg x y) ∧
      (∀ x, 1 ≤ x → x ≤ d.nstates →
        root st0.oldg (root (loop1 (partition_step d fuel) k st0).oldg x)
          = root st0.oldg x) := by
  intro k
  induction k with
  | zero =>
    intro _
    refine ⟨hflat0, hrs0, fun h => h, fun _ => rfl, le_refl _, ?_, ?_, ?_⟩
    · intro h1 h2
      exfalso
      have h2' : st0.updated = true := h2
      rw [h1] at h2'
      exact absurd h2' (by simp)
    · intro _ r _ hr2 _
      exact absurd hr2 (by omega)
    · intro x hx1 hxn
      exact hflat0.root_idem hx1 hxn
  | succ k ih =>
    intro hk
    obtain ⟨ih1, ih2, ih3, ih4, ih5, ih6, ih7, ih8⟩ := ih (by omega)
    obtain ⟨hq1, hq2, hq3, hq4, hq5, hq6, hq7, hq8⟩ :=
      partition_step_spec d (loop1 (partition_step d fuel) k st0) fuel (k + 1)
        hmatr hfuel ih1 ih2 (by omega) (by omega)
    rw [loop1_succ]
    have hmidfalse :
        (partition_step d fuel (k + 1)
          (loop1 (partition_step d fuel) k st0)).updated = false →
        (loop1 (partition_step d fuel) k st0).updated = false := by
      intro h
      cases hc : (loop1 (partition_step d fuel) k st0).updated with
      | false => rfl
      | true =>
        rw [hq3 hc] at h
        exact absurd h (by simp)
    refine ⟨hq1, hq2, ?_, ?_, ?_, ?_, ?_, ?_⟩
    · intro h
      exact hq3 (ih3 h)
    · intro h
      rw [hq4 h]
      exact ih4 (hmidfalse h)
    · exact le_trans ih5 hq5
    · intro h1 h2
      cases hc : (loop1 (partition_step d fuel) k st0).updated with
      | true => exact lt_of_lt_of_le (ih6 h1 hc) hq5
      | false => exact lt_of_le_of_lt ih5 (hq6 hc h2)
    · intro h r hr1 hrk hcell
      have hmf : (loop1 (partition_step d fuel) k st0).updated = false :=
        hmidfalse h
      have hmideq : (loop1 (partition_step d fuel) k st0).oldg = st0.oldg :=
        ih4 hmf
      by_cases hrk' : r ≤ k
      · exact ih7 hmf r hr1 hrk' hcell
      · have hrk1 : r = k + 1 := by omega
        intro x y hxn hx1 hyn hy1 hrx hry
        have hcell' :
            (loop1 (partition_step d fuel) k st0).oldg (k + 1) < 0 := by
          rw [hmideq]
          rw [hrk1] at hcell
          exact hcell
        have hconc := hq7 h hcell' x y hxn hx1 hyn hy1
        rw [hmideq] at hconc
        rw [hrk1] at hrx hry
        exact hconc hrx hry
    · intro x hx1 hxn
      have hb1 := Flat.root_le hq1 hx1 hxn
      have h1 := ih8 (root (partition_step d fuel (k + 1)
        (loop1 (partition_step d fuel) k st0)).oldg x) hb1.1 hb1.2
      rw [hq8 x hx1 hxn] at h1
      rw [← h1]
      exact ih8 x hx1 hxn

theorem partition_spec (d : Automaton) (g : Nat → Int) (fuel : Nat)
    (hmatr : ∀ x, x ≤ d.nstates → 1 ≤ x → ∀ a, a ≤ d.nab → 1 ≤ a →
      d.mat x a ≤ d.nstates)
    (hfuel : 2 ≤ fuel)
    (hflat : Flat d.nstates g) (hrs : RootSecond d.nstates g) :
    Flat d.nstates (partition d g fuel).2 ∧
    RootSecond d.nstates (partition d g fuel).2 ∧
    ((partition d g fuel).1 = false →
      (partition d g fuel).2 = g ∧ SigCompat d g) ∧
    ((partition d g fuel).1 = true →
      classCount d.nstates g < classCount d.nstates (partition d g fuel).2) ∧
    classCount d.nstates g ≤ classCount d.nstates (partition d g fuel).2 ∧
    (∀ x, 1 ≤ x → x ≤ d.nstates →
      root g (root (partition d g fuel).2 x) = root g x) := by
  obtain ⟨w1, w2, w3, w4, w5, w6, w7, w8⟩ :=
    partition_sweep d
      { member := fun _ => 0, newg := fun _ => 0, unified := fun _ => false,
        oldg := g, updated := false } fuel hmatr hfuel hflat hrs
      d.nstates (le_refl _)
  dsimp only at w1 w2 w3 w4 w5 w6 w7 w8
  refine ⟨w1, w2, ?_, ?_, w5, w8⟩
  · intro hfalse
    have hunch := w4 hfalse
    refine ⟨hunch, ?_⟩
    intro x y hxn hx1 hyn hy1 hrxy
    have hb := Flat.root_le hflat hx1 hxn
    have hcell := Flat.root_cell_nonpos hflat hx1 hxn
    by_cases hc : g (root g x) < 0
    · exact w7 hfalse (root g x) hb.1 hb.2 hc x y hxn hx1 hyn hy1 rfl
        hrxy.symm
    · have hz : g (root g x) = 0 := by omega
      have hxr : x = root g x := by
        rcases hflat x hxn hx1 with h | ⟨h1, h2, h3⟩
        · rw [root_of_nonpos h]
        · exfalso
          rw [root_of_pos (by omega)] at hz
          omega
      have hzy : g (root g y) = 0 := by
        rw [← hrxy]
        exact hz
      have hyr : y = root g y := by
        rcases hflat y hyn hy1 with h | ⟨h1, h2, h3⟩
        · rw [root_of_nonpos h]
        · exfalso
          rw [root_of_pos (by omega)] at hzy
          omega
      have hxy : x = y := by
        rw [hxr, hyr, hrxy]
      rw [hxy]
      exact sigEq_refl d g y
  · exact w6 rfl

theorem classCount_le (n : Nat) (g : Nat → Int) : classCount n g ≤ n := by
  unfold classCount
  refine le_trans (Finset.card_filter_le _ _) ?_
  rw [Nat.card_Icc]
  omega

theorem refine_fixpoint (d : Automaton)
    (hmatr : ∀ x, x ≤ d.nstates → 1 ≤ x → ∀ a, a ≤ d.nab → 1 ≤ a →
      d.mat x a ≤ d.nstates)
    (hn1 : 1 ≤ d.nstates) :
    ∀ f g, Flat d.nstates g → RootSecond d.nstates g →
      d.nstates + 1 ≤ f + classCount d.nstates g →
      Flat d.nstates (refine_loop d f g) ∧
      RootSecond d.nstates (refine_loop d f g) ∧
      (partition d (refine_loop d f g) (d.nstates + 1)).1 = false ∧
      (∀ x, 1 ≤ x → x ≤ d.nstates →
        root g (root (refine_loop d f g) x) = root g x) := by
  intro f
  induction f with
  | zero =>
    intro g hflat hrs hcount
    exfalso
    have := classCount_le d.nstates g
    omega
  | succ f ihf =>
    intro g hflat hrs hcount
    obtain ⟨p1, p2, p3, p4, p5, p6⟩ :=
      partition_spec d g (d.nstates + 1) hmatr (by omega) hflat hrs
    have hstep : refine_loop d (f + 1) g
        = if (partition d g (d.nstates + 1)).1 then
            refine_loop d f (partition d g (d.nstates + 1)).2
          else (partition d g (d.nstates + 1)).2 := rfl
    rw [hstep]
    by_cases hb : (partition d g (d.nstates + 1)).1 = true
    · rw [hb, if_pos rfl]
      have hcount' : d.nstates + 1
          ≤ f + classCount d.nstates (partition d g (d.nstates + 1)).2 := by
        have := p4 hb
        omega
      obtain ⟨r1, r2, r3, r4⟩ :=
        ihf (partition d g (d.nstates + 1)).2 p1 p2 hcount'
      refine ⟨r1, r2, r3, ?_⟩
      intro x hx1 hxn
      have hbnd := Flat.root_le r1 hx1 hxn
      have h1 := p6 (root (refine_loop d f
        (partition d g (d.nstates + 1)).2) x) hbnd.1 hbnd.2
      rw [r4 x hx1 hxn] at h1
      rw [← h1]
      exact p6 x hx1 hxn
    · have hbf : (partition d g (d.nstates + 1)).1 = false := by
        cases hc : (partition d g (d.nstates + 1)).1 with
        | false => rfl
        | true => exact absurd hc hb
      rw [hbf, if_neg (by simp)]
      obtain ⟨hunch, _⟩ := p3 hbf
      rw [hunch]
      refine ⟨hflat, hrs, hbf, ?_⟩
      intro x hx1 hxn
      exact hflat.root_idem hx1 hxn

/-! ## Claim C8 -/

theorem classCount_pos {n : Nat} {g : Nat → Int} (hf : Flat n g)
    (hn : 1 ≤ n) : 1 ≤ classCount n g := by
  refine Finset.card_pos.mpr ⟨root g 1, ?_⟩
  rw [Finset.mem_filter, Finset.mem_Icc]
  have hb := Flat.root_le hf (le_refl 1) hn
  exact ⟨⟨hb.1, hb.2⟩, Flat.root_cell_nonpos hf (le_refl 1) hn⟩

/-- C8: on a valid DFA, with the partition vector satisfying the flatness
and second-smallest-root invariants the program maintains, a `partition`
sweep that returns TRUE strictly increases the number of equivalence
classes (the count of nonpositive root cells), and the refinement loop
`while (partition(..) == TRUE)` reaches the FALSE fixpoint within
`nstates` calls: after at most `nstates` iterations a further call
returns FALSE. -/
theorem claim_C8_partition_terminates (d : Automaton) (g : Nat → Int)
    (hd : ValidDFA d) (hinv : PartInv d.nstates g) :
    ((partition d g (d.nstates + 1)).1 = true →
      classCount d.nstates g
        < classCount d.nstates (partition d g (d.nstates + 1)).2) ∧
    (partition d (refine_loop d d.nstates g) (d.nstates + 1)).1 = false := by
  obtain ⟨hn1, _, _, hmatr, _⟩ := hd
  obtain ⟨hflat, hrs⟩ := hinv
  constructor
  · exact (partition_spec d g (d.nstates + 1) hmatr (by omega)
      hflat hrs).2.2.2.1
  · have hcpos := classCount_pos hflat hn1
    exact (refine_fixpoint d hmatr hn1 d.nstates g hflat hrs
      (by omega)).2.2.1

theorem claim_C8_witness :
    (ValidDFA dfaThree ∧ PartInv dfaThree.nstates gThreeInit) ∧
    (((partition dfaThree gThreeInit (dfaThree.nstates + 1)).1 = true →
      classCount dfaThree.nstates gThreeInit
        < classCount dfaThree.nstates
          (partition dfaThree gThreeInit (dfaThree.nstates + 1)).2) ∧
    (partition dfaThree (refine_loop dfaThree dfaThree.nstates gThreeInit)
      (dfaThree.nstates + 1)).1 = false) :=
  ⟨⟨by decide, by decide⟩,
    claim_C8_partition_terminates dfaThree gThreeInit (by decide) (by decide)⟩

/-! ## Initial partition of partit.c -/

theorem singleton_of_cell_zero {n : Nat} {g : Nat → Int} (hf : Flat n g)
    {r : Nat} (hgr : g r = 0) :
    ∀ x, 1 ≤ x → x ≤ n → root g x = r → x = r := by
  intro x hx1 hxn hroot
  rcases hf x hxn hx1 with h | ⟨h1, h2, h3⟩
  · rw [root_of_nonpos h] at hroot
    exact hroot
  · exfalso
    rw [root_of_pos (by omega)] at hroot
    rw [hroot, hgr] at h3
    omega

theorem root_self_of_root_cell_zero {n : Nat} {g : Nat → Int} (hf : Flat n g)
    {e : Nat} (he1 : 1 ≤ e) (hen : e ≤ n) (hz : g (root g e) = 0) :
    root g e = e := by
  rcases hf e hen he1 with h | ⟨h1, h2, h3⟩
  · exact root_of_nonpos h
  · exfalso
    rw [root_of_pos (by omega)] at hz
    omega

theorem rs_merge_sgl {n : Nat} {g : Nat → Int} (hf : Flat n g)
    (hrs : RootSecond n g) {a x : Nat} (ha1 : 1 ≤ a)
    (hax : a < x) (hga : g a = 0) (hgx : g x = 0)
    (hnoroot : ∀ e, 1 ≤ e → e ≤ n → root g e = x → e = x) :
    RootSecond n (upd (upd g x (-1)) a ((x : Nat) : Int)) := by
  have hroot := merge_sgl_root (g := g) (by omega : 1 ≤ x) hga hgx
    (by omega : a ≠ x)
  intro r hrn hr1 hgr
  by_cases hrx : r = x
  · rw [Finset.card_eq_one]
    refine ⟨a, ?_⟩
    ext e
    simp only [Finset.mem_filter, Finset.mem_Icc, Finset.mem_singleton]
    constructor
    · rintro ⟨⟨he1, he2⟩, hre, helt⟩
      rw [hroot e] at hre
      by_cases hea : e = a ∨ e = x
      · rcases hea with h | h
        · exact h
        · rw [h, hrx] at helt
          omega
      · rw [if_neg hea] at hre
        rw [hrx] at hre
        have := hnoroot e he1 he2 hre
        rw [hrx] at helt
        omega
    · intro h
      rw [h, hrx]
      refine ⟨⟨ha1, ?_⟩, ?_, hax⟩
      · omega
      · rw [hroot a, if_pos (Or.inl rfl)]
  · have hra : r ≠ a := by
      intro h
      rw [h, upd_same] at hgr
      omega
    have hgr' : g r < 0 := by
      rw [upd_other _ _ _ _ hra, upd_other _ _ _ _ hrx] at hgr
      exact hgr
    have hold := hrs r hrn hr1 hgr'
    have hfeq : (Finset.Icc 1 n).filter
        (fun e => root (upd (upd g x (-1)) a ((x : Nat) : Int)) e = r ∧ e < r)
        = (Finset.Icc 1 n).filter (fun e => root g e = r ∧ e < r) := by
      apply Finset.filter_congr
      intro e hei
      dsimp only
      rw [hroot e]
      by_cases hea : e = a ∨ e = x
      · rw [if_pos hea]
        have hLa : ¬ (x = r) := fun h => hrx h.symm
        have hRa : ¬ (root g e = r) := by
          rcases hea with h | h
          · rw [h, root_of_nonpos (le_of_eq hga)]
            intro hc
            rw [← hc] at hgr'
            rw [hga] at hgr'
            omega
          · rw [h, root_of_nonpos (le_of_eq hgx)]
            intro hc
            rw [← hc] at hgr'
            rw [hgx] at hgr'
            omega
        constructor
        · rintro ⟨h, _⟩
          exact absurd h hLa
        · rintro ⟨h, _⟩
          exact absurd h hRa
      · rw [if_neg hea]
    rw [hfeq]
    exact hold

theorem rs_merge_big {n : Nat} {g : Nat → Int} (hf : Flat n g)
    (hrs : RootSecond n g) {r x : Nat} (hr1 : 1 ≤ r)
    (hrx : r < x) (hgr : g r < 0) (hgx : g x = 0)
    (hnoroot : ∀ e, 1 ≤ e → e ≤ n → root g e = x → e = x) :
    RootSecond n (upd (upd g r (g r - 1)) x ((r : Nat) : Int)) := by
  have hroot := merge_big_root (g := g) hr1 hgr hgx (by omega : r ≠ x)
  intro r' hrn' hr1' hgr'
  have hrnx : r' ≠ x := by
    intro h
    rw [h, upd_same] at hgr'
    omega
  have hgr'' : g r' < 0 := by
    rw [upd_other _ _ _ _ hrnx] at hgr'
    by_cases hrr : r' = r
    · rw [hrr]
      exact hgr
    · rw [upd_other _ _ _ _ hrr] at hgr'
      exact hgr'
  have hold := hrs r' hrn' hr1' hgr''
  have hfeq : (Finset.Icc 1 n).filter
      (fun e => root (upd (upd g r (g r - 1)) x ((r : Nat) : Int)) e = r'
        ∧ e < r')
      = (Finset.Icc 1 n).filter (fun e => root g e = r' ∧ e < r') := by
    apply Finset.filter_congr
    intro e hei
    dsimp only
    rw [hroot e]
    by_cases hex : e = x
    · rw [if_pos hex]
      constructor
      · rintro ⟨h1, h2⟩
        rw [hex] at h2
        omega
      · rintro ⟨h1, h2⟩
        rw [hex, root_of_nonpos (le_of_eq hgx)] at h1
        exact absurd h1.symm hrnx
    · rw [if_neg hex]
  rw [hfeq]
  exact hold

theorem init_loop_inv (nstates : Nat) (attribs : Nat → Char) (fuel : Nat)
    (hfuel : 2 ≤ fuel) (gc : Nat → Int)
    (hgc : ∀ x, 1 ≤ x → x ≤ nstates → gc x = 0) :
    ∀ k, k ≤ nstates → InitInv nstates attribs k
      (loop1 (fun i st =>
        if attribs i = 'A' then
          if st.1 = 0 then (i, st.2.1, st.2.2)
          else (st.1, st.2.1, Union st.1 i st.2.2 fuel)
        else
          if st.2.1 = 0 then (st.1, i, st.2.2)
          else (st.1, st.2.1, Union st.2.1 i st.2.2 fuel)) k
        ((0 : Nat), (0 : Nat), gc)) := by
  intro k
  induction k with
  | zero =>
    intro _
    show InitInv nstates attribs 0 ((0 : Nat), (0 : Nat), gc)
    unfold InitInv
    dsimp only
    have hflat0 : Flat nstates gc := by
      intro e he1 he2
      left
      rw [hgc e he2 he1]
    refine ⟨hflat0, ?_, ?_, ?_, ?_, ?_, ?_, ?_, ?_, ?_⟩
    · intro r hrn hr1 hgr
      rw [hgc r hr1 hrn] at hgr
      omega
    · intro x _ hx2
      exact hgc x (by omega) hx2
    · intro x h1 h2
      omega
    · intro _ x h1 h2
      omega
    · intro h
      exact absurd rfl h
    · intro x h1 h2
      omega
    · intro _ x h1 h2
      omega
    · intro h
      exact absurd rfl h
    · intro x h1 h2
      omega
  | succ k ih =>
    intro hk
    obtain ⟨i1, i2, i3, i4, i5, i6, i7, i8, i9, i10⟩ := ih (by omega)
    rw [loop1_succ]
    set p := loop1 (fun i st =>
        if attribs i = 'A' then
          if st.1 = 0 then (i, st.2.1, st.2.2)
          else (st.1, st.2.1, Union st.1 i st.2.2 fuel)
        else
          if st.2.1 = 0 then (st.1, i, st.2.2)
          else (st.1, st.2.1, Union st.2.1 i st.2.2 fuel)) k
        ((0 : Nat), (0 : Nat), gc) with hpdef
    have hfreshc : p.2.2 (k + 1) = 0 := i3 (k + 1) (by omega) (by omega)
    have hrx : root p.2.2 (k + 1) = k + 1 :=
      root_of_nonpos (le_of_eq hfreshc)
    have hnoroot : ∀ e, 1 ≤ e → e ≤ nstates →
        root p.2.2 e = k + 1 → e = k + 1 := by
      intro e he1 he2 hre
      by_cases hek : e ≤ k
      · have := i4 e he1 hek
        omega
      · by_cases hek1 : e = k + 1
        · exact hek1
        · have hc := i3 e (by omega) he2
          rw [root_of_nonpos (le_of_eq hc)] at hre
          exact hre
    by_cases hA : attribs (k + 1) = 'A'
    · rw [if_pos hA]
      by_cases har : p.1 = 0
      · rw [if_pos har]
        unfold InitInv
        dsimp only
        refine ⟨i1, i2, ?_, ?_, ?_, ?_, ?_, ?_, ?_, ?_⟩
        · intro x h1 h2
          exact i3 x (by omega) h2
        · intro x h1 h2
          by_cases hxk : x ≤ k
          · have := i4 x h1 hxk
            omega
          · have hxe : x = k + 1 := by omega
            rw [hxe, hrx]
        · intro h
          exact absurd h (by omega)
        · intro _
          refine ⟨by omega, le_refl _, hA, ?_⟩
          rw [hrx]
          exact hA
        · intro x h1 h2 hxA
          by_cases hxk : x ≤ k
          · exact absurd hxA (i5 har x h1 hxk)
          · have hxe : x = k + 1 := by omega
            rw [hxe]
        · intro h x h1 h2
          by_cases hxk : x ≤ k
          · exact i8 h x h1 hxk
          · have hxe : x = k + 1 := by omega
            rw [hxe]
            exact hA
        · intro h
          obtain ⟨b1, b2, b3, b4⟩ := i9 h
          exact ⟨b1, by omega, b3, b4⟩
        · intro x h1 h2 hxnA
          by_cases hxk : x ≤ k
          · exact i10 x h1 hxk hxnA
          · have hxe : x = k + 1 := by omega
            rw [hxe] at hxnA
            exact absurd hA hxnA
      · rw [if_neg har]
        obtain ⟨a1, a2, a3, a4⟩ := i6 har
        have hrar_le : root p.2.2 p.1 ≤ k := i4 p.1 a1 a2
        have hne : root p.2.2 p.1 ≠ root p.2.2 (k + 1) := by
          rw [hrx]
          omega
        have hU := Union_flat_closed i1 a1 (by omega) (by omega)
          (by omega : k + 1 ≤ nstates) hfuel hne
        have hrb := Flat.root_le i1 a1 (show p.1 ≤ nstates by omega)
        have hcell_ra := Flat.root_cell_nonpos i1 a1
          (show p.1 ≤ nstates by omega)
        by_cases hz : p.2.2 (root p.2.2 p.1) < 0
        · have hcond : p.2.2 (root p.2.2 (k + 1))
              > p.2.2 (root p.2.2 p.1) := by
            rw [hrx, hfreshc]
            omega
          rw [if_pos hcond] at hU
          rw [hrx, hfreshc] at hU
          have harith : p.2.2 (root p.2.2 p.1) + ((0 : Int) - 1)
              = p.2.2 (root p.2.2 p.1) - 1 := by ring
          rw [harith] at hU
          rw [hU]
          have hroot := merge_big_root (g := p.2.2) hrb.1 hz hfreshc
            (by omega : root p.2.2 p.1 ≠ k + 1)
          have hflat' := merge_big_flat i1 hrb.1 hrb.2 hz hfreshc
            (by omega : root p.2.2 p.1 ≠ k + 1)
          have hrs' := rs_merge_big i1 i2 hrb.1
            (by omega : root p.2.2 p.1 < k + 1) hz hfreshc hnoroot
          unfold InitInv
          dsimp only
          refine ⟨hflat', hrs', ?_, ?_, ?_, ?_, ?_, ?_, ?_, ?_⟩
          · intro x h1 h2
            rw [upd_other _ _ _ _ (by omega : x ≠ k + 1),
              upd_other _ _ _ _ (by omega : x ≠ root p.2.2 p.1)]
            exact i3 x (by omega) h2
          · intro x h1 h2
            rw [hroot x]
            by_cases hxe : x = k + 1
            · rw [if_pos hxe]
              omega
            · rw [if_neg hxe]
              have := i4 x h1 (by omega)
              omega
          · intro h
            exact absurd h har
          · intro _
            refine ⟨a1, by omega, a3, ?_⟩
            rw [hroot p.1, if_neg (by omega : p.1 ≠ k + 1)]
            exact a4
          · intro x h1 h2 hxA
            rw [hroot x, hroot p.1, if_neg (by omega : p.1 ≠ k + 1)]
            by_cases hxe : x = k + 1
            · rw [if_pos hxe]
            · rw [if_neg hxe]
              exact i7 x h1 (by omega) hxA
          · intro h x h1 h2
            by_cases hxk : x ≤ k
            · exact i8 h x h1 hxk
            · have hxe : x = k + 1 := by omega
              rw [hxe]
              exact hA
          · intro h
            obtain ⟨b1, b2, b3, b4⟩ := i9 h
            refine ⟨b1, by omega, b3, ?_⟩
            rw [hroot p.2.1, if_neg (by omega : p.2.1 ≠ k + 1)]
            exact b4
          · intro x h1 h2 hxnA
            have hxk : x ≤ k := by
              by_contra hc
              have hxe : x = k + 1 := by omega
              rw [hxe] at hxnA
              exact hxnA hA
            have hor : p.2.1 ≠ 0 := by
              intro h0
              exact hxnA (i8 h0 x h1 hxk)
            obtain ⟨b1, b2, b3, b4⟩ := i9 hor
            rw [hroot x, if_neg (by omega : x ≠ k + 1),
              hroot p.2.1, if_neg (by omega : p.2.1 ≠ k + 1)]
            exact i10 x h1 hxk hxnA
        · have hz0 : p.2.2 (root p.2.2 p.1) = 0 := by omega
          have harr : root p.2.2 p.1 = p.1 :=
            root_self_of_root_cell_zero i1 a1 (by omega) hz0
          have hga : p.2.2 p.1 = 0 := by
            rw [harr] at hz0
            exact hz0
          have hsingle := singleton_of_cell_zero i1 hga
          have hcond : ¬ (p.2.2 (root p.2.2 (k + 1))
              > p.2.2 (root p.2.2 p.1)) := by
            rw [hrx, hfreshc, harr, hga]
            omega
          rw [if_neg hcond] at hU
          rw [hrx, hfreshc, harr, hga] at hU
          have harith : (0 : Int) + (0 - 1) = -1 := by norm_num
          rw [harith] at hU
          rw [hU]
          have hroot := merge_sgl_root (g := p.2.2)
            (by omega : 1 ≤ k + 1) hga hfreshc (by omega : p.1 ≠ k + 1)
          have hflat' := merge_sgl_flat i1 (by omega : 1 ≤ k + 1)
            (by omega : k + 1 ≤ nstates) hga hfreshc
            (by omega : p.1 ≠ k + 1)
          have hrs' := rs_merge_sgl i1 i2 a1 (by omega : p.1 < k + 1)
            hga hfreshc hnoroot
          unfold InitInv
          dsimp only
          refine ⟨hflat', hrs', ?_, ?_, ?_, ?_, ?_, ?_, ?_, ?_⟩
          · intro x h1 h2
            rw [upd_other _ _ _ _ (by omega : x ≠ p.1),
              upd_other _ _ _ _ (by omega : x ≠ k + 1)]
            exact i3 x (by omega) h2
          · intro x h1 h2
            rw [hroot x]
            by_cases hxe : x = p.1 ∨ x = k + 1
            · rw [if_pos hxe]
            · rw [if_neg hxe]
              have hxk : x ≤ k := by
                rcases Nat.lt_or_ge x (k + 1) with h | h
                · omega
                · exfalso
                  exact hxe (Or.inr (by omega))
              have := i4 x h1 hxk
              omega
          · intro h
            exact absurd h har
          · intro _
            refine ⟨a1, by omega, a3, ?_⟩
            rw [hroot p.1, if_pos (Or.inl rfl)]
            exact hA
          · intro x h1 h2 hxA
            rw [hroot x, hroot p.1, if_pos (Or.inl rfl)]
            by_cases hxe : x = p.1 ∨ x = k + 1
            · rw [if_pos hxe]
            · rw [if_neg hxe]
              exfalso
              have hxk : x ≤ k := by
                rcases Nat.lt_or_ge x (k + 1) with h | h
                · omega
                · exfalso
                  exact hxe (Or.inr (by omega))
              have he := i7 x h1 hxk hxA
              rw [harr] at he
              exact hxe (Or.inl (hsingle x h1 (by omega) he))
          · intro h x h1 h2
            by_cases hxk : x ≤ k
            · exact i8 h x h1 hxk
            · have hxe : x = k + 1 := by omega
              rw [hxe]
              exact hA
          · intro h
            obtain ⟨b1, b2, b3, b4⟩ := i9 h
            have hbne : ¬ (p.2.1 = p.1 ∨ p.2.1 = k + 1) := by
              rintro (h' | h')
              · rw [h'] at b3
                exact b3 a3
              · omega
            refine ⟨b1, by omega, b3, ?_⟩
            rw [hroot p.2.1, if_neg hbne]
            exact b4
          · intro x h1 h2 hxnA
            have hxk : x ≤ k := by
              by_contra hc
              have hxe : x = k + 1 := by omega
              rw [hxe] at hxnA
              exact hxnA hA
            have hor : p.2.1 ≠ 0 := by
              intro h0
              exact hxnA (i8 h0 x h1 hxk)
            obtain ⟨b1, b2, b3, b4⟩ := i9 hor
            have hbne : ¬ (p.2.1 = p.1 ∨ p.2.1 = k + 1) := by
              rintro (h' | h')
              · rw [h'] at b3
                exact b3 a3
              · omega
            have hxne : ¬ (x = p.1 ∨ x = k + 1) := by
              rintro (h' | h')
              · rw [h'] at hxnA
                exact hxnA a3
              · omega
            rw [hroot x, if_neg hxne, hroot p.2.1, if_neg hbne]
            exact i10 x h1 hxk hxnA
    · rw [if_neg hA]
      by_cases hor : p.2.1 = 0
      · rw [if_pos hor]
        unfold InitInv
        dsimp only
        refine ⟨i1, i2, ?_, ?_, ?_, ?_, ?_, ?_, ?_, ?_⟩
        · intro x h1 h2
          exact i3 x (by omega) h2
        · intro x h1 h2
          by_cases hxk : x ≤ k
          · have := i4 x h1 hxk
            omega
          · have hxe : x = k + 1 := by omega
            rw [hxe, hrx]
        · intro h x h1 h2
          by_cases hxk : x ≤ k
          · exact i5 h x h1 hxk
          · have hxe : x = k + 1 := by omega
            rw [hxe]
            exact hA
        · intro h
          obtain ⟨a1, a2, a3, a4⟩ := i6 h
          exact ⟨a1, by omega, a3, a4⟩
        · intro x h1 h2 hxA
          by_cases hxk : x ≤ k
          · exact i7 x h1 hxk hxA
          · have hxe : x = k + 1 := by omega
            rw [hxe] at hxA
            exact absurd hxA hA
        · intro h
          exact absurd h (by omega)
        · intro _
          refine ⟨by omega, le_refl _, hA, ?_⟩
          rw [hrx]
          exact hA
        · intro x h1 h2 hxnA
          by_cases hxk : x ≤ k
          · exact absurd (i8 hor x h1 hxk) hxnA
          · have hxe : x = k + 1 := by omega
            rw [hxe]
      · rw [if_neg hor]
        obtain ⟨b1, b2, b3, b4⟩ := i9 hor
        have hrbr_le : root p.2.2 p.2.1 ≤ k := i4 p.2.1 b1 b2
        have hne : root p.2.2 p.2.1 ≠ root p.2.2 (k + 1) := by
          rw [hrx]
          omega
        have hU := Union_flat_closed i1 b1 (by omega) (by omega)
          (by omega : k + 1 ≤ nstates) hfuel hne
        have hrb := Flat.root_le i1 b1 (show p.2.1 ≤ nstates by omega)
        have hcell_rb := Flat.root_cell_nonpos i1 b1
          (show p.2.1 ≤ nstates by omega)
        by_cases hz : p.2.2 (root p.2.2 p.2.1) < 0
        · have hcond : p.2.2 (root p.2.2 (k + 1))
              > p.2.2 (root p.2.2 p.2.1) := by
            rw [hrx, hfreshc]
            omega
          rw [if_pos hcond] at hU
          rw [hrx, hfreshc] at hU
          have harith : p.2.2 (root p.2.2 p.2.1) + ((0 : Int) - 1)
              = p.2.2 (root p.2.2 p.2.1) - 1 := by ring
          rw [harith] at hU
          rw [hU]
          have hroot := merge_big_root (g := p.2.2) hrb.1 hz hfreshc
            (by omega : root p.2.2 p.2.1 ≠ k + 1)
          have hflat' := merge_big_flat i1 hrb.1 hrb.2 hz hfreshc
            (by omega : root p.2.2 p.2.1 ≠ k + 1)
          have hrs' := rs_merge_big i1 i2 hrb.1
            (by omega : root p.2.2 p.2.1 < k + 1) hz hfreshc hnoroot
          unfold InitInv
          dsimp only
          refine ⟨hflat', hrs', ?_, ?_, ?_, ?_, ?_, ?_, ?_, ?_⟩
          · intro x h1 h2
            rw [upd_other _ _ _ _ (by omega : x ≠ k + 1),
              upd_other _ _ _ _ (by omega : x ≠ root p.2.2 p.2.1)]
            exact i3 x (by omega) h2
          · intro x h1 h2
            rw [hroot x]
            by_cases hxe : x = k + 1
            · rw [if_pos hxe]
              omega
            · rw [if_neg hxe]
              have := i4 x h1 (by omega)
              omega
          · intro h x h1 h2
            by_cases hxk : x ≤ k
            · exact i5 h x h1 hxk
            · have hxe : x = k + 1 := by omega
              rw [hxe]
              exact hA
          · intro h
            obtain ⟨a1, a2, a3, a4⟩ := i6 h
            refine ⟨a1, by omega, a3, ?_⟩
            rw [hroot p.1, if_neg (by omega : p.1 ≠ k + 1)]
            exact a4
          · intro x h1 h2 hxA
            have hxk : x ≤ k := by
              by_contra hc
              have hxe : x = k + 1 := by omega
              rw [hxe] at hxA
              exact hA hxA
            have har : p.1 ≠ 0 := by
              intro h0
              exact (i5 h0 x h1 hxk) hxA
            obtain ⟨a1, a2, a3, a4⟩ := i6 har
            rw [hroot x, if_neg (by omega : x ≠ k + 1),
              hroot p.1, if_neg (by omega : p.1 ≠ k + 1)]
            exact i7 x h1 hxk hxA
          · intro h
            exact absurd h hor
          · intro _
            refine ⟨b1, by omega, b3, ?_⟩
            rw [hroot p.2.1, if_neg (by omega : p.2.1 ≠ k + 1)]
            exact b4
          · intro x h1 h2 hxnA
            rw [hroot x, hroot p.2.1, if_neg (by omega : p.2.1 ≠ k + 1)]
            by_cases hxe : x = k + 1
            · rw [if_pos hxe]
            · rw [if_neg hxe]
              exact i10 x h1 (by omega) hxnA
        · have hz0 : p.2.2 (root p.2.2 p.2.1) = 0 := by omega
          have hbrr : root p.2.2 p.2.1 = p.2.1 :=
            root_self_of_root_cell_zero i1 b1 (by omega) hz0
          have hgb : p.2.2 p.2.1 = 0 := by
            rw [hbrr] at hz0
            exact hz0
          have hsingle := singleton_of_cell_zero i1 hgb
          have hcond : ¬ (p.2.2 (root p.2.2 (k + 1))
              > p.2.2 (root p.2.2 p.2.1)) := by
            rw [hrx, hfreshc, hbrr, hgb]
            omega
          rw [if_neg hcond] at hU
          rw [hrx, hfreshc, hbrr, hgb] at hU
          have harith : (0 : Int) + (0 - 1) = -1 := by norm_num
          rw [harith] at hU
          rw [hU]
          have hroot := merge_sgl_root (g := p.2.2)
            (by omega : 1 ≤ k + 1) hgb hfreshc (by omega : p.2.1 ≠ k + 1)
          have hflat' := merge_sgl_flat i1 (by omega : 1 ≤ k + 1)
            (by omega : k + 1 ≤ nstates) hgb hfreshc
            (by omega : p.2.1 ≠ k + 1)
          have hrs' := rs_merge_sgl i1 i2 b1 (by omega : p.2.1 < k + 1)
            hgb hfreshc hnoroot
          unfold InitInv
          dsimp only
          refine ⟨hflat', hrs', ?_, ?_, ?_, ?_, ?_, ?_, ?_, ?_⟩
          · intro x h1 h2
            rw [upd_other _ _ _ _ (by omega : x ≠ p.2.1),
              upd_other _ _ _ _ (by omega : x ≠ k + 1)]
            exact i3 x (by omega) h2
          · intro x h1 h2
            rw [hroot x]
            by_cases hxe : x = p.2.1 ∨ x = k + 1
            · rw [if_pos hxe]
            · rw [if_neg hxe]
              have hxk : x ≤ k := by
                rcases Nat.lt_or_ge x (k + 1) with h | h
                · omega
                · exfalso
                  exact hxe (Or.inr (by omega))
              have := i4 x h1 hxk
              omega
          · intro h x h1 h2
            by_cases hxk : x ≤ k
            · exact i5 h x h1 hxk
            · have hxe : x = k + 1 := by omega
              rw [hxe]
              exact hA
          · intro h
            obtain ⟨a1, a2, a3, a4⟩ := i6 h
            have hane : ¬ (p.1 = p.2.1 ∨ p.1 = k + 1) := by
              rintro (h' | h')
              · rw [h'] at a3
                exact b3 a3
              · omega
            refine ⟨a1, by omega, a3, ?_⟩
            rw [hroot p.1, if_neg hane]
            exact a4
          · intro x h1 h2 hxA
            have hxk : x ≤ k := by
              by_contra hc
              have hxe : x = k + 1 := by omega
              rw [hxe] at hxA
              exact hA hxA
            have har : p.1 ≠ 0 := by
              intro h0
              exact (i5 h0 x h1 hxk) hxA
            obtain ⟨a1, a2, a3, a4⟩ := i6 har
            have hane : ¬ (p.1 = p.2.1 ∨ p.1 = k + 1) := by
              rintro (h' | h')
              · rw [h'] at a3
                exact b3 a3
              · omega
            have hxne : ¬ (x = p.2.1 ∨ x = k + 1) := by
              rintro (h' | h')
              · rw [h'] at hxA
                exact b3 hxA
              · omega
            rw [hroot x, if_neg hxne, hroot p.1, if_neg hane]
            exact i7 x h1 hxk hxA
          · intro h
            exact absurd h hor
          · intro _
            refine ⟨b1, by omega, b3, ?_⟩
            rw [hroot p.2.1, if_pos (Or.inl rfl)]
            exact hA
          · intro x h1 h2 hxnA
            rw [hroot x, hroot p.2.1, if_pos (Or.inl rfl)]
            by_cases hxe : x = p.2.1 ∨ x = k + 1
            · rw [if_pos hxe]
            · rw [if_neg hxe]
              exfalso
              have hxk : x ≤ k := by
                rcases Nat.lt_or_ge x (k + 1) with h | h
                · omega
                · exfalso
                  exact hxe (Or.inr (by omega))
              have he := i10 x h1 hxk hxnA
              rw [hbrr] at he
              exact hxe (Or.inl (hsingle x h1 (by omega) he))

theorem attr_compat_of_inv (nstates : Nat) (attribs : Nat → Char)
    (st : Nat × Nat × (Nat → Int))
    (hinv : InitInv nstates attribs nstates st) :
    AttrCompat nstates attribs st.2.2 := by
  obtain ⟨i1, i2, i3, i4, i5, i6, i7, i8, i9, i10⟩ := hinv
  intro x y hxn hx1 hyn hy1 hrxy
  by_cases hxA : attribs x = 'A' <;> by_cases hyA : attribs y = 'A'
  · exact ⟨fun _ => hyA, fun _ => hxA⟩
  · exfalso
    have har : st.1 ≠ 0 := by
      intro h0
      exact (i5 h0 x hx1 hxn) hxA
    have hor : st.2.1 ≠ 0 := by
      intro h0
      exact hyA (i8 h0 y hy1 hyn)
    obtain ⟨a1, a2, a3, a4⟩ := i6 har
    obtain ⟨b1, b2, b3, b4⟩ := i9 hor
    have h1 := i7 x hx1 hxn hxA
    have h2 := i10 y hy1 hyn hyA
    rw [h1, h2] at hrxy
    rw [hrxy] at a4
    exact b4 a4
  · exfalso
    have har : st.1 ≠ 0 := by
      intro h0
      exact (i5 h0 y hy1 hyn) hyA
    have hor : st.2.1 ≠ 0 := by
      intro h0
      exact hxA (i8 h0 x hx1 hxn)
    obtain ⟨a1, a2, a3, a4⟩ := i6 har
    obtain ⟨b1, b2, b3, b4⟩ := i9 hor
    have h1 := i7 y hy1 hyn hyA
    have h2 := i10 x hx1 hxn hxA
    rw [h1, h2] at hrxy
    rw [← hrxy] at a4
    exact b4 a4
  · exact ⟨fun h => absurd h hxA, fun h => absurd h hyA⟩

theorem init_partitions_spec (nstates : Nat) (attribs : Nat → Char)
    (g0 : Nat → Int) (fuel : Nat) (hfuel : 2 ≤ fuel) :
    Flat nstates (init_partitions nstates attribs g0 fuel) ∧
    RootSecond nstates (init_partitions nstates attribs g0 fuel) ∧
    AttrCompat nstates attribs (init_partitions nstates attribs g0 fuel) := by
  have hgc : ∀ x, 1 ≤ x → x ≤ nstates →
      loop1 (fun i g => upd g i 0) nstates g0 x = 0 := by
    intro x h1 h2
    rw [loop1_cellwise (fun i g => upd g i 0) (fun _ _ => (0 : Int))
      (fun i a z hz => upd_other a i z 0 hz)
      (fun i a => upd_same a i 0) nstates g0 x]
    rw [if_pos ⟨h1, h2⟩]
  have hinit := init_loop_inv nstates attribs fuel hfuel
      (loop1 (fun i g => upd g i 0) nstates g0) hgc nstates (le_refl _)
  exact ⟨hinit.1, hinit.2.1,
    attr_compat_of_inv nstates attribs _ hinit⟩

theorem compress_maps_inv (n : Nat) (g : Nat → Int) (fuel : Nat)
    (hf : Flat n g) (hfuel : 2 ≤ fuel) :
    ∀ k, k ≤ n → CMInv n g k
      (loop1 (fun i st =>
        if i = (find i st.2.2.2.2 fuel).1 then
          (upd st.1 i (st.2.2.2.1 + 1), upd st.2.1 (st.2.2.2.1 + 1) i,
           upd st.2.2.1 i (find i st.2.2.2.2 fuel).1, st.2.2.2.1 + 1,
           (find i st.2.2.2.2 fuel).2)
        else (st.1, st.2.1, upd st.2.2.1 i (find i st.2.2.2.2 fuel).1,
           st.2.2.2.1, (find i st.2.2.2.2 fuel).2)) k
        (fun _ => 0, fun _ => 0, fun _ => 0, 0, g)) := by
  intro k
  induction k with
  | zero =>
    intro _
    show CMInv n g 0 (fun _ => 0, fun _ => 0, fun _ => 0, 0, g)
    unfold CMInv
    dsimp only
    refine ⟨rfl, ?_, ?_, ?_, ?_, ?_, ?_, ?_⟩
    · rw [Finset.Icc_eq_empty (by omega), Finset.filter_empty,
        Finset.card_empty]
    · intro x h1 h2
      omega
    · intro x _
      rfl
    · intro x h1 h2 _
      omega
    · intro x _
      rfl
    · intro c h1 h2
      omega
    · intro c _
      rfl
  | succ k ih =>
    intro hk
    obtain ⟨c1, c2, c3, c4, c5, c6, c7, c8⟩ := ih (by omega)
    rw [loop1_succ]
    set q := loop1 (fun i st =>
        if i = (find i st.2.2.2.2 fuel).1 then
          (upd st.1 i (st.2.2.2.1 + 1), upd st.2.1 (st.2.2.2.1 + 1) i,
           upd st.2.2.1 i (find i st.2.2.2.2 fuel).1, st.2.2.2.1 + 1,
           (find i st.2.2.2.2 fuel).2)
        else (st.1, st.2.1, upd st.2.2.1 i (find i st.2.2.2.2 fuel).1,
           st.2.2.2.1, (find i st.2.2.2.2 fuel).2)) k
        (fun _ => 0, fun _ => 0, fun _ => 0, 0, g) with hqdef
    rw [c1, find_flat hf (by omega : 1 ≤ k + 1) (by omega : k + 1 ≤ n) hfuel]
    dsimp only
    have hcard := Icc_filter_succ_card (fun e => root g e = e) k
    by_cases hr : k + 1 = root g (k + 1)
    · rw [if_pos hr]
      unfold CMInv
      dsimp only
      refine ⟨rfl, ?_, ?_, ?_, ?_, ?_, ?_, ?_⟩
      · rw [hcard, if_pos hr.symm, ← c2]
      · intro x h1 h2
        by_cases hx : x = k + 1
        · rw [hx, upd_same]
        · rw [upd_other _ _ _ _ hx]
          exact c3 x h1 (by omega)
      · intro x hx
        have hxk : x ≠ k + 1 := by omega
        rw [upd_other _ _ _ _ hxk]
        exact c4 x (by omega)
      · intro x h1 h2 hrt
        by_cases hx : x = k + 1
        · subst hx
          rw [upd_same]
          refine ⟨by omega, le_refl _, ?_⟩
          rw [upd_same]
        · rw [upd_other _ _ _ _ hx]
          obtain ⟨m1, m2, m3⟩ := c5 x h1 (by omega) hrt
          refine ⟨m1, by omega, ?_⟩
          rw [upd_other _ _ _ _ (by omega : q.1 x ≠ q.2.2.2.1 + 1)]
          exact m3
      · intro x hx
        have hxk : x ≠ k + 1 := by
          intro he
          exact hx ⟨by omega, by omega, by rw [he]; exact hr.symm⟩
        rw [upd_other _ _ _ _ hxk]
        refine c6 x ?_
        rintro ⟨e1, e2, e3⟩
        exact hx ⟨e1, by omega, e3⟩
      · intro c hc1 hc2
        by_cases hc : c = q.2.2.2.1 + 1
        · subst hc
          rw [upd_same]
          refine ⟨by omega, le_refl _, hr.symm, ?_⟩
          rw [upd_same]
        · rw [upd_other _ _ _ _ hc]
          obtain ⟨m1, m2, m3, m4⟩ := c7 c hc1 (by omega)
          refine ⟨m1, by omega, m3, ?_⟩
          rw [upd_other _ _ _ _ (by omega : q.2.1 c ≠ k + 1)]
          exact m4
      · intro c hc
        have hck : c ≠ q.2.2.2.1 + 1 := by omega
        rw [upd_other _ _ _ _ hck]
        exact c8 c (by omega)
    · rw [if_neg hr]
      unfold CMInv
      dsimp only
      refine ⟨rfl, ?_, ?_, ?_, ?_, ?_, ?_, ?_⟩
      · rw [hcard, if_neg (fun h => hr h.symm)]
        omega
      · intro x h1 h2
        by_cases hx : x = k + 1
        · rw [hx, upd_same]
        · rw [upd_other _ _ _ _ hx]
          exact c3 x h1 (by omega)
      · intro x hx
        have hxk : x ≠ k + 1 := by omega
        rw [upd_other _ _ _ _ hxk]
        exact c4 x (by omega)
      · intro x h1 h2 hrt
        by_cases hx : x = k + 1
        · exact absurd hrt.symm (by rw [← hx] at hr; exact hr)
        · exact c5 x h1 (by omega) hrt
      · intro x hx
        refine c6 x ?_
        rintro ⟨e1, e2, e3⟩
        exact hx ⟨e1, by omega, e3⟩
      · intro c hc1 hc2
        obtain ⟨m1, m2, m3, m4⟩ := c7 c hc1 hc2
        exact ⟨m1, by omega, m3, m4⟩
      · exact c8

theorem compress_maps_spec (n : Nat) (g : Nat → Int) (fuel : Nat)
    (hf : Flat n g) (hfuel : 2 ≤ fuel) :
    CMInv n g n (compress_maps n g fuel) :=
  compress_maps_inv n g fuel hf hfuel n (le_refl n)

theorem upd2_app {α : Type} (f : Nat → Nat → α) (i j : Nat) (v : α)
    (a b : Nat) :
    upd2 f i j v a b = if a = i ∧ b = j then v else f a b := rfl

theorem fill_row_cell (old : Automaton) (mp pm rp : Nat → Nat) (i : Nat) :
    ∀ m mt a b,
      loop1 (fun j m2 => upd2 m2 i j (mp (rp (old.mat (pm i) j)))) m mt a b
        = if a = i ∧ 1 ≤ b ∧ b ≤ m then mp (rp (old.mat (pm i) b))
          else mt a b := by
  intro m
  induction m with
  | zero =>
    intro mt a b
    rw [if_neg (by rintro ⟨h1, h2, h3⟩; omega :
      ¬ (a = i ∧ 1 ≤ b ∧ b ≤ 0))]
    rfl
  | succ m ihm =>
    intro mt a b
    rw [loop1_succ, upd2_app, ihm mt a b]
    by_cases h1 : a = i ∧ b = m + 1
    · rw [if_pos h1, if_pos ⟨h1.1, by omega, by omega⟩, h1.2]
    · rw [if_neg h1]
      by_cases h2 : a = i ∧ 1 ≤ b ∧ b ≤ m
      · rw [if_pos h2, if_pos ⟨h2.1, h2.2.1, by omega⟩]
      · rw [if_neg h2, if_neg (by
          rintro ⟨ha, hb1, hb2⟩
          by_cases hbm : b ≤ m
          · exact h2 ⟨ha, hb1, hbm⟩
          · exact h1 ⟨ha, by omega⟩ :
          ¬ (a = i ∧ 1 ≤ b ∧ b ≤ m + 1))]

theorem compress_fill_inv (old out0 : Automaton) (mp pm rp : Nat → Nat) :
    ∀ k, CDInv old out0 mp pm rp k
      (loop1 (fun i st =>
        if old.state_attrib (pm i) = 'A' then
          (loop1 (fun j m => upd2 m i j (mp (rp (old.mat (pm i) j))))
            old.nab st.1,
           upd st.2.1 i (old.state_attrib (pm i)),
           upd st.2.2.1 st.2.2.2 i, st.2.2.2 + 1)
        else
          (loop1 (fun j m => upd2 m i j (mp (rp (old.mat (pm i) j))))
            old.nab st.1,
           upd st.2.1 i (old.state_attrib (pm i)),
           st.2.2.1, st.2.2.2)) k
        (out0.mat, out0.state_attrib, out0.accept, 0)) := by
  intro k
  induction k with
  | zero =>
    show CDInv old out0 mp pm rp 0
      (out0.mat, out0.state_attrib, out0.accept, 0)
    unfold CDInv
    dsimp only
    refine ⟨?_, ?_, ?_, ?_, ?_, ?_, ?_⟩
    · intro i j h1 h2
      omega
    · intro i j _
      rfl
    · intro i h1 h2
      omega
    · intro i _
      rfl
    · intro t ht
      omega
    · intro t _
      rfl
    · rw [Finset.Icc_eq_empty (by omega), Finset.filter_empty,
        Finset.card_empty]
  | succ k ih =>
    obtain ⟨d1, d2, d3, d4, d5, d6, d7⟩ := ih
    rw [loop1_succ]
    set q := loop1 (fun i st =>
        if old.state_attrib (pm i) = 'A' then
          (loop1 (fun j m => upd2 m i j (mp (rp (old.mat (pm i) j))))
            old.nab st.1,
           upd st.2.1 i (old.state_attrib (pm i)),
           upd st.2.2.1 st.2.2.2 i, st.2.2.2 + 1)
        else
          (loop1 (fun j m => upd2 m i j (mp (rp (old.mat (pm i) j))))
            old.nab st.1,
           upd st.2.1 i (old.state_attrib (pm i)),
           st.2.2.1, st.2.2.2)) k
        (out0.mat, out0.state_attrib, out0.accept, 0) with hqdef
    by_cases hA : old.state_attrib (pm (k + 1)) = 'A'
    · rw [if_pos hA]
      unfold CDInv
      dsimp only
      refine ⟨?_, ?_, ?_, ?_, ?_, ?_, ?_⟩
      · intro i j h1 h2 hj1 hj2
        rw [fill_row_cell old mp pm rp (k + 1) old.nab q.1 i j]
        by_cases hik : i = k + 1
        · rw [if_pos ⟨hik, hj1, hj2⟩, hik]
        · rw [if_neg (by rintro ⟨h, _, _⟩; exact hik h)]
          exact d1 i j h1 (by omega) hj1 hj2
      · intro i j hx
        rw [fill_row_cell old mp pm rp (k + 1) old.nab q.1 i j]
        rw [if_neg (by
          rintro ⟨hik, hj1, hj2⟩
          exact hx ⟨by omega, by omega, hj1, hj2⟩)]
        exact d2 i j (fun hc => hx ⟨hc.1, by omega, hc.2.2.1, hc.2.2.2⟩)
      · intro i h1 h2
        by_cases hik : i = k + 1
        · rw [hik, upd_same]
        · rw [upd_other _ _ _ _ hik]
          exact d3 i h1 (by omega)
      · intro i hx
        have hik : i ≠ k + 1 := by omega
        rw [upd_other _ _ _ _ hik]
        exact d4 i (by omega)
      · intro t ht
        by_cases htc : t = q.2.2.2
        · rw [htc, upd_same]
          exact ⟨by omega, le_refl _, hA⟩
        · rw [upd_other _ _ _ _ htc]
          obtain ⟨m1, m2, m3⟩ := d5 t (by omega)
          exact ⟨m1, by omega, m3⟩
      · intro t ht
        rw [upd_other _ _ _ _ (by omega : t ≠ q.2.2.2)]
        exact d6 t (by omega)
      · rw [Icc_filter_succ_card
          (fun i => old.state_attrib (pm i) = 'A') k, if_pos hA, ← d7]
    · rw [if_neg hA]
      unfold CDInv
      dsimp only
      refine ⟨?_, ?_, ?_, ?_, ?_, ?_, ?_⟩
      · intro i j h1 h2 hj1 hj2
        rw [fill_row_cell old mp pm rp (k + 1) old.nab q.1 i j]
        by_cases hik : i = k + 1
        · rw [if_pos ⟨hik, hj1, hj2⟩, hik]
        · rw [if_neg (by rintro ⟨h, _, _⟩; exact hik h)]
          exact d1 i j h1 (by omega) hj1 hj2
      · intro i j hx
        rw [fill_row_cell old mp pm rp (k + 1) old.nab q.1 i j]
        rw [if_neg (by
          rintro ⟨hik, hj1, hj2⟩
          exact hx ⟨by omega, by omega, hj1, hj2⟩)]
        exact d2 i j (fun hc => hx ⟨hc.1, by omega, hc.2.2.1, hc.2.2.2⟩)
      · intro i h1 h2
        by_cases hik : i = k + 1
        · rw [hik, upd_same]
        · rw [upd_other _ _ _ _ hik]
          exact d3 i h1 (by omega)
      · intro i hx
        have hik : i ≠ k + 1 := by omega
        rw [upd_other _ _ _ _ hik]
        exact d4 i (by omega)
      · intro t ht
        obtain ⟨m1, m2, m3⟩ := d5 t ht
        exact ⟨m1, by omega, m3⟩
      · exact d6
      · rw [Icc_filter_succ_card
          (fun i => old.state_attrib (pm i) = 'A') k, if_neg hA, ← d7]
        rfl

theorem cm_root_spec {n : Nat} {g : Nat → Int}
    {cm : (Nat → Nat) × (Nat → Nat) × (Nat → Nat) × Nat × (Nat → Int)}
    (hcm : CMInv n g n cm) (hf : Flat n g) :
    cm.1 (cm.2.2.1 0) = 0 ∧
    (∀ t, 1 ≤ t → t ≤ n →
      cm.2.2.1 t = root g t ∧
      1 ≤ cm.1 (root g t) ∧ cm.1 (root g t) ≤ cm.2.2.2.1 ∧
      cm.2.1 (cm.1 (root g t)) = root g t) := by
  obtain ⟨c1, c2, c3, c4, c5, c6, c7, c8⟩ := hcm
  constructor
  · rw [c4 0 (by rintro ⟨h, _⟩; omega)]
    exact c6 0 (by rintro ⟨h, _⟩; omega)
  · intro t h1 h2
    have hrt := Flat.root_le hf h1 h2
    have hidem : root g (root g t) = root g t := hf.root_idem h1 h2
    obtain ⟨m1, m2, m3⟩ := c5 (root g t) hrt.1 hrt.2 hidem
    exact ⟨c3 t h1 h2, m1, m2, m3⟩

theorem compress_dfa_spec (d out0 : Automaton) (g : Nat → Int)
    (fuel : Nat) :
    (compress_dfa d out0 g fuel).1.nstates
      = (compress_maps d.nstates g fuel).2.2.2.1 ∧
    (compress_dfa d out0 g fuel).1.nab = d.nab ∧
    (compress_dfa d out0 g fuel).1.init_state
      = (compress_maps d.nstates g fuel).1
        ((compress_maps d.nstates g fuel).2.2.1 d.init_state) ∧
    (∀ i j, 1 ≤ i → i ≤ (compress_maps d.nstates g fuel).2.2.2.1 →
      1 ≤ j → j ≤ d.nab →
      (compress_dfa d out0 g fuel).1.mat i j
        = (compress_maps d.nstates g fuel).1
          ((compress_maps d.nstates g fuel).2.2.1
            (d.mat ((compress_maps d.nstates g fuel).2.1 i) j))) ∧
    (∀ i j, ¬ (1 ≤ i ∧ i ≤ (compress_maps d.nstates g fuel).2.2.2.1 ∧
        1 ≤ j ∧ j ≤ d.nab) →
      (compress_dfa d out0 g fuel).1.mat i j = out0.mat i j) ∧
    (∀ i, 1 ≤ i → i ≤ (compress_maps d.nstates g fuel).2.2.2.1 →
      (compress_dfa d out0 g fuel).1.state_attrib i
        = d.state_attrib ((compress_maps d.nstates g fuel).2.1 i)) ∧
    (∀ i, ¬ (1 ≤ i ∧ i ≤ (compress_maps d.nstates g fuel).2.2.2.1) →
      (compress_dfa d out0 g fuel).1.state_attrib i
        = out0.state_attrib i) ∧
    (∀ t, t < ((Finset.Icc 1
        (compress_maps d.nstates g fuel).2.2.2.1).filter
        (fun i => d.state_attrib
          ((compress_maps d.nstates g fuel).2.1 i) = 'A')).card →
      1 ≤ (compress_dfa d out0 g fuel).1.accept t ∧
      (compress_dfa d out0 g fuel).1.accept t
        ≤ (compress_maps d.nstates g fuel).2.2.2.1 ∧
      (compress_dfa d out0 g fuel).1.state_attrib
        ((compress_dfa d out0 g fuel).1.accept t) = 'A') := by
  obtain ⟨d1, d2, d3, d4, d5, d6, d7⟩ :=
    compress_fill_inv d out0 (compress_maps d.nstates g fuel).1
      (compress_maps d.nstates g fuel).2.1
      (compress_maps d.nstates g fuel).2.2.1
      (compress_maps d.nstates g fuel).2.2.2.1
  refine ⟨rfl, rfl, rfl, ?_, ?_, ?_, ?_, ?_⟩
  · intro i j h1 h2 hj1 hj2
    exact d1 i j h1 h2 hj1 hj2
  · intro i j hx
    exact d2 i j hx
  · intro i h1 h2
    exact d3 i h1 h2
  · intro i hx
    exact d4 i hx
  · intro t ht
    rw [← d7] at ht
    obtain ⟨m1, m2, m3⟩ := d5 t ht
    exact ⟨m1, m2, (d3 _ m1 m2).trans m3⟩

/-! ## Claim C3 -/

/-- C3 (amended): for every partition vector satisfying the invariants the
refiner maintains, the representative that `compress_dfa` keeps for the
class of a state `x` — the old id stored in `pam` at the new id assigned
via `map` — is the class's union-find root, not its smallest member: and
whenever the class has more than one member (negative weight at the
root), some member of the class is strictly smaller than the kept
representative. -/
theorem claim_C3_representative_is_root (n : Nat) (g : Nat → Int)
    (fuel : Nat) (hf : Flat n g) (hrs : RootSecond n g)
    (hfuel : 2 ≤ fuel) :
    ∀ x, 1 ≤ x → x ≤ n →
      (compress_maps n g fuel).2.1
        ((compress_maps n g fuel).1 ((compress_maps n g fuel).2.2.1 x))
        = root g x ∧
      (g (root g x) < 0 →
        ∃ y, 1 ≤ y ∧ y ≤ n ∧ root g y = root g x ∧ y < root g x) := by
  have hcm := compress_maps_spec n g fuel hf hfuel
  have hR := cm_root_spec hcm hf
  intro x h1 h2
  obtain ⟨e1, e2, e3, e4⟩ := hR.2 x h1 h2
  constructor
  · rw [e1]
    exact e4
  · intro hneg
    have hrb := Flat.root_le hf h1 h2
    have hcard := hrs (root g x) hrb.2 hrb.1 hneg
    have hne : ((Finset.Icc 1 n).filter
        (fun e => root g e = root g x ∧ e < root g x)).Nonempty := by
      rw [← Finset.card_pos, hcard]
      omega
    obtain ⟨y, hy⟩ := hne
    rw [Finset.mem_filter, Finset.mem_Icc] at hy
    exact ⟨y, hy.1.1, hy.1.2, hy.2.1, hy.2.2⟩

theorem claim_C3_witness :
    Flat 2 gTwoFinal ∧ RootSecond 2 gTwoFinal ∧
    ((compress_maps 2 gTwoFinal 3).2.1
      ((compress_maps 2 gTwoFinal 3).1
        ((compress_maps 2 gTwoFinal 3).2.2.1 1)) = root gTwoFinal 1 ∧
     (gTwoFinal (root gTwoFinal 1) < 0 →
       ∃ y, 1 ≤ y ∧ y ≤ 2 ∧ root gTwoFinal y = root gTwoFinal 1 ∧
         y < root gTwoFinal 1)) :=
  ⟨by decide, by decide,
    claim_C3_representative_is_root 2 gTwoFinal 3 (by decide) (by decide)
      (by decide) 1 (by decide) (by decide)⟩

theorem claim_C3_counterexample :
    ValidDFA dfaTwoLoop ∧
    Flat 2 gTwoFinal ∧ RootSecond 2 gTwoFinal ∧
    (partition dfaTwoLoop gTwoFinal 3).1 = false ∧
    root gTwoFinal 1 = 2 ∧ root gTwoFinal 2 = 2 ∧
    (compress_maps 2 gTwoFinal 3).2.2.2.1 = 1 ∧
    (compress_maps 2 gTwoFinal 3).2.1
      ((compress_maps 2 gTwoFinal 3).1
        ((compress_maps 2 gTwoFinal 3).2.2.1 1)) = 2 := by
  decide

/-! ## Claim C2 -/

/-- C2 (amended): on a valid input DFA and a flat final partition, the
automaton `compress_dfa` builds satisfies the transition-range and
accept-list invariants of the output format — every transition entry of
an in-range row and column lies in `{0} ∪ [1, out.nstates]`, and every
id written to the accept list is in range and carries attribute 'A' —
but its initial state is `map[rep[old init]]`, the new id of the class
of the OLD initial state, which is in `[1, out.nstates]` and need not be
the internal id 1. -/
theorem claim_C2_compress_invariants (d out0 : Automaton) (g : Nat → Int)
    (fuel : Nat) (hv : ValidDFA d) (hf : Flat d.nstates g)
    (hfuel : 2 ≤ fuel) :
    (∀ i j, 1 ≤ i → i ≤ (compress_dfa d out0 g fuel).1.nstates →
      1 ≤ j → j ≤ (compress_dfa d out0 g fuel).1.nab →
      (compress_dfa d out0 g fuel).1.mat i j
        ≤ (compress_dfa d out0 g fuel).1.nstates) ∧
    (∀ t, t < ((Finset.Icc 1
        (compress_maps d.nstates g fuel).2.2.2.1).filter
        (fun i => d.state_attrib
          ((compress_maps d.nstates g fuel).2.1 i) = 'A')).card →
      1 ≤ (compress_dfa d out0 g fuel).1.accept t ∧
      (compress_dfa d out0 g fuel).1.accept t
        ≤ (compress_dfa d out0 g fuel).1.nstates ∧
      (compress_dfa d out0 g fuel).1.state_attrib
        ((compress_dfa d out0 g fuel).1.accept t) = 'A') ∧
    (compress_dfa d out0 g fuel).1.init_state
      = (compress_maps d.nstates g fuel).1
        ((compress_maps d.nstates g fuel).2.2.1 1) ∧
    1 ≤ (compress_dfa d out0 g fuel).1.init_state ∧
    (compress_dfa d out0 g fuel).1.init_state
      ≤ (compress_dfa d out0 g fuel).1.nstates := by
  obtain ⟨s1, s2, s3, s4, s5, s6, s7, s8⟩ :=
    compress_dfa_spec d out0 g fuel
  have hcm := compress_maps_spec d.nstates g fuel hf hfuel
  have hR := cm_root_spec hcm hf
  obtain ⟨c1, c2, c3, c4, c5, c6, c7, c8⟩ := hcm
  refine ⟨?_, ?_, ?_, ?_, ?_⟩
  · intro i j h1 h2 hj1 hj2
    rw [s1] at h2
    rw [s2] at hj2
    rw [s4 i j h1 h2 hj1 hj2, s1]
    obtain ⟨p1, p2, p3, p4⟩ := c7 i h1 h2
    have hmt := hv.2.2.2.1 ((compress_maps d.nstates g fuel).2.1 i)
      p2 p1 j hj2 hj1
    by_cases ht : 1 ≤ d.mat ((compress_maps d.nstates g fuel).2.1 i) j
    · obtain ⟨e1, e2, e3, e4⟩ := hR.2 _ ht hmt
      rw [e1]
      exact e3
    · have ht0 : d.mat ((compress_maps d.nstates g fuel).2.1 i) j = 0 := by
        omega
      rw [ht0, hR.1]
      omega
  · intro t ht
    obtain ⟨m1, m2, m3⟩ := s8 t ht
    refine ⟨m1, ?_, m3⟩
    rw [s1]
    exact m2
  · rw [s3, hv.2.2.1]
  · rw [s3, hv.2.2.1]
    obtain ⟨e1, e2, e3, e4⟩ := hR.2 1 (le_refl 1) hv.1
    rw [e1]
    exact e2
  · rw [s3, hv.2.2.1, s1]
    obtain ⟨e1, e2, e3, e4⟩ := hR.2 1 (le_refl 1) hv.1
    rw [e1]
    exact e3

theorem claim_C2_witness :
    ValidDFA dfaThree ∧ Flat 3 gThreeFinal ∧
    1 ≤ (compress_dfa dfaThree zeroAutomaton gThreeFinal 4).1.init_state ∧
    (compress_dfa dfaThree zeroAutomaton gThreeFinal 4).1.init_state
      ≤ (compress_dfa dfaThree zeroAutomaton gThreeFinal 4).1.nstates ∧
    (∀ i j, 1 ≤ i →
      i ≤ (compress_dfa dfaThree zeroAutomaton gThreeFinal 4).1.nstates →
      1 ≤ j →
      j ≤ (compress_dfa dfaThree zeroAutomaton gThreeFinal 4).1.nab →
      (compress_dfa dfaThree zeroAutomaton gThreeFinal 4).1.mat i j
        ≤ (compress_dfa dfaThree zeroAutomaton gThreeFinal 4).1.nstates) := by
  have h := claim_C2_compress_invariants dfaThree zeroAutomaton gThreeFinal
    4 (by decide) (by decide) (by decide)
  exact ⟨by decide, by decide, h.2.2.2.1, h.2.2.2.2, h.1⟩

theorem claim_C2_counterexample :
    ValidDFA dfaThree ∧
    Flat 3 gThreeFinal ∧ RootSecond 3 gThreeFinal ∧
    (partition dfaThree gThreeFinal 4).1 = false ∧
    (compress_dfa dfaThree zeroAutomaton gThreeFinal 4).1.init_state
      = 2 := by
  decide

/-! ## Claim C1: language preservation of the whole pipeline -/

theorem deltaStar_congr_mat (d1 d2 : Automaton)
    (h : ∀ s a, d1.mat s a = d2.mat s a) :
    ∀ w s, deltaStar d1 s w = deltaStar d2 s w := by
  intro w
  induction w with
  | nil =>
    intro s
    rfl
  | cons a w ihw =>
    intro s
    show deltaStar d1 (d1.mat s a) w = deltaStar d2 (d2.mat s a) w
    rw [h s a]
    exact ihw _

theorem deltaStar_zero (d : Automaton)
    (hz : ∀ a, 1 ≤ a → a ≤ d.nab → d.mat 0 a = 0) :
    ∀ w, (∀ a ∈ w, 1 ≤ a ∧ a ≤ d.nab) → deltaStar d 0 w = 0 := by
  intro w
  induction w with
  | nil =>
    intro _
    rfl
  | cons a w ihw =>
    intro hw
    have ha := hw a (List.mem_cons_self a w)
    show deltaStar d (d.mat 0 a) w = 0
    rw [hz a ha.1 ha.2]
    exact ihw (fun b hb => hw b (List.mem_cons_of_mem a hb))

theorem deltaStar_range (d : Automaton)
    (hmat : ∀ s, s ≤ d.nstates → 1 ≤ s → ∀ j, j ≤ d.nab → 1 ≤ j →
      d.mat s j ≤ d.nstates)
    (hz : ∀ a, 1 ≤ a → a ≤ d.nab → d.mat 0 a = 0) :
    ∀ w, (∀ a ∈ w, 1 ≤ a ∧ a ≤ d.nab) → ∀ s, s ≤ d.nstates →
      deltaStar d s w ≤ d.nstates := by
  intro w
  induction w with
  | nil =>
    intro _ s hs
    exact hs
  | cons a w ihw =>
    intro hw s hs
    have ha := hw a (List.mem_cons_self a w)
    have hw' := fun b hb => hw b (List.mem_cons_of_mem a hb)
    show deltaStar d (d.mat s a) w ≤ d.nstates
    by_cases h1 : 1 ≤ s
    · exact ihw hw' _ (hmat s hs h1 a ha.2 ha.1)
    · have hs0 : s = 0 := by omega
      rw [hs0, hz a ha.1 ha.2]
      exact ihw hw' 0 (by omega)

theorem deltaStar_rtg (d : Automaton)
    (hmat : ∀ s, s ≤ d.nstates → 1 ≤ s → ∀ j, j ≤ d.nab → 1 ≤ j →
      d.mat s j ≤ d.nstates)
    (hz : ∀ a, 1 ≤ a → a ≤ d.nab → d.mat 0 a = 0) :
    ∀ w, (∀ a ∈ w, 1 ≤ a ∧ a ≤ d.nab) → ∀ s, 1 ≤ s → s ≤ d.nstates →
      deltaStar d s w = 0 ∨
      (Relation.ReflTransGen (stepRel d) s (deltaStar d s w) ∧
        1 ≤ deltaStar d s w ∧ deltaStar d s w ≤ d.nstates) := by
  intro w
  induction w with
  | nil =>
    intro _ s h1 h2
    exact Or.inr ⟨Relation.ReflTransGen.refl, h1, h2⟩
  | cons a w ihw =>
    intro hw s h1 h2
    have ha := hw a (List.mem_cons_self a w)
    have hw' := fun b hb => hw b (List.mem_cons_of_mem a hb)
    by_cases ht : 1 ≤ d.mat s a
    · have htn : d.mat s a ≤ d.nstates := hmat s h2 h1 a ha.2 ha.1
      rcases ihw hw' (d.mat s a) ht htn with h | ⟨hr, hb1, hb2⟩
      · exact Or.inl h
      · refine Or.inr ⟨?_, hb1, hb2⟩
        exact Relation.ReflTransGen.head ⟨a, ha.1, ha.2, rfl, by omega⟩ hr
    · have ht0 : d.mat s a = 0 := by omega
      refine Or.inl ?_
      show deltaStar d (d.mat s a) w = 0
      rw [ht0]
      exact deltaStar_zero d hz w hw'

theorem find_dead_attrib_iff (dfa : Automaton) (c0 : Nat → Nat → Bool)
    (x : Nat)
    (hx : x = 0 ∨ (1 ≤ x ∧ x ≤ dfa.nstates ∧
      connAfter dfa c0 dfa.init_state x = true)) :
    ((find_dead_states dfa c0).state_attrib x = 'A'
      ↔ dfa.state_attrib x = 'A') := by
  have hc1 := loop1_cellwise
    (fun i a => if connAfter dfa c0 dfa.init_state i = false
      then upd a i 'D' else a)
    (fun i v => if connAfter dfa c0 dfa.init_state i = false
      then 'D' else v)
    (fun i a z hz => by
      show (if connAfter dfa c0 dfa.init_state i = false
        then upd a i 'D' else a) z = a z
      by_cases hc : connAfter dfa c0 dfa.init_state i = false
      · rw [if_pos hc, upd_other _ _ _ _ hz]
      · rw [if_neg hc])
    (fun i a => by
      show (if connAfter dfa c0 dfa.init_state i = false
          then upd a i 'D' else a) i
        = if connAfter dfa c0 dfa.init_state i = false then 'D' else a i
      by_cases hc : connAfter dfa c0 dfa.init_state i = false
      · rw [if_pos hc, if_pos hc, upd_same]
      · rw [if_neg hc, if_neg hc])
    dfa.nstates dfa.state_attrib
  have hc2 := loop1_cellwise
    (fun i a => if a i = 'D' ∨ a i = 'A' then a
      else if accept_scan dfa.accept (connAfter dfa c0) i 0
        (dfa.nstates + 1) = true then a
      else upd a i 'D')
    (fun i v => if v = 'D' ∨ v = 'A' then v
      else if accept_scan dfa.accept (connAfter dfa c0) i 0
        (dfa.nstates + 1) = true then v
      else 'D')
    (fun i a z hz => by
      show (if a i = 'D' ∨ a i = 'A' then a
        else if accept_scan dfa.accept (connAfter dfa c0) i 0
          (dfa.nstates + 1) = true then a
        else upd a i 'D') z = a z
      by_cases h1 : a i = 'D' ∨ a i = 'A'
      · rw [if_pos h1]
      · rw [if_neg h1]
        by_cases h2 : accept_scan dfa.accept (connAfter dfa c0) i 0
            (dfa.nstates + 1) = true
        · rw [if_pos h2]
        · rw [if_neg h2, upd_other _ _ _ _ hz])
    (fun i a => by
      show (if a i = 'D' ∨ a i = 'A' then a
          else if accept_scan dfa.accept (connAfter dfa c0) i 0
            (dfa.nstates + 1) = true then a
          else upd a i 'D') i
        = if a i = 'D' ∨ a i = 'A' then a i
          else if accept_scan dfa.accept (connAfter dfa c0) i 0
            (dfa.nstates + 1) = true then a i
          else 'D'
      by_cases h1 : a i = 'D' ∨ a i = 'A'
      · rw [if_pos h1, if_pos h1]
      · rw [if_neg h1, if_neg h1]
        by_cases h2 : accept_scan dfa.accept (connAfter dfa c0) i 0
            (dfa.nstates + 1) = true
        · rw [if_pos h2, if_pos h2]
        · rw [if_neg h2, if_neg h2, upd_same])
    dfa.nstates
    (loop1 (fun i a => if connAfter dfa c0 dfa.init_state i = false
      then upd a i 'D' else a) dfa.nstates dfa.state_attrib)
  have hrw : (find_dead_states dfa c0).state_attrib x
      = loop1 (fun i a => if a i = 'D' ∨ a i = 'A' then a
          else if accept_scan dfa.accept (connAfter dfa c0) i 0
            (dfa.nstates + 1) = true then a
          else upd a i 'D') dfa.nstates
        (loop1 (fun i a => if connAfter dfa c0 dfa.init_state i = false
          then upd a i 'D' else a) dfa.nstates dfa.state_attrib) x := rfl
  rw [hrw, hc2 x]
  rcases hx with hx0 | ⟨hx1, hxn, hconn⟩
  · rw [if_neg (by rintro ⟨h, _⟩; omega), hc1 x,
      if_neg (by rintro ⟨h, _⟩; omega)]
  · rw [if_pos (⟨hx1, hxn⟩ : 1 ≤ x ∧ x ≤ dfa.nstates), hc1 x,
      if_pos (⟨hx1, hxn⟩ : 1 ≤ x ∧ x ≤ dfa.nstates)]
    rw [if_neg (by simp [hconn] :
      ¬ connAfter dfa c0 dfa.init_state x = false)]
    by_cases hA : dfa.state_attrib x = 'A'
    · rw [if_pos (Or.inr hA)]
    · by_cases hD : dfa.state_attrib x = 'D'
      · rw [if_pos (Or.inl hD)]
      · rw [if_neg (by rintro (h | h); exacts [hD h, hA h])]
        by_cases hs : accept_scan dfa.accept (connAfter dfa c0) x 0
            (dfa.nstates + 1) = true
        · rw [if_pos hs]
        · rw [if_neg hs]
          constructor
          · intro h
            exact absurd h (by decide)
          · intro h
            exact absurd h hA

theorem compress_mat_bound (d out0 : Automaton) (g : Nat → Int)
    (fuel : Nat) (hf : Flat d.nstates g) (hfuel : 2 ≤ fuel)
    (hmat : ∀ s, s ≤ d.nstates → 1 ≤ s → ∀ j, j ≤ d.nab → 1 ≤ j →
      d.mat s j ≤ d.nstates) :
    ∀ i j, 1 ≤ i → i ≤ (compress_dfa d out0 g fuel).1.nstates →
      1 ≤ j → j ≤ (compress_dfa d out0 g fuel).1.nab →
      (compress_dfa d out0 g fuel).1.mat i j
        ≤ (compress_dfa d out0 g fuel).1.nstates := by
  obtain ⟨s1, s2, s3, s4, s5, s6, s7, s8⟩ := compress_dfa_spec d out0 g fuel
  have hcm := compress_maps_spec d.nstates g fuel hf hfuel
  have hR := cm_root_spec hcm hf
  obtain ⟨c1, c2, c3, c4, c5, c6, c7, c8⟩ := hcm
  intro i j h1 h2 hj1 hj2
  rw [s1] at h2
  rw [s2] at hj2
  rw [s4 i j h1 h2 hj1 hj2, s1]
  obtain ⟨p1, p2, p3, p4⟩ := c7 i h1 h2
  have hmt := hmat ((compress_maps d.nstates g fuel).2.1 i) p2 p1 j hj2 hj1
  by_cases ht : 1 ≤ d.mat ((compress_maps d.nstates g fuel).2.1 i) j
  · obtain ⟨e1, e2, e3, e4⟩ := hR.2 _ ht hmt
    rw [e1]
    exact e3
  · have ht0 : d.mat ((compress_maps d.nstates g fuel).2.1 i) j = 0 := by
      omega
    rw [ht0, hR.1]
    omega

/-- C1: for every valid input DFA and every word over its alphabet, the
minimized automaton produced by `minimize_dfa` (partition initialization,
refinement to fixpoint, compression, dead-state marking) accepts the word
if and only if the input does.  The hypotheses on `out0` say that row 0
of the static output matrix is zero and its attribute cell 0 is not 'A',
which holds on every run because `compress_dfa` never writes row 0 or
attribute cell 0 of the zero-initialized static automaton. -/
theorem claim_C1_language_preserved (d out0 : Automaton) (g0 : Nat → Int)
    (c0 : Nat → Nat → Bool) (hv : ValidDFA d)
    (hm0 : ∀ j, j ≤ d.nab → 1 ≤ j → out0.mat 0 j = 0)
    (ha0 : ¬ out0.state_attrib 0 = 'A')
    (w : List Nat) (hw : ∀ a ∈ w, 1 ≤ a ∧ a ≤ d.nab) :
    (accepts (minimize_dfa d out0 g0 c0) w ↔ accepts d w) := by
  obtain ⟨hn1, hnab1, hinit, hmat, hsink, hattr0, hacc⟩ := hv
  have hz' : ∀ a, 1 ≤ a → a ≤ d.nab → d.mat 0 a = 0 :=
    fun a h1 h2 => hsink a h2 h1
  have hfi := init_partitions_spec d.nstates d.state_attrib g0
    (d.nstates + 1) (by omega)
  set g1 := init_partitions d.nstates d.state_attrib g0 (d.nstates + 1)
    with hg1def
  obtain ⟨f1, f2, f3⟩ := hfi
  have hrf := refine_fixpoint d hmat hn1 d.nstates g1 f1 f2
    (by have := classCount_pos f1 hn1; omega)
  set g2 := refine_loop d d.nstates g1 with hg2def
  obtain ⟨r1, r2, r3, r4⟩ := hrf
  have hps := partition_spec d g2 (d.nstates + 1) hmat (by omega) r1 r2
  obtain ⟨p1, p2, p3, p4, p5, p6⟩ := hps
  have hsig : SigCompat d g2 := (p3 r3).2
  have hattr2 : AttrCompat d.nstates d.state_attrib g2 := by
    intro x y hxn hx1 hyn hy1 hrxy
    have h1 := r4 x hx1 hxn
    have h2 := r4 y hy1 hyn
    refine f3 x y hxn hx1 hyn hy1 ?_
    rw [← h1, ← h2, hrxy]
  have hcm := compress_maps_spec d.nstates g2 (d.nstates + 1) r1 (by omega)
  have hR := cm_root_spec hcm r1
  have hcds := compress_dfa_spec d out0 g2 (d.nstates + 1)
  have hmb := compress_mat_bound d out0 g2 (d.nstates + 1) r1 (by omega)
    hmat
  set cm := compress_maps d.nstates g2 (d.nstates + 1) with hcmdef
  set out := (compress_dfa d out0 g2 (d.nstates + 1)).1 with houtdef
  obtain ⟨c1, c2, c3, c4, c5, c6, c7, c8⟩ := hcm
  obtain ⟨s1, s2, s3, s4, s5, s6, s7, s8⟩ := hcds
  obtain ⟨hR0, hRs⟩ := hR
  have hmini : minimize_dfa d out0 g0 c0 = find_dead_states out c0 := rfl
  have hhs : ∀ s, 1 ≤ s → s ≤ d.nstates →
      1 ≤ cm.1 (cm.2.2.1 s) ∧ cm.1 (cm.2.2.1 s) ≤ cm.2.2.2.1 ∧
      cm.2.1 (cm.1 (cm.2.2.1 s)) = root g2 s := by
    intro s h1 h2
    obtain ⟨e1, e2, e3, e4⟩ := hRs s h1 h2
    rw [e1]
    exact ⟨e2, e3, e4⟩
  have hmap_eq : ∀ t1 t2, t1 ≤ d.nstates → t2 ≤ d.nstates →
      clsv g2 t1 = clsv g2 t2 →
      cm.1 (cm.2.2.1 t1) = cm.1 (cm.2.2.1 t2) := by
    intro t1 t2 hb1 hb2 hcl
    by_cases h1 : 1 ≤ t1
    · have hr1 := Flat.root_le r1 h1 hb1
      have hcl1 : clsv g2 t1 = root g2 t1 := by
        unfold clsv
        rw [if_pos (by omega : t1 > 0)]
      by_cases h2 : 1 ≤ t2
      · have hcl2 : clsv g2 t2 = root g2 t2 := by
          unfold clsv
          rw [if_pos (by omega : t2 > 0)]
        obtain ⟨e1, _, _, _⟩ := hRs t1 h1 hb1
        obtain ⟨e1', _, _, _⟩ := hRs t2 h2 hb2
        rw [e1, e1']
        rw [hcl1, hcl2] at hcl
        rw [hcl]
      · exfalso
        have ht20 : t2 = 0 := by omega
        have hz0 : clsv g2 0 = 0 := by
          unfold clsv
          rw [if_neg (by omega : ¬ (0 : Nat) > 0)]
        rw [ht20, hz0, hcl1] at hcl
        omega
    · have ht10 : t1 = 0 := by omega
      by_cases h2 : 1 ≤ t2
      · exfalso
        have hr2 := Flat.root_le r1 h2 hb2
        have hcl2 : clsv g2 t2 = root g2 t2 := by
          unfold clsv
          rw [if_pos (by omega : t2 > 0)]
        have hz0 : clsv g2 0 = 0 := by
          unfold clsv
          rw [if_neg (by omega : ¬ (0 : Nat) > 0)]
        rw [ht10, hz0, hcl2] at hcl
        omega
      · have ht20 : t2 = 0 := by omega
        rw [ht10, ht20]
  have hstep : ∀ s a, 1 ≤ s → s ≤ d.nstates → 1 ≤ a → a ≤ d.nab →
      out.mat (cm.1 (cm.2.2.1 s)) a = cm.1 (cm.2.2.1 (d.mat s a)) := by
    intro s a h1 h2 ha1 ha2
    obtain ⟨e2, e3, e4⟩ := hhs s h1 h2
    rw [s4 (cm.1 (cm.2.2.1 s)) a e2 e3 ha1 ha2, e4]
    have hrb := Flat.root_le r1 h1 h2
    have hse : sigEq d g2 (root g2 s) s :=
      hsig (root g2 s) s hrb.2 hrb.1 h2 h1 (r1.root_idem h1 h2)
    exact hmap_eq _ _ (hmat (root g2 s) hrb.2 hrb.1 a ha2 ha1)
      (hmat s h2 h1 a ha2 ha1) (hse a ha1 ha2)
  have hout0 : ∀ a, 1 ≤ a → a ≤ out.nab → out.mat 0 a = 0 := by
    intro a ha1 ha2
    rw [s5 0 a (by rintro ⟨h, _⟩; omega)]
    exact hm0 a (by rw [← s2]; exact ha2) ha1
  have hw' : ∀ a ∈ w, 1 ≤ a ∧ a ≤ out.nab :=
    fun b hb => ⟨(hw b hb).1, by rw [s2]; exact (hw b hb).2⟩
  have hmb' : ∀ s, s ≤ out.nstates → 1 ≤ s → ∀ j, j ≤ out.nab → 1 ≤ j →
      out.mat s j ≤ out.nstates :=
    fun s hsn hs1 j hjn hj1 => hmb s j hs1 hsn hj1 hjn
  have hdelta : ∀ w2, (∀ a ∈ w2, 1 ≤ a ∧ a ≤ d.nab) →
      ∀ s, s ≤ d.nstates →
      deltaStar out (cm.1 (cm.2.2.1 s)) w2
        = cm.1 (cm.2.2.1 (deltaStar d s w2)) := by
    intro w2
    induction w2 with
    | nil =>
      intro _ s _
      rfl
    | cons a w2 ihw =>
      intro hw2 s hs
      have ha := hw2 a (List.mem_cons_self a w2)
      have hw2' := fun b hb => hw2 b (List.mem_cons_of_mem a hb)
      by_cases h1 : 1 ≤ s
      · show deltaStar out (out.mat (cm.1 (cm.2.2.1 s)) a) w2
          = cm.1 (cm.2.2.1 (deltaStar d (d.mat s a) w2))
        rw [hstep s a h1 hs ha.1 ha.2]
        exact ihw hw2' (d.mat s a) (hmat s hs h1 a ha.2 ha.1)
      · have hs0 : s = 0 := by omega
        subst hs0
        have hl2 : ∀ b ∈ a :: w2, 1 ≤ b ∧ b ≤ out.nab :=
          fun b hb => ⟨(hw2 b hb).1, by rw [s2]; exact (hw2 b hb).2⟩
        rw [hR0, deltaStar_zero out hout0 (a :: w2) hl2,
          deltaStar_zero d hz' (a :: w2) hw2, hR0]
  have hinit' : out.init_state = cm.1 (cm.2.2.1 1) := by
    rw [s3, hinit]
  obtain ⟨i2, i3, i4⟩ := hhs 1 (le_refl 1) hn1
  have hi1 : 1 ≤ out.init_state := by
    rw [hinit']
    exact i2
  have hin : out.init_state ≤ out.nstates := by
    rw [hinit', s1]
    exact i3
  have hrange := deltaStar_range d hmat hz' w hw 1 hn1
  set fOld := deltaStar d 1 w with hfOlddef
  have hdw : deltaStar out out.init_state w = cm.1 (cm.2.2.1 fOld) := by
    rw [hinit']
    exact hdelta w hw 1 hn1
  rw [hmini]
  unfold accepts
  have hfd_eq : deltaStar (find_dead_states out c0)
      (find_dead_states out c0).init_state w
      = deltaStar out out.init_state w :=
    deltaStar_congr_mat (find_dead_states out c0) out (fun s a => rfl) w
      ((find_dead_states out c0).init_state)
  have hrun : deltaStar (find_dead_states out c0)
      (find_dead_states out c0).init_state w = cm.1 (cm.2.2.1 fOld) :=
    hfd_eq.trans hdw
  rw [hrun, hinit, ← hfOlddef]
  by_cases hf0 : 1 ≤ fOld
  · obtain ⟨e2', e3', e4'⟩ := hhs fOld hf0 hrange
    have hb2n : cm.1 (cm.2.2.1 fOld) ≤ out.nstates := by
      rw [s1]
      exact e3'
    have hat : out.state_attrib (cm.1 (cm.2.2.1 fOld))
        = d.state_attrib (root g2 fOld) := by
      rw [s6 _ e2' e3', e4']
    have hrb := Flat.root_le r1 hf0 hrange
    have hiff : (d.state_attrib (root g2 fOld) = 'A')
        ↔ (d.state_attrib fOld = 'A') :=
      hattr2 (root g2 fOld) fOld hrb.2 hrb.1 hrange hf0
        (r1.root_idem hf0 hrange)
    rcases deltaStar_rtg out hmb' hout0 w hw' out.init_state hi1 hin
        with h0 | ⟨hr, hb1, hb2⟩
    · exfalso
      rw [hdw] at h0
      omega
    · rw [hdw] at hr
      have hconn : connAfter out c0 out.init_state
          (cm.1 (cm.2.2.1 fOld)) = true := by
        have hbp := (rtg_to_bpath out hmb' c0 out.init_state
          (cm.1 (cm.2.2.1 fOld)) hr hi1 hin).1
        unfold connAfter
        rw [t_closure_eq_wfold]
        exact (wfold_iff_bpath _ out.nstates (le_refl _) _ _
          hi1 hin e2' hb2n).mpr hbp
      have hfd := find_dead_attrib_iff out c0 (cm.1 (cm.2.2.1 fOld))
        (Or.inr ⟨e2', hb2n, hconn⟩)
      rw [hfd, hat, hiff]
  · have hf00 : fOld = 0 := by omega
    rw [hf00, hR0]
    have hfd0 := find_dead_attrib_iff out c0 0 (Or.inl rfl)
    rw [hfd0, s7 0 (by rintro ⟨h, _⟩; omega)]
    constructor
    · intro h
      exact absurd h ha0
    · intro h
      exact absurd h hattr0

theorem claim_C1_witness :
    (accepts (minimize_dfa dfaThree zeroAutomaton zeroGroups zeroConn) [1]
      ↔ accepts dfaThree [1]) ∧ accepts dfaThree [1] :=
  ⟨claim_C1_language_preserved dfaThree zeroAutomaton zeroGroups zeroConn
      (by decide) (by decide) (by decide) [1] (by decide),
    by decide⟩

end Minauto
